import Mathlib

/-!
The visioner sampler (`visioner/src/sampler.cc`): a shallow embedding of
`bob::visioner::Sampler`.

Conventions of the embedding.

* A function returns `Option`: `none` stands for a run that does not produce a
  result in the source, namely a loop that does not terminate, a signed
  overflow of an `int` loop variable, or a vector access outside its bounds.
* `uint64_t` counters and indices are `Nat` (a wrap needs `2^64` accepted scan
  positions, each of them one tagger call); `int` scan coordinates are `Int`,
  and the increment of a scan loop is checked against `INT_MAX`.
* `double` values are rationals (exact arithmetic).
* The collaborators whose code is outside `sampler.cc` (tagger, image pyramid,
  list-file reader, random generator, thread count and ranges, data set) are
  parameters, bundled in `Ext`.
-/

namespace Visioner

/-! ## Data model -/

/-- One scale of one image: the scan bounds read by the sampler, and a number
standing for the pixel content. -/
structure ipscale_t where
  m_scan_min_x : Int
  m_scan_max_x : Int
  m_scan_dx : Int
  m_scan_min_y : Int
  m_scan_max_y : Int
  m_scan_dy : Int
  m_image : Nat
deriving DecidableEq, Repr

/-- The tagger interface used by the sampler: `check ip x y` is `some (targets, type)`
when `m_tagger->check(ip, x, y, targets, type)` is true and `none` when it is false. -/
structure Tagger where
  check : ipscale_t → Int → Int → Option (List ℚ × Nat)
  n_outputs : Nat
  n_types : Nat

/-- The loss interface used by the sampler: `error targets scores n_outputs` is
`m_loss->error(&targets[0], &scores[0], n_outputs())`. -/
structure Loss where
  error : List ℚ → List ℚ → Nat → ℚ

/-- The model interface used by the sampler. A model is cloned by every worker and
preprocessed for one scaled image at a time: `score ip o x y` is `score(o, x, y)` and
`get ip f x y` is `get(f, x, y)` after `preprocess(ip)`. -/
structure Model where
  score : ipscale_t → Nat → Int → Int → ℚ
  get : ipscale_t → Nat → Int → Int → ℚ
  n_features : Nat
  n_fvalues : Nat

/-- Modelled from the spec: `DataSet` is declared outside `sampler.cc`; it holds the
"dense arrays `target[example][output]`, `value[feature][example]`, `cost[example]`". -/
structure DataSet where
  m_targets : List (List ℚ)
  m_values : List (List ℚ)
  m_costs : List ℚ

/-- The fields of `param_t` read by the sampler. -/
structure param_t where
  m_seed : Nat
  m_train_data : String
  m_valid_data : String

/-- The two kinds of sampler. -/
inductive SamplerType where
  | TrainSampler
  | ValidSampler
deriving DecidableEq, Repr

/-- The collaborators of the sampler that live outside `sampler.cc`, for a generator
state type `G`: `mt19937 seed` is the freshly seeded generator, `die g` one draw of
`boost::uniform_01` together with the advanced generator, `thread_ranges m` the
per-thread ranges into which `thread_loop` and `thread_iloop` split `m` elements, and
`dataset_resize data n_outputs n_examples n_features n_fvalues` the data set after
`data.resize(...)`. -/
structure Ext (G : Type) where
  make_tagger : param_t → Tagger
  make_loss : param_t → Loss
  load_listfiles : String → Option (List String × List String)
  ipyramid_load : String → String → Option (List ipscale_t)
  n_threads : Nat
  thread_ranges : Nat → List (Nat × Nat)
  mt19937 : Nat → G
  die : G → ℚ × G
  dataset_resize : DataSet → Nat → Nat → Nat → Nat → DataSet

/-- The member variables of `Sampler`. -/
structure Sampler (G : Type) where
  m_tagger : Tagger
  m_loss : Loss
  m_n_outputs : Nat
  m_n_samples : Nat
  m_n_types : Nat
  m_rgens : List G
  m_tcounts : List Nat
  m_sprobs : List ℚ
  m_ipscales : List ipscale_t
  m_ipsbegins : List Nat
  m_ipsends : List Nat

variable {G : Type}

/-- Number of retained scaled images, `n_images()`. -/
def Sampler.n_images (S : Sampler G) : Nat := S.m_ipscales.length

/-- Modelled from the spec: `stat_init` is declared outside `sampler.cc`; the type
vectors are "fixed-size vectors indexed by sample type (0..T-1)", so it resizes its
argument to `n_types()` zero entries. -/
def stat_init {α : Type} [Zero α] (n_types : Nat) : List α := List.replicate n_types 0

/-- Modelled from the spec: `inverse` is declared outside `sampler.cc`; "the shared
inverse helper returns a defined sentinel, e.g. zero, for a zero denominator". -/
def inverse (x : ℚ) : ℚ := if x = 0 then 0 else 1 / x

/-! ## The sliding-window scan -/

/-- The largest `int`. -/
def INT_MAX : Int := 2147483647

/-- The loop `for (int v = v0; v < hi; v += step)`: the values taken by `v` in the
body. The first argument bounds the number of iterations; `none` when the bound is
used up with `v < hi` still true, or when `v += step` overflows. -/
def scan_axis : Nat → Int → Int → Int → Option (List Int)
  | 0, v, hi, _ => if v < hi then none else some []
  | fuel + 1, v, hi, step =>
    if v < hi then
      if INT_MAX < v + step then none
      else (scan_axis fuel (v + step) hi step).map (fun r => v :: r)
    else some []

/-- The loop `for (int v = lo; v < hi; v += step)`. A loop that terminates makes at
most `hi - lo` iterations, because then `step >= 1`. -/
def scan_range (lo hi step : Int) : Option (List Int) :=
  scan_axis (hi - lo).toNat lo hi step

/-- The nested loops `for y ... for x ...` over the scan grid of a scaled image:
the positions `(x, y)` in the order the body sees them. The inner loop has the same
bounds for every `y`, and is not entered when there is no `y`. -/
def scan_positions (ip : ipscale_t) : Option (List (Int × Int)) :=
  match scan_range ip.m_scan_min_y ip.m_scan_max_y ip.m_scan_dy with
  | none => none
  | some [] => some []
  | some (y :: ys) =>
    match scan_range ip.m_scan_min_x ip.m_scan_max_x ip.m_scan_dx with
    | none => none
    | some xs => some ((y :: ys).flatMap (fun y1 => xs.map (fun x => (x, y1))))

/-! ## Construction and loading -/

/-- Body of the scan loops of `Sampler::load` (lines 100-104) on the pair
`(m_tcounts, new_n_samples)`: `m_tcounts[type] ++` is a write outside the vector
when `type` is not below its size. -/
def load_position (tg : Tagger) (ip : ipscale_t) (st : List Nat × Nat) (p : Int × Int) :
    Option (List Nat × Nat) :=
  match tg.check ip p.1 p.2 with
  | none => some st
  | some (_, type) =>
    match st.1[type]? with
    | none => none
    | some c => some (st.1.set type (c + 1), st.2 + 1)

/-- Body of the loop over the scales of one pyramid in `Sampler::load`
(lines 94-114). -/
def load_scale (S : Sampler G) (ip : ipscale_t) : Option (Sampler G) :=
  match scan_positions ip with
  | none => none
  | some ps =>
    let old_n_samples := S.m_n_samples
    match ps.foldlM (load_position S.m_tagger ip) (S.m_tcounts, 0) with
    | none => none
    | some (tcounts, new_n_samples) =>
      if new_n_samples > 0 then
        some { S with
          m_tcounts := tcounts
          m_ipscales := S.m_ipscales ++ [ip]
          m_ipsbegins := S.m_ipsbegins ++ [old_n_samples]
          m_ipsends := S.m_ipsends ++ [old_n_samples + new_n_samples]
          m_n_samples := S.m_n_samples + new_n_samples }
      else some { S with m_tcounts := tcounts }

/-- Body of the loop over the images in `Sampler::load` (lines 79-121): an image
whose pyramid does not load is skipped. -/
def load_image (E : Ext G) (S : Sampler G) (ifile gfile : String) : Option (Sampler G) :=
  match E.ipyramid_load ifile gfile with
  | none => some S
  | some scales => scales.foldlM load_scale S

/-- The method `Sampler::load(ifiles, gfiles)`: the loop runs over the indices of
`ifiles` and reads `gfiles[i]`. -/
def Sampler.load (E : Ext G) : Sampler G → List String → List String → Option (Sampler G)
  | S, [], _ => some S
  | _, _ :: _, [] => none
  | S, i :: ifiles, g :: gfiles =>
    match load_image E S i g with
    | none => none
    | some S1 => Sampler.load E S1 ifiles gfiles

/-- The member initialisers of the constructor and the two `stat_init` calls
(lines 37-50). -/
def Sampler.init (E : Ext G) (param : param_t) : Sampler G :=
  let tg := E.make_tagger param
  { m_tagger := tg
    m_loss := E.make_loss param
    m_n_outputs := tg.n_outputs
    m_n_samples := 0
    m_n_types := tg.n_types
    m_rgens := List.replicate E.n_threads (E.mt19937 param.m_seed)
    m_tcounts := stat_init tg.n_types
    m_sprobs := stat_init tg.n_types
    m_ipscales := []
    m_ipsbegins := []
    m_ipsends := [] }

/-- The list files the constructor passes to `load` (lines 52-63): both lists are
cleared when they cannot be read, are empty, or differ in length. -/
def Sampler.listfiles (E : Ext G) (param : param_t) (type : SamplerType) :
    List String × List String :=
  let data := if type = SamplerType.TrainSampler then param.m_train_data else param.m_valid_data
  match E.load_listfiles data with
  | none => ([], [])
  | some (ifiles, gfiles) =>
    if ifiles.isEmpty || ifiles.length != gfiles.length then ([], []) else (ifiles, gfiles)

/-- The constructor `Sampler::Sampler(param, type)`. -/
def Sampler.new (E : Ext G) (param : param_t) (type : SamplerType) : Option (Sampler G) :=
  let fs := Sampler.listfiles E param type
  Sampler.load E (Sampler.init E param) fs.1 fs.2

/-- The method `Sampler::sample2image(s)`: the first `i < n_images()` with
`m_ipsbegins[i] <= s < m_ipsends[i]`, and `n_images()` when there is none. -/
def Sampler.sample2image (S : Sampler G) (s : Nat) : Nat :=
  ((List.range S.n_images).find?
      (fun i => decide (S.m_ipsbegins.getD i 0 ≤ s ∧ s < S.m_ipsends.getD i 0))).getD S.n_images

/-! ## Sampling -/

/-- The conversion `(uint64_t)cost` of a non-negative `double`: the integer part. The
sampling weights that reach it are non-negative; a cost below `-1` has no `uint64_t`
image in the source and is sent to 0 here. -/
def to_uint64 (cost : ℚ) : Nat := (Rat.floor cost).toNat

/-- The cost-based `Sampler::sample(s, cost, gen, die, samples)` (lines 278-291):
the new `samples` and the advanced generator. -/
def sample_cost (E : Ext G) (s : Nat) (cost : ℚ) (gen : G) (samples : List Nat) :
    List Nat × G :=
  let icost := to_uint64 cost
  let samples1 := if icost > 0 then samples ++ List.replicate icost s else samples
  let cost1 := cost - icost
  let draw := E.die gen
  if draw.1 < cost1 then (samples1 ++ [s], draw.2) else (samples1, draw.2)

/-- Body of the loop that fills `m_sprobs` in the uniform `Sampler::sample`
(lines 140-141), on the vector `m_sprobs`. -/
def uniform_sprobs_step (S : Sampler G) (n_sel_samples : Nat) (sprobs : List ℚ) (iti : Nat) :
    Option (List ℚ) :=
  match S.m_tcounts[iti]? with
  | none => none
  | some c =>
    if iti < sprobs.length then
      some (sprobs.set iti (n_sel_samples * inverse S.m_n_types * inverse c))
    else none

/-- The loop that fills `m_sprobs` in the uniform `Sampler::sample` (lines 138-142). -/
def Sampler.uniform_sprobs (S : Sampler G) (n_sel_samples : Nat) : Option (List ℚ) :=
  (List.range S.m_n_types).foldlM (uniform_sprobs_step S n_sel_samples) S.m_sprobs

/-- Body of the loop that fills `m_sprobs` in the error based `Sampler::sample`
(lines 175-176), on the vector `m_sprobs`; `terrors` is the merged error vector. -/
def error_sprobs_step (S : Sampler G) (n_sel_samples : Nat) (terrors : List ℚ)
    (sprobs : List ℚ) (iti : Nat) : Option (List ℚ) :=
  match terrors[iti]? with
  | none => none
  | some e =>
    if iti < sprobs.length then
      some (sprobs.set iti (n_sel_samples * inverse S.m_tcounts.length * inverse e))
    else none

/-- The loop that fills `m_sprobs` in the error based `Sampler::sample`
(lines 173-177). -/
def Sampler.error_sprobs (S : Sampler G) (n_sel_samples : Nat) (terrors : List ℚ) :
    Option (List ℚ) :=
  (List.range S.m_n_types).foldlM (error_sprobs_step S n_sel_samples terrors) S.m_sprobs

/-- The variables of the range walk of `th_usample`: the running sample index `s`,
the output vector and the generator of the thread. -/
structure Walk (G : Type) where
  s : Nat
  samples : List Nat
  gen : G

/-- Body of the scan loops of `Sampler::th_usample` (lines 316-324). -/
def th_usample_position (E : Ext G) (S : Sampler G) (srange : Nat × Nat) (ip : ipscale_t)
    (st : Walk G) (p : Int × Int) : Option (Walk G) :=
  match S.m_tagger.check ip p.1 p.2 with
  | none => some st
  | some (_, type) =>
    if st.s ≥ srange.1 ∧ st.s < srange.2 then
      match S.m_sprobs[type]? with
      | none => none
      | some cost =>
        let r := sample_cost E st.s cost st.gen st.samples
        some { s := st.s + 1, samples := r.1, gen := r.2 }
    else some { st with s := st.s + 1 }

/-- The scan loops of `Sampler::th_usample` over one scaled image (lines 313-325). -/
def th_usample_scale (E : Ext G) (S : Sampler G) (srange : Nat × Nat) (st : Walk G)
    (ip : ipscale_t) : Option (Walk G) :=
  match scan_positions ip with
  | none => none
  | some ps => ps.foldlM (th_usample_position E S srange ip) st

/-- The loop over the images of `Sampler::th_usample` (lines 308-326), on the images
`m_ipscales[i], m_ipscales[i + 1], ...` still to visit: it runs while
`s < srange.second && i < n_images()`. -/
def th_usample_walk (E : Ext G) (S : Sampler G) (srange : Nat × Nat) :
    List ipscale_t → Walk G → Option (Walk G)
  | [], st => some st
  | ip :: rest, st =>
    if st.s < srange.2 then
      match th_usample_scale E S srange st ip with
      | none => none
      | some st1 => th_usample_walk E S srange rest st1
    else some st

/-- The method `Sampler::th_usample(ith, srange, samples)`: the new `samples` and the
sampler with the generator of thread `ith` advanced. -/
def Sampler.th_usample (E : Ext G) (S : Sampler G) (ith : Nat) (srange : Nat × Nat)
    (samples : List Nat) : Option (List Nat × Sampler G) :=
  if srange.1 ≥ srange.2 then some (samples, S)
  else
    match S.m_rgens[ith]? with
    | none => none
    | some gen =>
      let i := S.sample2image srange.1
      match S.m_ipsbegins[i]? with
      | none => none
      | some s =>
        match th_usample_walk E S srange (S.m_ipscales.drop i)
            { s := s, samples := samples, gen := gen } with
        | none => none
        | some st => some (st.samples, { S with m_rgens := S.m_rgens.set ith st.gen })

/-- Modelled from the spec: `thread_iloop` is declared outside `sampler.cc`; it
"invokes a caller-supplied range operation once per range" and returns the
per-thread results. Worker `ith` gets the `ith`-th range and an empty result vector.
The workers touch disjoint generators, so running them one after the other gives
the result of running them in parallel. -/
def thread_iloop (op : Sampler G → Nat → Nat × Nat → List Nat → Option (List Nat × Sampler G)) :
    List (Nat × Nat) → Nat → Sampler G → Option (List (List Nat) × Sampler G)
  | [], _, S => some ([], S)
  | r :: ranges, ith, S =>
    match op S ith r [] with
    | none => none
    | some (o, S1) =>
      match thread_iloop op ranges (ith + 1) S1 with
      | none => none
      | some (os, S2) => some (o :: os, S2)

/-- The merge loop of `Sampler::sample` (lines 152-156): the concatenation of
`th_samples[0], ..., th_samples[n_threads() - 1]`. -/
def merge_samples (n_threads : Nat) (th_samples : List (List Nat)) : Option (List Nat) :=
  (List.range n_threads).foldlM
    (fun samples ith => (th_samples[ith]?).map (fun o => samples ++ o)) []

/-- The uniform `Sampler::sample(n_sel_samples, samples)`: the returned `samples`
and the sampler with `m_sprobs` and the generators updated. -/
def Sampler.sample (E : Ext G) (S : Sampler G) (n_sel_samples : Nat) :
    Option (List Nat × Sampler G) :=
  match S.uniform_sprobs n_sel_samples with
  | none => none
  | some sprobs =>
    let S1 := { S with m_sprobs := sprobs }
    match thread_iloop (Sampler.th_usample E) (E.thread_ranges S1.m_n_samples) 0 S1 with
    | none => none
    | some (th_samples, S2) =>
      match merge_samples E.n_threads th_samples with
      | none => none
      | some samples => some (samples.insertionSort (fun a b => a ≤ b), S2)

/-! ## The class costs of `Sampler::map` -/

/-- The type counts of `Sampler::map` (lines 213-220) from the vector `types` filled
by the mapping threads: `tcounts[type] ++` for every example. -/
def Sampler.map_tcounts (S : Sampler G) (types : List Nat) : Option (List Nat) :=
  types.foldlM (fun tcounts type => (tcounts[type]?).map (fun c => tcounts.set type (c + 1)))
    (stat_init S.m_n_types)

/-- The sum of the inverse counts in `Sampler::map` (lines 222-227). -/
def Sampler.map_sum_inv (S : Sampler G) (tcounts : List Nat) : Option ℚ :=
  (List.range S.m_n_types).foldlM
    (fun sum_inv iti => (tcounts[iti]?).map (fun (count : Nat) => sum_inv + inverse count)) 0

/-- Body of the loop that computes the cost of each type in `Sampler::map`
(lines 234-237), on the vector `tcosts`. -/
def map_tcosts_step (tcounts : List Nat) (sum_inv : ℚ) (tcosts : List ℚ) (iti : Nat) :
    Option (List ℚ) :=
  match tcounts[iti]? with
  | none => none
  | some count =>
    let cost := inverse sum_inv * inverse count * tcounts.length
    if iti < tcosts.length then some (tcosts.set iti cost) else none

/-- The cost of each type in `Sampler::map` (lines 213-242). -/
def Sampler.map_tcosts (S : Sampler G) (types : List Nat) : Option (List ℚ) :=
  match S.map_tcounts types with
  | none => none
  | some tcounts =>
    match S.map_sum_inv tcounts with
    | none => none
    | some sum_inv =>
      (List.range S.m_n_types).foldlM (map_tcosts_step tcounts sum_inv) (stat_init S.m_n_types)

/-- The costs `data.cost(s)` set by `Sampler::map` (lines 213-249): the cost of the
type of every example. -/
def Sampler.map_costs (S : Sampler G) (types : List Nat) : Option (List ℚ) :=
  match S.map_tcosts types with
  | none => none
  | some tcosts => types.mapM (fun type => tcosts[type]?)

/-! ## Error based sampling -/

/-- The method `Sampler::error(x, y, targets, model, scores)` (lines 268-275) for a
model preprocessed for `ip`: the loss of the scores of the `n_outputs()` outputs. -/
def Sampler.error (S : Sampler G) (model : Model) (ip : ipscale_t) (x y : Int)
    (targets : List ℚ) : ℚ :=
  let scores := (List.range S.m_n_outputs).map (fun o => model.score ip o x y)
  S.m_loss.error targets scores S.m_n_outputs

/-- The variables of the range walk of `th_errors`: the running sample index `s` and
the per-type error sums. -/
structure ErrWalk where
  s : Nat
  terrors : List ℚ

/-- Body of the scan loops of `Sampler::th_errors` (lines 396-403). -/
def th_errors_position (S : Sampler G) (model : Model) (srange : Nat × Nat) (ip : ipscale_t)
    (st : ErrWalk) (p : Int × Int) : Option ErrWalk :=
  match S.m_tagger.check ip p.1 p.2 with
  | none => some st
  | some (targets, type) =>
    if st.s ≥ srange.1 ∧ st.s < srange.2 then
      match st.terrors[type]? with
      | none => none
      | some e =>
        some { s := st.s + 1
               terrors := st.terrors.set type (e + S.error model ip p.1 p.2 targets) }
    else some { st with s := st.s + 1 }

/-- The scan loops of `Sampler::th_errors` over one scaled image (lines 389-404),
with the clone of the model preprocessed for that image. -/
def th_errors_scale (S : Sampler G) (model : Model) (srange : Nat × Nat) (st : ErrWalk)
    (ip : ipscale_t) : Option ErrWalk :=
  match scan_positions ip with
  | none => none
  | some ps => ps.foldlM (th_errors_position S model srange ip) st

/-- The loop over the images of `Sampler::th_errors` (lines 386-405), on the images
still to visit: it runs while `s < srange.second && i < n_images()`. -/
def th_errors_walk (S : Sampler G) (model : Model) (srange : Nat × Nat) :
    List ipscale_t → ErrWalk → Option ErrWalk
  | [], st => some st
  | ip :: rest, st =>
    if st.s < srange.2 then
      match th_errors_scale S model srange st ip with
      | none => none
      | some st1 => th_errors_walk S model srange rest st1
    else some st

/-- The method `Sampler::th_errors(srange, model, terrors)`: the new `terrors`. An
empty range returns before `stat_init(terrors)`. -/
def Sampler.th_errors (S : Sampler G) (srange : Nat × Nat) (model : Model)
    (terrors : List ℚ) : Option (List ℚ) :=
  if srange.1 ≥ srange.2 then some terrors
  else
    let i := S.sample2image srange.1
    match S.m_ipsbegins[i]? with
    | none => none
    | some s =>
      match th_errors_walk S model srange (S.m_ipscales.drop i)
          { s := s, terrors := stat_init S.m_n_types } with
      | none => none
      | some st => some st.terrors

/-- Body of the scan loops of `Sampler::th_esample` (lines 355-364). -/
def th_esample_position (E : Ext G) (S : Sampler G) (model : Model) (srange : Nat × Nat)
    (ip : ipscale_t) (st : Walk G) (p : Int × Int) : Option (Walk G) :=
  match S.m_tagger.check ip p.1 p.2 with
  | none => some st
  | some (targets, type) =>
    if st.s ≥ srange.1 ∧ st.s < srange.2 then
      match S.m_sprobs[type]? with
      | none => none
      | some sprob =>
        let cost := S.error model ip p.1 p.2 targets * sprob
        let r := sample_cost E st.s cost st.gen st.samples
        some { s := st.s + 1, samples := r.1, gen := r.2 }
    else some { st with s := st.s + 1 }

/-- The scan loops of `Sampler::th_esample` over one scaled image (lines 348-365). -/
def th_esample_scale (E : Ext G) (S : Sampler G) (model : Model) (srange : Nat × Nat)
    (st : Walk G) (ip : ipscale_t) : Option (Walk G) :=
  match scan_positions ip with
  | none => none
  | some ps => ps.foldlM (th_esample_position E S model srange ip) st

/-- The loop over the images of `Sampler::th_esample` (lines 345-366). -/
def th_esample_walk (E : Ext G) (S : Sampler G) (model : Model) (srange : Nat × Nat) :
    List ipscale_t → Walk G → Option (Walk G)
  | [], st => some st
  | ip :: rest, st =>
    if st.s < srange.2 then
      match th_esample_scale E S model srange st ip with
      | none => none
      | some st1 => th_esample_walk E S model srange rest st1
    else some st

/-- The method `Sampler::th_esample(ith, srange, model, samples)`: the new `samples`
and the sampler with the generator of thread `ith` advanced. -/
def Sampler.th_esample (E : Ext G) (S : Sampler G) (ith : Nat) (srange : Nat × Nat)
    (model : Model) (samples : List Nat) : Option (List Nat × Sampler G) :=
  if srange.1 ≥ srange.2 then some (samples, S)
  else
    match S.m_rgens[ith]? with
    | none => none
    | some gen =>
      let i := S.sample2image srange.1
      match S.m_ipsbegins[i]? with
      | none => none
      | some s =>
        match th_esample_walk E S model srange (S.m_ipscales.drop i)
            { s := s, samples := samples, gen := gen } with
        | none => none
        | some st => some (st.samples, { S with m_rgens := S.m_rgens.set ith st.gen })

/-- Modelled from the spec: `thread_loop` with results is declared outside
`sampler.cc`; it "invokes a caller-supplied range operation once per range" and
returns the per-thread results. Every worker starts from the result `init`. -/
def thread_loop {R : Type} (op : Nat × Nat → R → Option R) (init : R) :
    List (Nat × Nat) → Option (List R)
  | [] => some []
  | r :: ranges =>
    match op r init with
    | none => none
    | some o =>
      match thread_loop op init ranges with
      | none => none
      | some os => some (o :: os)

/-- Modelled from the spec: `stat_cumulate` is declared outside `sampler.cc`; it must
"merge per-thread sums into a single per-type total": entry `t` of the result is the
sum over the threads of their sum for type `t`, and a thread that holds no sum for
`t` adds nothing. -/
def stat_cumulate (n_types : Nat) (th_stats : List (List ℚ)) : List ℚ :=
  (List.range n_types).map (fun t => (th_stats.map (fun stats => stats.getD t 0)).sum)

/-- The error based `Sampler::sample(n_sel_samples, model, samples)`: the returned
`samples` and the sampler with `m_sprobs` and the generators updated. -/
def Sampler.sample_error (E : Ext G) (S : Sampler G) (n_sel_samples : Nat) (model : Model) :
    Option (List Nat × Sampler G) :=
  match thread_loop (fun srange terrors => S.th_errors srange model terrors) []
      (E.thread_ranges S.m_n_samples) with
  | none => none
  | some th_terrors =>
    let terrors := stat_cumulate S.m_n_types th_terrors
    match S.error_sprobs n_sel_samples terrors with
    | none => none
    | some sprobs =>
      let S1 := { S with m_sprobs := sprobs }
      match thread_iloop (fun S2 ith srange samples => S2.th_esample E ith srange model samples)
          (E.thread_ranges S1.m_n_samples) 0 S1 with
      | none => none
      | some (th_samples, S2) =>
        match merge_samples E.n_threads th_samples with
        | none => none
        | some samples => some (samples.insertionSort (fun a b => a ≤ b), S2)

/-! ## Mapping samples to a data set -/

/-- Modelled from the spec: the mutable accessors `data.target(i, j)` and
`data.value(i, j)` of `DataSet` are declared outside `sampler.cc`; `set_entry m i j v`
is the array `m` after `m(i, j) = v`, an access outside the array being a fault. -/
def set_entry (m : List (List ℚ)) (i j : Nat) (v : ℚ) : Option (List (List ℚ)) :=
  match m[i]? with
  | none => none
  | some row => if j < row.length then some (m.set i (row.set j v)) else none

/-- The loop that buffers the targets in `Sampler::th_map` (lines 441-444). -/
def map_targets (n_outputs : Nat) (targets : List ℚ) (ss : Nat) (m_targets : List (List ℚ)) :
    Option (List (List ℚ)) :=
  (List.range n_outputs).foldlM
    (fun m o =>
      match targets[o]? with
      | none => none
      | some v => set_entry m ss o v) m_targets

/-- The loop that buffers the feature values in `Sampler::th_map` (lines 447-450). -/
def map_values (model : Model) (ip : ipscale_t) (x y : Int) (ss : Nat)
    (m_values : List (List ℚ)) : Option (List (List ℚ)) :=
  (List.range model.n_features).foldlM
    (fun m f => set_entry m f ss (model.get ip f x y)) m_values

/-- The variables of the range walk of `th_map`: the running sample index `s`, the
position `ss` in the list of ids, the vector `types` and the data set. -/
structure MapWalk where
  s : Nat
  ss : Nat
  types : List Nat
  data : DataSet

/-- Body of the scan loops of `Sampler::th_map` at an accepted position
(lines 436-471). -/
def th_map_window (S : Sampler G) (model : Model) (srange : Nat × Nat) (samples : List Nat)
    (ip : ipscale_t) (x y : Int) (targets : List ℚ) (type : Nat) (st : MapWalk) :
    Option MapWalk :=
  if st.ss < srange.2 then
    match samples[st.ss]? with
    | none => none
    | some id =>
      if st.s = id then
        if st.ss < st.types.length then
          match map_targets S.m_n_outputs targets st.ss st.data.m_targets with
          | none => none
          | some m_targets =>
            match map_values model ip x y st.ss st.data.m_values with
            | none => none
            | some m_values =>
              some { s := st.s + 1
                     ss := st.ss + 1
                     types := st.types.set st.ss type
                     data := { st.data with m_targets := m_targets, m_values := m_values } }
        else none
      else some { st with s := st.s + 1 }
  else some { st with s := st.s + 1 }

/-- Body of the scan loops of `Sampler::th_map` (lines 434-472). -/
def th_map_position (S : Sampler G) (model : Model) (srange : Nat × Nat) (samples : List Nat)
    (ip : ipscale_t) (st : MapWalk) (p : Int × Int) : Option MapWalk :=
  match S.m_tagger.check ip p.1 p.2 with
  | none => some st
  | some (targets, type) => th_map_window S model srange samples ip p.1 p.2 targets type st

/-- The scan loops of `Sampler::th_map` over one scaled image (lines 427-473), with
the clone of the model preprocessed for that image. -/
def th_map_scale (S : Sampler G) (model : Model) (srange : Nat × Nat) (samples : List Nat)
    (st : MapWalk) (ip : ipscale_t) : Option MapWalk :=
  match scan_positions ip with
  | none => none
  | some ps => ps.foldlM (th_map_position S model srange samples ip) st

/-- The loop over the images of `Sampler::th_map` (lines 424-474), on the images still
to visit: it runs while `ss < srange.second && i < n_images()`. -/
def th_map_walk (S : Sampler G) (model : Model) (srange : Nat × Nat) (samples : List Nat) :
    List ipscale_t → MapWalk → Option MapWalk
  | [], st => some st
  | ip :: rest, st =>
    if st.ss < srange.2 then
      match th_map_scale S model srange samples st ip with
      | none => none
      | some st1 => th_map_walk S model srange samples rest st1
    else some st

/-- The method `Sampler::th_map(srange, samples, model, types, data)`: the new `types`
and `data`. The loop starts with `i = sample2image(samples[ss])` and
`s = m_ipsbegins[i]`. -/
def Sampler.th_map (S : Sampler G) (srange : Nat × Nat) (samples : List Nat) (model : Model)
    (types : List Nat) (data : DataSet) : Option (List Nat × DataSet) :=
  if srange.1 ≥ srange.2 then some (types, data)
  else
    match samples[srange.1]? with
    | none => none
    | some id =>
      let i := S.sample2image id
      match S.m_ipsbegins[i]? with
      | none => none
      | some s =>
        match th_map_walk S model srange samples (S.m_ipscales.drop i)
            { s := s, ss := srange.1, types := types, data := data } with
        | none => none
        | some st => some (st.types, st.data)

/-- Modelled from the spec: `thread_loop` without results is declared outside
`sampler.cc`; it "invokes a caller-supplied range operation once per range". The
workers share the state `σ` by reference; they are run one after the other. -/
def thread_loop_shared {σ : Type} (op : Nat × Nat → σ → Option σ) :
    List (Nat × Nat) → σ → Option σ
  | [], st => some st
  | r :: ranges, st =>
    match op r st with
    | none => none
    | some st1 => thread_loop_shared op ranges st1

/-- Modelled from the spec: `unique` is declared outside `sampler.cc`; it
"deduplicates and sorts the input id list". -/
def unique (samples : List Nat) : List Nat := samples.toFinset.sort (fun a b => a ≤ b)

/-- The loop that sets the costs in `Sampler::map` (lines 245-249): `costs` holds the
values `tcosts[types[s]]` for `s = 0, 1, ...`, written to `data.cost(s)`. -/
def set_costs (costs : List ℚ) (data : DataSet) : Option DataSet :=
  if costs.length ≤ data.m_costs.length then
    some { data with m_costs := costs ++ data.m_costs.drop costs.length }
  else none

/-- The method `Sampler::map(_samples, model, data)`: the new `data`. -/
def Sampler.map (E : Ext G) (S : Sampler G) (_samples : List Nat) (model : Model)
    (data : DataSet) : Option DataSet :=
  let samples := unique _samples
  let data1 := E.dataset_resize data S.m_n_outputs samples.length model.n_features
    model.n_fvalues
  let types := List.replicate samples.length 0
  match thread_loop_shared
      (fun srange st => S.th_map srange samples model st.1 st.2)
      (E.thread_ranges samples.length) (types, data1) with
  | none => none
  | some (types1, data2) =>
    match S.map_costs types1 with
    | none => none
    | some costs => set_costs costs data2

/-! ## Specification-level notions -/

/-- One accepted scan position: where it is and what the tagger said. -/
structure Window where
  x : Int
  y : Int
  targets : List ℚ
  type : Nat
deriving DecidableEq

/-- The accepted positions among `ps`, in scan order. -/
def tagged (tg : Tagger) (ip : ipscale_t) (ps : List (Int × Int)) : List Window :=
  ps.filterMap (fun p => (tg.check ip p.1 p.2).map (fun r => Window.mk p.1 p.2 r.1 r.2))

/-- The accepted positions of a scaled image, in scan order (empty when the scan
does not terminate). -/
def scale_windows (tg : Tagger) (ip : ipscale_t) : List Window :=
  tagged tg ip ((scan_positions ip).getD [])

/-- The scan bounds for which both scan loops terminate without overflow. -/
def scan_ok (ip : ipscale_t) : Prop :=
  ip.m_scan_min_y < ip.m_scan_max_y →
    (0 < ip.m_scan_dy ∧ ip.m_scan_max_y + ip.m_scan_dy ≤ INT_MAX + 1 ∧
      (ip.m_scan_min_x < ip.m_scan_max_x →
        (0 < ip.m_scan_dx ∧ ip.m_scan_max_x + ip.m_scan_dx ≤ INT_MAX + 1)))

instance (ip : ipscale_t) : Decidable (scan_ok ip) := by
  unfold scan_ok; infer_instance

/-- The partition table read off a list of scaled images: starting at `a`, each
image owns as many indices as it has accepted positions, and the last range ends
at `n`. Every image of the table scans to an end and has an accepted position. -/
def table_from (tg : Tagger) : Nat → List ipscale_t → List Nat → List Nat → Nat → Prop
  | a, [], [], [], n => a = n
  | a, ip :: ips, b :: bs, e :: es, n =>
    b = a ∧ (scan_positions ip).isSome ∧ 0 < (scale_windows tg ip).length ∧
      e = a + (scale_windows tg ip).length ∧ table_from tg e ips bs es n
  | _, _, _, _, _ => False

/-- Number of accepted positions of type `t` in a scaled image. -/
def type_count (tg : Tagger) (t : Nat) (ip : ipscale_t) : Nat :=
  ((scale_windows tg ip).filter (fun w => w.type = t)).length

/-- The scaled images that have an accepted position, in order. -/
def informative (tg : Tagger) (sc : List ipscale_t) : List ipscale_t :=
  sc.filter (fun ip => decide (0 < (scale_windows tg ip).length))

/-- What scanning the scaled images `sc`, in order, does to a sampler. -/
structure Grows (S S1 : Sampler G) (sc : List ipscale_t) : Prop where
  tagger : S1.m_tagger = S.m_tagger
  n_outputs : S1.m_n_outputs = S.m_n_outputs
  n_types : S1.m_n_types = S.m_n_types
  rgens : S1.m_rgens = S.m_rgens
  sprobs : S1.m_sprobs = S.m_sprobs
  tcounts_length : S1.m_tcounts.length = S.m_tcounts.length
  tcounts : ∀ t, S1.m_tcounts.getD t 0 =
    S.m_tcounts.getD t 0 + (sc.map (type_count S.m_tagger t)).sum
  ipscales : S1.m_ipscales = S.m_ipscales ++ informative S.m_tagger sc
  n_samples : S1.m_n_samples =
    S.m_n_samples + (sc.map (fun ip => (scale_windows S.m_tagger ip).length)).sum
  scans : ∀ ip ∈ sc, (scan_positions ip).isSome
  types : ∀ ip ∈ sc, ∀ w ∈ scale_windows S.m_tagger ip, w.type < S.m_tcounts.length
  table : ∀ a, table_from S.m_tagger a S.m_ipscales S.m_ipsbegins S.m_ipsends S.m_n_samples →
    table_from S.m_tagger a S1.m_ipscales S1.m_ipsbegins S1.m_ipsends S1.m_n_samples
  loss : S1.m_loss = S.m_loss

/-- The scaled images scanned by `Sampler::load`, in order: all scales of every
image whose pyramid loads. -/
def scanned_scales (E : Ext G) : List String → List String → List ipscale_t
  | i :: ifiles, g :: gfiles => (E.ipyramid_load i g).getD [] ++ scanned_scales E ifiles gfiles
  | _, _ => []

/-- The tagger only reports types below `n_types()`. -/
def tagger_typed (tg : Tagger) : Prop :=
  ∀ ip x y r, tg.check ip x y = some r → r.2 < tg.n_types

/-- Index form of a partition table that starts at `a` and ends at `n`. -/
structure RangeFacts (tg : Tagger) (a : Nat) (ips : List ipscale_t) (bs es : List Nat)
    (n : Nat) : Prop where
  begins_length : bs.length = ips.length
  ends_length : es.length = ips.length
  le : a ≤ n
  empty : ips.length = 0 → a = n
  first : 0 < ips.length → bs.getD 0 0 = a
  last : 0 < ips.length → es.getD (ips.length - 1) 0 = n
  next : ∀ i, i + 1 < ips.length → es.getD i 0 = bs.getD (i + 1) 0
  bounds : ∀ i, i < ips.length → a ≤ bs.getD i 0 ∧ bs.getD i 0 < es.getD i 0 ∧ es.getD i 0 ≤ n
  ordered : ∀ i j, i < j → j < ips.length → es.getD i 0 ≤ bs.getD j 0
  cover : ∀ s, a ≤ s → s < n → ∃ i, i < ips.length ∧ bs.getD i 0 ≤ s ∧ s < es.getD i 0
  size : ∀ i ip, ips[i]? = some ip →
    es.getD i 0 = bs.getD i 0 + (scale_windows tg ip).length ∧ (scan_positions ip).isSome

/-- The Image Partition Table invariant: the two range vectors are aligned with the
scaled-image cache, the first range starts at 0, each range ends where the next one
starts, no range is empty, the last one ends at `n_samples()`; so every index below
`n_samples()` lies in a range, and in one range only. -/
def partition_invariant (S : Sampler G) : Prop :=
  S.m_ipsbegins.length = S.n_images ∧ S.m_ipsends.length = S.n_images ∧
  (0 < S.n_images → S.m_ipsbegins[0]? = some 0) ∧
  (∀ i, i + 1 < S.n_images → S.m_ipsends[i]? = S.m_ipsbegins[i + 1]?) ∧
  (∀ i, i < S.n_images →
    ∃ b e, S.m_ipsbegins[i]? = some b ∧ S.m_ipsends[i]? = some e ∧ b < e) ∧
  (0 < S.n_images → S.m_ipsends[S.n_images - 1]? = some S.m_n_samples) ∧
  (S.n_images = 0 → S.m_n_samples = 0) ∧
  (∀ s, s < S.m_n_samples ↔
    ∃ i, i < S.n_images ∧ S.m_ipsbegins.getD i 0 ≤ s ∧ s < S.m_ipsends.getD i 0) ∧
  (∀ i j s, i < S.n_images → j < S.n_images →
    S.m_ipsbegins.getD i 0 ≤ s → s < S.m_ipsends.getD i 0 →
    S.m_ipsbegins.getD j 0 ≤ s → s < S.m_ipsends.getD j 0 → i = j)

/-- Number of scan positions of a scaled image accepted by the tagger. -/
def accepted_count (tg : Tagger) (ip : ipscale_t) : Nat :=
  (((scan_positions ip).getD []).filter (fun p => (tg.check ip p.1 p.2).isSome)).length

/-- Number of scan positions of a scaled image accepted by the tagger with type `t`. -/
def accepted_type_count (tg : Tagger) (t : Nat) (ip : ipscale_t) : Nat :=
  (((scan_positions ip).getD []).filter
    (fun p => (tg.check ip p.1 p.2).any (fun r => decide (r.2 = t)))).length

/-- One step of a loop `for (i ...) v[i] = val(i)` on the vector `v`, where `val i`
is `none` when computing the value reads outside a vector. -/
def fill_step (val : Nat → Option ℚ) (sp : List ℚ) (i : Nat) : Option (List ℚ) :=
  match val i with
  | none => none
  | some v => if i < sp.length then some (sp.set i v) else none

/-- The accepted positions of the retained scaled images, in load order: entry `s` is
the sample with global index `s`. -/
def Sampler.windows (S : Sampler G) : List Window :=
  S.m_ipscales.flatMap (scale_windows S.m_tagger)

/-- Body of the scan loops of `th_usample` at an accepted position. -/
def usample_window (E : Ext G) (S : Sampler G) (srange : Nat × Nat) (st : Walk G)
    (w : Window) : Option (Walk G) :=
  if st.s ≥ srange.1 ∧ st.s < srange.2 then
    match S.m_sprobs[w.type]? with
    | none => none
    | some cost =>
      let r := sample_cost E st.s cost st.gen st.samples
      some { s := st.s + 1, samples := r.1, gen := r.2 }
  else some { st with s := st.s + 1 }

/-- What a range walk emits while its sample index runs over the windows `ws` from
index `s` on: an ascending list of indices of that stretch that lie in `srange`, in
which the index of a window of weight `c` in `srange` occurs `floor(c)` or
`floor(c) + 1` times. -/
def Emitted (sprobs : List ℚ) (srange : Nat × Nat) (s : Nat) (ws : List Window)
    (out : List Nat) : Prop :=
  out.Sorted (fun a b => a ≤ b) ∧
  (∀ x ∈ out, s ≤ x ∧ x < s + ws.length ∧ srange.1 ≤ x ∧ x < srange.2) ∧
  ∀ (k : Nat) (w : Window), ws[k]? = some w → srange.1 ≤ s + k → s + k < srange.2 →
    (out.count (s + k) = ⌊sprobs.getD w.type 0⌋₊ ∨
      out.count (s + k) = ⌊sprobs.getD w.type 0⌋₊ + 1)

/-- A sampler on which the range walks run: its partition table is the one of its
scaled images, and `m_sprobs` has an entry for the type of every sample. -/
structure Ready (S : Sampler G) : Prop where
  table : table_from S.m_tagger 0 S.m_ipscales S.m_ipsbegins S.m_ipsends S.m_n_samples
  types : ∀ w ∈ S.windows, w.type < S.m_sprobs.length

/-- The sampler `S1` is `S` with other generator states. -/
structure SameData (S S1 : Sampler G) : Prop where
  tagger : S1.m_tagger = S.m_tagger
  n_outputs : S1.m_n_outputs = S.m_n_outputs
  n_samples : S1.m_n_samples = S.m_n_samples
  n_types : S1.m_n_types = S.m_n_types
  tcounts : S1.m_tcounts = S.m_tcounts
  sprobs : S1.m_sprobs = S.m_sprobs
  ipscales : S1.m_ipscales = S.m_ipscales
  ipsbegins : S1.m_ipsbegins = S.m_ipsbegins
  ipsends : S1.m_ipsends = S.m_ipsends
  rgens_length : S1.m_rgens.length = S.m_rgens.length
  loss : S1.m_loss = S.m_loss

/-- What one worker, or several workers with adjacent ranges, emit for the index
range `[lo, hi)`: an ascending list of sample indices of that range in which every
index `x` of the range occurs `floor(c)` or `floor(c) + 1` times, `c` being the
weight of the type of sample `x`. -/
def RangeOut (windows : List Window) (sprobs : List ℚ) (lo hi : Nat) (out : List Nat) : Prop :=
  out.Sorted (fun a b => a ≤ b) ∧
  (∀ x ∈ out, lo ≤ x ∧ x < hi ∧ x < windows.length) ∧
  ∀ (x : Nat) (w : Window), lo ≤ x → x < hi → windows[x]? = some w →
    (out.count x = ⌊sprobs.getD w.type 0⌋₊ ∨ out.count x = ⌊sprobs.getD w.type 0⌋₊ + 1)

/-- The ranges `ranges` are contiguous and ordered, start at `a` and end at `n`. -/
def contiguous_from : Nat → List (Nat × Nat) → Nat → Prop
  | a, [], n => a = n
  | a, r :: ranges, n => r.1 = a ∧ r.1 ≤ r.2 ∧ contiguous_from r.2 ranges n

/-- The ranges `ranges` split `[0, n)` into contiguous ordered ranges, one per thread. -/
def split_ok (ranges : List (Nat × Nat)) (n_threads n : Nat) : Prop :=
  ranges.length = n_threads ∧ contiguous_from 0 ranges n

/-- The accepted scan positions in load order: those of every scanned scale, image
after image and scale after scale. -/
def load_windows (E : Ext G) (param : param_t) (ifiles gfiles : List String) : List Window :=
  (scanned_scales E ifiles gfiles).flatMap (scale_windows (E.make_tagger param))

/-- The pairs (image file, ground-truth file) whose pyramid loads, in order. -/
def readable (E : Ext G) (ifiles gfiles : List String) : List (String × String) :=
  (ifiles.zip gfiles).filter (fun p => (E.ipyramid_load p.1 p.2).isSome)

/-- The accepted positions of a scaled image, each with the image. -/
def scale_info (tg : Tagger) (ip : ipscale_t) : List (ipscale_t × Window) :=
  (scale_windows tg ip).map (fun w => (ip, w))

/-- The samples of a sampler in load order, each with its scaled image: entry `s` is
the sample with global index `s`. -/
def Sampler.info (S : Sampler G) : List (ipscale_t × Window) :=
  S.m_ipscales.flatMap (scale_info S.m_tagger)

/-- The error of the model at sample `s` (0 when there is no such sample). -/
def Sampler.error_at (S : Sampler G) (model : Model) (s : Nat) : ℚ :=
  match S.info[s]? with
  | none => 0
  | some iw => S.error model iw.1 iw.2.x iw.2.y iw.2.targets

/-- The tagger type of sample `s`. -/
def Sampler.type_at (S : Sampler G) (s : Nat) : Option Nat :=
  (S.info[s]?).map (fun iw => iw.2.type)

/-- Body of the scan loops of `th_errors` at an accepted position. -/
def errors_item (S : Sampler G) (model : Model) (srange : Nat × Nat) (st : ErrWalk)
    (iw : ipscale_t × Window) : Option ErrWalk :=
  if st.s ≥ srange.1 ∧ st.s < srange.2 then
    match st.terrors[iw.2.type]? with
    | none => none
    | some e =>
      some { s := st.s + 1
             terrors := st.terrors.set iw.2.type (e + S.error model iw.1 iw.2.x iw.2.y iw.2.targets) }
  else some { st with s := st.s + 1 }

/-- The error that the samples `items`, numbered from `s` on, add to type `t` in a
walk over `srange`. -/
def local_sum (S : Sampler G) (model : Model) (srange : Nat × Nat) (t : Nat) :
    Nat → List (ipscale_t × Window) → ℚ
  | _, [] => 0
  | s, iw :: items =>
    (if srange.1 ≤ s ∧ s < srange.2 ∧ iw.2.type = t then
      S.error model iw.1 iw.2.x iw.2.y iw.2.targets else 0) +
    local_sum S model srange t (s + 1) items

/-- The error of the samples of type `t` with index in `[a, b)`. -/
def Sampler.type_error (S : Sampler G) (model : Model) (t a b : Nat) : ℚ :=
  ∑ s ∈ Finset.Ico a b, if S.type_at s = some t then S.error_at model s else 0

/-- The list files of the data set cannot be used: they cannot be read, or there is
no image file, or the two lists differ in length. -/
def listfiles_unusable (E : Ext G) (param : param_t) (type : SamplerType) : Prop :=
  match E.load_listfiles
      (if type = SamplerType.TrainSampler then param.m_train_data else param.m_valid_data) with
  | none => True
  | some (ifiles, gfiles) => ifiles = [] ∨ ifiles.length ≠ gfiles.length

/-- The entry `m(i, j)` of a two-index array, `none` outside the array. -/
def entry (m : List (List ℚ)) (i j : Nat) : Option ℚ :=
  (m[i]?).bind (fun row => row[j]?)

/-- The lengths of the rows of a two-index array. -/
def shape (m : List (List ℚ)) : List Nat := m.map List.length

/-- One step of a loop of writes `m(I t, J t) = V t` for `t = 0, 1, ...`, where
`V t` is `none` when computing the value reads outside a vector. -/
def write_step (I J : Nat → Nat) (V : Nat → Option ℚ) (m : List (List ℚ)) (t : Nat) :
    Option (List (List ℚ)) :=
  match V t with
  | none => none
  | some v => set_entry m (I t) (J t) v

/-- Position `j` holds the same type, target row and feature column in both states. -/
def SameAt (j : Nat) (types : List Nat) (data : DataSet) (types1 : List Nat)
    (data1 : DataSet) : Prop :=
  types1[j]? = types[j]? ∧ data1.m_targets[j]? = data.m_targets[j]? ∧
  ∀ f, entry data1.m_values f j = entry data.m_values f j

/-- What a mapping walk over the slice `[.., b)` may change between two states: the
position `ss` only moves forward, and the positions before the `ss` of the first state
and from `b` on, the costs and the sizes are left as they are. -/
structure Frame (b : Nat) (st st1 : MapWalk) : Prop where
  ss_le : st.ss ≤ st1.ss
  same : ∀ j, (j < st.ss ∨ b ≤ j) → SameAt j st.types st.data st1.types st1.data
  costs : st1.data.m_costs = st.data.m_costs
  types_length : st1.types.length = st.types.length
  targets_shape : shape st1.data.m_targets = shape st.data.m_targets
  values_shape : shape st1.data.m_values = shape st.data.m_values

/-- Position `j` of the mapped arrays holds the sample `samples[j]`: its tagger type,
its tagger targets, and for every feature the value of the model, preprocessed for
the scaled image that owns the sample, at the scan position of the sample. -/
def FilledAt (S : Sampler G) (model : Model) (samples : List Nat) (j : Nat)
    (types : List Nat) (data : DataSet) : Prop :=
  ∃ id iw, samples[j]? = some id ∧ S.info[id]? = some iw ∧
    types[j]? = some iw.2.type ∧ data.m_targets[j]? = some iw.2.targets ∧
    ∀ f, f < model.n_features →
      entry data.m_values f j = some (model.get iw.1 f iw.2.x iw.2.y)

/-- The state of a mapping walk over the slice `srange` of `samples` is in order:
`ss` is inside the slice, the next id to map is not behind the running sample index,
and the arrays have the sizes set by `Sampler::map`. -/
structure MapInv (S : Sampler G) (model : Model) (srange : Nat × Nat) (samples : List Nat)
    (st : MapWalk) : Prop where
  ss_ge : srange.1 ≤ st.ss
  ss_le : st.ss ≤ srange.2
  ahead : ∀ id, st.ss < srange.2 → samples[st.ss]? = some id → st.s ≤ id
  types_length : st.types.length = samples.length
  targets_shape : shape st.data.m_targets = List.replicate samples.length S.m_n_outputs
  values_shape : shape st.data.m_values = List.replicate model.n_features samples.length

/-- The positions from the `ss` of `st` up to the `ss` of `st1` hold their samples in
`st1`. -/
def FilledBetween (S : Sampler G) (model : Model) (samples : List Nat) (st st1 : MapWalk) :
    Prop :=
  ∀ j, st.ss ≤ j → j < st1.ss → FilledAt S model samples j st1.types st1.data

/-- The tagger fills a target vector of `n_outputs()` entries. -/
def tagger_outputs (tg : Tagger) : Prop :=
  ∀ ip x y r, tg.check ip x y = some r → r.1.length = tg.n_outputs

/-- The arrays `types` and `data` are sized for `n` examples and hold, at every
position, the sample of `samples` at that position. -/
structure Mapped (S : Sampler G) (model : Model) (samples : List Nat) (types : List Nat)
    (data : DataSet) : Prop where
  types_length : types.length = samples.length
  targets_shape : shape data.m_targets = List.replicate samples.length S.m_n_outputs
  values_shape : shape data.m_values = List.replicate model.n_features samples.length
  filled : ∀ j, j < samples.length → FilledAt S model samples j types data

/-- The method `resize` gives the arrays of a data set the sizes it is called with. -/
def resize_ok (E : Ext G) : Prop :=
  ∀ (data : DataSet) (n_outputs n_examples n_features n_fvalues : Nat),
    shape (E.dataset_resize data n_outputs n_examples n_features n_fvalues).m_targets =
      List.replicate n_examples n_outputs ∧
    shape (E.dataset_resize data n_outputs n_examples n_features n_fvalues).m_values =
      List.replicate n_features n_examples ∧
    (E.dataset_resize data n_outputs n_examples n_features n_fvalues).m_costs.length =
      n_examples

/-- The sampler `S` with another loss and another number of outputs: the two members
that uniform sampling does not read. -/
def Sampler.with_loss (S : Sampler G) (l : Loss) (o : Nat) : Sampler G :=
  { S with m_loss := l, m_n_outputs := o }

/-- Two runs agree on what the constructor and uniform sampling take from outside for
the parameters `param`: the tagger, the list files, the pyramids, the number of
threads and their ranges, the seeded generator and the die. The loss and `resize` of
the two runs may differ. -/
structure SameRun (E1 E2 : Ext G) (param : param_t) : Prop where
  tagger : E2.make_tagger param = E1.make_tagger param
  listfiles : E2.load_listfiles = E1.load_listfiles
  pyramids : E2.ipyramid_load = E1.ipyramid_load
  n_threads : E2.n_threads = E1.n_threads
  ranges : E2.thread_ranges = E1.thread_ranges
  seed : E2.mt19937 param.m_seed = E1.mt19937 param.m_seed
  die : E2.die = E1.die

/-- The first `k` values that `die(gen)` returns when the generator starts in the
state `gen`. -/
def draws (E : Ext G) : Nat → G → List ℚ
  | 0, _ => []
  | k + 1, gen => (E.die gen).1 :: draws E k (E.die gen).2

/-- The generator state after `k` calls of `die(gen)`. -/
def advance (E : Ext G) : Nat → G → G
  | 0, gen => gen
  | k + 1, gen => advance E k (E.die gen).2

/-- What a range walk does to the pair (output vector, generator) while its sample
index runs over the windows `ws` from index `s` on: a window whose index is in
`srange` gets one call of the cost-based `sample` with the weight of its type, the
others are passed over. -/
def replay (E : Ext G) (sprobs : List ℚ) (srange : Nat × Nat) :
    Nat → List Window → List Nat × G → List Nat × G
  | _, [], r => r
  | s, w :: ws, r =>
    if s ≥ srange.1 ∧ s < srange.2 then
      replay E sprobs srange (s + 1) ws (sample_cost E s (sprobs.getD w.type 0) r.2 r.1)
    else replay E sprobs srange (s + 1) ws r

/-! ## Example data -/

/-- A generator for the examples: the state is a counter, the draws cycle through
0, 1/4, 1/2, 3/4. -/
def ex_die (g : Nat) : ℚ × Nat := ((g % 4 : Nat) / 4, g + 1)

/-- A loss for the examples: the sum of the squared differences of the first
`n_outputs` targets and scores. -/
def ex_loss : Loss where
  error := fun targets scores n_outputs =>
    ((List.range n_outputs).map
      (fun o => (targets.getD o 0 - scores.getD o 0) * (targets.getD o 0 - scores.getD o 0))).sum

/-- A tagger for the examples: two types, one output. -/
def ex_tagger : Tagger where
  check := fun ip x y =>
    if ip.m_image = 0 then none
    else if (x + y) % 2 = 0 then some ([1], 0)
    else if x = 1 then some ([-1], 1)
    else none
  n_outputs := 1
  n_types := 2

/-- A scaled image for the examples: columns 0, 1, 2, 3 and rows 0, 2, ... below
`max_y`. -/
def ex_ip (image : Nat) (max_y : Int) : ipscale_t :=
  { m_scan_min_x := 0, m_scan_max_x := 4, m_scan_dx := 1,
    m_scan_min_y := 0, m_scan_max_y := max_y, m_scan_dy := 2, m_image := image }

/-- Collaborators for the examples: image "a" has three scales, the middle one
without any accepted position, image "b" does not load, image "c" has one scale. -/
def ex_ext : Ext Nat where
  make_tagger := fun _ => ex_tagger
  make_loss := fun _ => ex_loss
  load_listfiles := fun data =>
    if data = "train" then some (["a", "b", "c"], ["ga", "gb", "gc"]) else none
  ipyramid_load := fun i _ =>
    if i = "a" then some [ex_ip 1 4, ex_ip 0 4, ex_ip 2 2]
    else if i = "c" then some [ex_ip 3 2]
    else none
  n_threads := 2
  thread_ranges := fun m => [(0, m / 2), (m / 2, m)]
  mt19937 := fun seed => seed
  die := ex_die
  dataset_resize := fun _ n_outputs n_examples n_features _ =>
    { m_targets := List.replicate n_examples (List.replicate n_outputs 0)
      m_values := List.replicate n_features (List.replicate n_examples 0)
      m_costs := List.replicate n_examples 0 }

/-- Parameters for the examples. -/
def ex_param : param_t := { m_seed := 1, m_train_data := "train", m_valid_data := "valid" }

/-- The sampler that loading the example data leaves. -/
def ex_sampler : Sampler Nat :=
  { m_tagger := ex_tagger
    m_loss := ex_loss
    m_n_outputs := 1
    m_n_samples := 12
    m_n_types := 2
    m_rgens := [1, 1]
    m_tcounts := [8, 4]
    m_sprobs := [0, 0]
    m_ipscales := [ex_ip 1 4, ex_ip 2 2, ex_ip 3 2]
    m_ipsbegins := [0, 6, 9]
    m_ipsends := [6, 9, 12] }

/-- A model for the examples: one output and two features. -/
def ex_model : Model where
  score := fun ip _ x y => (ip.m_image : ℚ) + x - y / 2
  get := fun ip f x y => (ip.m_image : ℚ) * 100 + f * 10 + x + y
  n_features := 2
  n_fvalues := 256

/-- A data set for the examples, sized for three examples. -/
def ex_data : DataSet :=
  { m_targets := [[0], [0], [0]], m_values := [[0, 0, 0], [0, 0, 0]], m_costs := [0, 0, 0] }

/-- A second run for the examples: the collaborators of `ex_ext` with another loss and
a `resize` that leaves the data set alone. -/
def ex_ext2 : Ext Nat :=
  { ex_ext with
    make_loss := fun _ => { error := fun _ _ _ => 1 }
    dataset_resize := fun data _ _ _ _ => data }

/-! ## Theorems -/

/-! ## The scan loops terminate -/

theorem scan_axis_done (fuel : Nat) (v hi step : Int) (h : hi ≤ v) :
    scan_axis fuel v hi step = some [] := by
  cases fuel <;> simp [scan_axis, not_lt.mpr h]

theorem scan_axis_some (fuel : Nat) (v hi step : Int) (hstep : 0 < step)
    (hov : hi + step ≤ INT_MAX + 1) (hf : (hi - v).toNat ≤ fuel) :
    ∃ l, scan_axis fuel v hi step = some l := by
  induction fuel generalizing v with
  | zero =>
    have : hi ≤ v := by omega
    exact ⟨[], scan_axis_done 0 v hi step this⟩
  | succ n ih =>
    by_cases hv : v < hi
    · have h1 : ¬ INT_MAX < v + step := by omega
      obtain ⟨l, hl⟩ := ih (v + step) (by omega)
      exact ⟨v :: l, by simp [scan_axis, hv, h1, hl]⟩
    · exact ⟨[], scan_axis_done _ v hi step (by omega)⟩

theorem scan_range_some (lo hi step : Int) (h : lo < hi → 0 < step ∧ hi + step ≤ INT_MAX + 1) :
    ∃ l, scan_range lo hi step = some l := by
  by_cases hlt : lo < hi
  · exact scan_axis_some _ lo hi step (h hlt).1 (h hlt).2 le_rfl
  · exact ⟨[], scan_axis_done _ lo hi step (by omega)⟩

theorem scan_range_empty (lo hi step : Int) (h : hi ≤ lo) : scan_range lo hi step = some [] :=
  scan_axis_done _ lo hi step h

theorem scan_positions_some (ip : ipscale_t) (h : scan_ok ip) :
    ∃ ps, scan_positions ip = some ps := by
  unfold scan_positions
  by_cases hy : ip.m_scan_min_y < ip.m_scan_max_y
  · obtain ⟨h1, h2, h3⟩ := h hy
    obtain ⟨ys, hys⟩ := scan_range_some ip.m_scan_min_y ip.m_scan_max_y ip.m_scan_dy (fun _ => ⟨h1, h2⟩)
    obtain ⟨xs, hxs⟩ := scan_range_some ip.m_scan_min_x ip.m_scan_max_x ip.m_scan_dx h3
    rw [hys, hxs]
    cases ys <;> simp
  · rw [scan_range_empty _ _ _ (by omega)]
    exact ⟨[], rfl⟩

/-! ## Loading -/

theorem table_from_append (tg : Tagger) (ip : ipscale_t)
    (h1 : (scan_positions ip).isSome) (h2 : 0 < (scale_windows tg ip).length) :
    ∀ (ips : List ipscale_t) (bs es : List Nat) (a n : Nat), table_from tg a ips bs es n →
      table_from tg a (ips ++ [ip]) (bs ++ [n]) (es ++ [n + (scale_windows tg ip).length])
        (n + (scale_windows tg ip).length)
  | [], [], [], a, n, h => by
    simp only [table_from] at h
    subst h
    simp [table_from, h1, h2]
  | [], [], _ :: _, _, _, h => by simp [table_from] at h
  | [], _ :: _, _, _, _, h => by simp [table_from] at h
  | _ :: _, [], _, _, _, h => by simp [table_from] at h
  | _ :: _, _ :: _, [], _, _, h => by simp [table_from] at h
  | i :: ips, b :: bs, e :: es, a, n, h => by
    simp only [table_from] at h
    obtain ⟨hb, hs, hp, he, ht⟩ := h
    simp only [List.cons_append, table_from]
    exact ⟨hb, hs, hp, he, table_from_append tg ip h1 h2 ips bs es e n ht⟩

theorem load_position_fold (tg : Tagger) (ip : ipscale_t) :
    ∀ (ps : List (Int × Int)) (tc : List Nat) (n : Nat) (tc1 : List Nat) (n1 : Nat),
      ps.foldlM (load_position tg ip) (tc, n) = some (tc1, n1) →
        n1 = n + (tagged tg ip ps).length ∧ tc1.length = tc.length ∧
        (∀ t, tc1.getD t 0 = tc.getD t 0 + ((tagged tg ip ps).filter (fun w => w.type = t)).length) ∧
        (∀ w ∈ tagged tg ip ps, w.type < tc.length)
  | [], tc, n, tc1, n1, h => by
    simp [tagged] at h ⊢
    obtain ⟨rfl, rfl⟩ := h
    simp
  | p :: ps, tc, n, tc1, n1, h => by
    rw [List.foldlM_cons] at h
    cases hc : tg.check ip p.1 p.2 with
    | none =>
      simp only [load_position, hc, Option.some_bind] at h
      have := load_position_fold tg ip ps tc n tc1 n1 h
      simpa [tagged, hc] using this
    | some r =>
      obtain ⟨tgt, ty⟩ := r
      cases hr : tc[ty]? with
      | none => simp [load_position, hc, hr] at h
      | some c =>
        simp only [load_position, hc, hr, Option.some_bind] at h
        obtain ⟨e1, e2, e3, e4⟩ := load_position_fold tg ip ps _ _ tc1 n1 h
        have hty : ty < tc.length := by
          by_contra hcon
          rw [List.getElem?_eq_none (by omega)] at hr
          cases hr
        have hcv : tc[ty] = c := by
          rw [List.getElem?_eq_getElem hty] at hr
          exact Option.some.inj hr
        have htag : tagged tg ip (p :: ps) = Window.mk p.1 p.2 tgt ty :: tagged tg ip ps := by
          simp [tagged, hc]
        rw [htag]
        refine ⟨by simp [e1]; omega, by simpa using e2, ?_, ?_⟩
        · intro t
          rw [e3 t]
          by_cases htt : ty = t
          · subst htt
            simp [List.getD_eq_getElem?_getD, List.getElem?_set, hty, hcv]
            omega
          · simp [List.getD_eq_getElem?_getD, List.getElem?_set, htt]
        · intro w hw
          rcases List.mem_cons.mp hw with rfl | hw
          · exact hty
          · simpa using e4 w hw

theorem load_position_fold_some (tg : Tagger) (ip : ipscale_t) :
    ∀ (ps : List (Int × Int)) (tc : List Nat) (n : Nat),
      (∀ w ∈ tagged tg ip ps, w.type < tc.length) →
        ∃ r, ps.foldlM (load_position tg ip) (tc, n) = some r
  | [], tc, n, _ => ⟨(tc, n), rfl⟩
  | p :: ps, tc, n, h => by
    rw [List.foldlM_cons]
    cases hc : tg.check ip p.1 p.2 with
    | none =>
      simp only [load_position, hc, Option.some_bind]
      exact load_position_fold_some tg ip ps tc n (by simpa [tagged, hc] using h)
    | some r =>
      obtain ⟨tgt, ty⟩ := r
      have htag : tagged tg ip (p :: ps) = Window.mk p.1 p.2 tgt ty :: tagged tg ip ps := by
        simp [tagged, hc]
      rw [htag] at h
      have hty : ty < tc.length := h _ (List.mem_cons_self _ _)
      simp only [load_position, hc, List.getElem?_eq_getElem hty, Option.some_bind]
      exact load_position_fold_some tg ip ps _ _
        (fun w hw => by simpa using h w (List.mem_cons_of_mem _ hw))

theorem grows_nil (S : Sampler G) : Grows S S [] := by
  constructor <;> simp [informative]

theorem grows_append {S S1 S2 : Sampler G} {sc1 sc2 : List ipscale_t}
    (h1 : Grows S S1 sc1) (h2 : Grows S1 S2 sc2) : Grows S S2 (sc1 ++ sc2) := by
  have ht := h1.tagger
  constructor
  · rw [h2.tagger, h1.tagger]
  · rw [h2.n_outputs, h1.n_outputs]
  · rw [h2.n_types, h1.n_types]
  · rw [h2.rgens, h1.rgens]
  · rw [h2.sprobs, h1.sprobs]
  · rw [h2.tcounts_length, h1.tcounts_length]
  · intro t
    rw [h2.tcounts t, h1.tcounts t, ht, List.map_append, List.sum_append]
    omega
  · rw [h2.ipscales, h1.ipscales, ht, informative, informative, informative,
      List.filter_append, List.append_assoc]
  · rw [h2.n_samples, h1.n_samples, ht, List.map_append, List.sum_append]
    omega
  · intro ip hip
    rcases List.mem_append.mp hip with h | h
    · exact h1.scans ip h
    · exact h2.scans ip h
  · intro ip hip
    rcases List.mem_append.mp hip with h | h
    · exact h1.types ip h
    · intro w hw
      have := h2.types ip h w (by rw [ht]; exact hw)
      rw [h1.tcounts_length] at this
      exact this
  · intro a ha
    have := h2.table a (by rw [ht]; exact h1.table a ha)
    rw [ht] at this
    exact this
  · rw [h2.loss, h1.loss]

theorem load_scale_grows (S S1 : Sampler G) (ip : ipscale_t) (h : load_scale S ip = some S1) :
    Grows S S1 [ip] := by
  unfold load_scale at h
  cases hps : scan_positions ip with
  | none => simp [hps] at h
  | some ps =>
    simp only [hps] at h
    cases hf : ps.foldlM (load_position S.m_tagger ip) (S.m_tcounts, 0) with
    | none => simp [hf] at h
    | some r =>
      obtain ⟨tc, nn⟩ := r
      simp only [hf] at h
      obtain ⟨e1, e2, e3, e4⟩ := load_position_fold S.m_tagger ip ps _ _ _ _ hf
      have hw : scale_windows S.m_tagger ip = tagged S.m_tagger ip ps := by
        simp [scale_windows, hps]
      rw [← hw] at e1 e3 e4
      simp only [zero_add] at e1
      by_cases hn : nn > 0
      · simp only [hn, if_true, Option.some.injEq] at h
        subst h
        have hpos : 0 < (scale_windows S.m_tagger ip).length := e1 ▸ hn
        refine ⟨rfl, rfl, rfl, rfl, rfl, e2, ?_, ?_, ?_, ?_, ?_, ?_, rfl⟩
        · intro t
          have h3 := e3 t
          simpa [type_count] using h3
        · simp [informative, hpos]
        · simp [e1]
        · simp [hps]
        · simpa using e4
        · intro a ha
          have := table_from_append S.m_tagger ip (by simp [hps]) hpos _ _ _ _ _ ha
          rw [← e1] at this
          exact this
      · simp only [hn, if_false, Option.some.injEq] at h
        subst h
        have h0 : (scale_windows S.m_tagger ip).length = 0 := by omega
        refine ⟨rfl, rfl, rfl, rfl, rfl, e2, ?_, ?_, ?_, ?_, ?_, ?_, rfl⟩
        · intro t
          have h3 := e3 t
          simpa [type_count] using h3
        · simp [informative, h0]
        · simp [h0]
        · simp [hps]
        · simpa using e4
        · intro a ha
          exact ha

theorem load_scale_some (S : Sampler G) (ip : ipscale_t) (hs : scan_ok ip)
    (ht : ∀ w ∈ scale_windows S.m_tagger ip, w.type < S.m_tcounts.length) :
    ∃ S1, load_scale S ip = some S1 := by
  obtain ⟨ps, hps⟩ := scan_positions_some ip hs
  have hw : scale_windows S.m_tagger ip = tagged S.m_tagger ip ps := by
    simp [scale_windows, hps]
  obtain ⟨r, hr⟩ := load_position_fold_some S.m_tagger ip ps S.m_tcounts 0 (hw ▸ ht)
  obtain ⟨tc, nn⟩ := r
  unfold load_scale
  simp only [hps, hr]
  split_ifs <;> exact ⟨_, rfl⟩

theorem tagged_type_lt (tg : Tagger) (h : tagger_typed tg) (ip : ipscale_t)
    (ps : List (Int × Int)) : ∀ w ∈ tagged tg ip ps, w.type < tg.n_types := by
  intro w hw
  simp only [tagged, List.mem_filterMap, Option.map_eq_some'] at hw
  obtain ⟨p, _, r, hr, rfl⟩ := hw
  exact h ip p.1 p.2 r hr

theorem load_scales_grows : ∀ (sc : List ipscale_t) (S S1 : Sampler G),
    sc.foldlM load_scale S = some S1 → Grows S S1 sc
  | [], S, S1, h => by
    simp only [List.foldlM_nil] at h
    cases h
    exact grows_nil S
  | ip :: sc, S, S1, h => by
    rw [List.foldlM_cons] at h
    cases h0 : load_scale S ip with
    | none => simp [h0] at h
    | some S0 =>
      simp only [h0, Option.some_bind] at h
      exact grows_append (load_scale_grows S S0 ip h0) (load_scales_grows sc S0 S1 h)

theorem load_scales_some : ∀ (sc : List ipscale_t) (S : Sampler G),
    (∀ ip ∈ sc, scan_ok ip) →
    (∀ ip ∈ sc, ∀ w ∈ scale_windows S.m_tagger ip, w.type < S.m_tcounts.length) →
    ∃ S1, sc.foldlM load_scale S = some S1
  | [], S, _, _ => ⟨S, rfl⟩
  | ip :: sc, S, h1, h2 => by
    obtain ⟨S0, h0⟩ := load_scale_some S ip (h1 ip (List.mem_cons_self _ _))
      (h2 ip (List.mem_cons_self _ _))
    have hg := load_scale_grows S S0 ip h0
    obtain ⟨S1, hS1⟩ := load_scales_some sc S0 (fun i hi => h1 i (List.mem_cons_of_mem _ hi))
      (fun i hi w hw => by
        rw [hg.tcounts_length]
        exact h2 i (List.mem_cons_of_mem _ hi) w (by rw [← hg.tagger]; exact hw))
    exact ⟨S1, by rw [List.foldlM_cons, h0]; exact hS1⟩

theorem load_grows (E : Ext G) : ∀ (ifiles gfiles : List String) (S S1 : Sampler G),
    Sampler.load E S ifiles gfiles = some S1 → Grows S S1 (scanned_scales E ifiles gfiles)
  | [], _, S, S1, h => by
    simp only [Sampler.load] at h
    cases h
    cases ‹List String› <;> exact grows_nil S
  | _ :: _, [], S, S1, h => by simp [Sampler.load] at h
  | i :: ifiles, g :: gfiles, S, S1, h => by
    simp only [Sampler.load] at h
    cases h0 : load_image E S i g with
    | none => simp [h0] at h
    | some S0 =>
      simp only [h0] at h
      have hrest := load_grows E ifiles gfiles S0 S1 h
      have hfirst : Grows S S0 ((E.ipyramid_load i g).getD []) := by
        unfold load_image at h0
        cases hp : E.ipyramid_load i g with
        | none =>
          simp only [hp, Option.some.injEq] at h0
          subst h0
          exact grows_nil S
        | some scales =>
          simp only [hp] at h0
          exact load_scales_grows scales S S0 h0
      exact grows_append hfirst hrest

theorem load_some (E : Ext G) : ∀ (ifiles gfiles : List String) (S : Sampler G),
    ifiles.length ≤ gfiles.length →
    (∀ ip ∈ scanned_scales E ifiles gfiles, scan_ok ip) →
    (∀ ip ∈ scanned_scales E ifiles gfiles, ∀ w ∈ scale_windows S.m_tagger ip,
      w.type < S.m_tcounts.length) →
    ∃ S1, Sampler.load E S ifiles gfiles = some S1
  | [], _, S, _, _, _ => ⟨S, by simp [Sampler.load]⟩
  | _ :: _, [], _, hl, _, _ => by simp at hl
  | i :: ifiles, g :: gfiles, S, hl, h1, h2 => by
    have hmem : ∀ ip, ip ∈ (E.ipyramid_load i g).getD [] →
        ip ∈ scanned_scales E (i :: ifiles) (g :: gfiles) := fun ip hip => by
      simp only [scanned_scales, List.mem_append]
      exact Or.inl hip
    have hmem2 : ∀ ip, ip ∈ scanned_scales E ifiles gfiles →
        ip ∈ scanned_scales E (i :: ifiles) (g :: gfiles) := fun ip hip => by
      simp only [scanned_scales, List.mem_append]
      exact Or.inr hip
    have hfirst : ∃ S0, load_image E S i g = some S0 ∧ Grows S S0 ((E.ipyramid_load i g).getD []) := by
      unfold load_image
      cases hp : E.ipyramid_load i g with
      | none => exact ⟨S, rfl, grows_nil S⟩
      | some scales =>
        simp only [hp, Option.getD_some] at hmem ⊢
        obtain ⟨S0, h0⟩ := load_scales_some scales S (fun ip hip => h1 ip (hmem ip hip))
          (fun ip hip => h2 ip (hmem ip hip))
        exact ⟨S0, h0, load_scales_grows scales S S0 h0⟩
    obtain ⟨S0, h0, hg⟩ := hfirst
    obtain ⟨S1, hS1⟩ := load_some E ifiles gfiles S0 (by simpa using hl)
      (fun ip hip => h1 ip (hmem2 ip hip))
      (fun ip hip w hw => by
        rw [hg.tcounts_length]
        exact h2 ip (hmem2 ip hip) w (by rw [← hg.tagger]; exact hw))
    exact ⟨S1, by simp only [Sampler.load, h0]; exact hS1⟩

theorem table_from_facts (tg : Tagger) :
    ∀ (ips : List ipscale_t) (bs es : List Nat) (a n : Nat),
      table_from tg a ips bs es n → RangeFacts tg a ips bs es n
  | [], [], [], a, n, h => by
    simp only [table_from] at h
    subst h
    constructor <;> simp
  | [], [], _ :: _, _, _, h => by simp [table_from] at h
  | [], _ :: _, _, _, _, h => by simp [table_from] at h
  | _ :: _, [], _, _, _, h => by simp [table_from] at h
  | _ :: _, _ :: _, [], _, _, h => by simp [table_from] at h
  | ip :: ips, b :: bs, e :: es, a, n, h => by
    simp only [table_from] at h
    obtain ⟨hb, hs, hp, he, ht⟩ := h
    have ih := table_from_facts tg ips bs es e n ht
    have hle := ih.le
    subst hb
    constructor
    · simp [ih.begins_length]
    · simp [ih.ends_length]
    · omega
    · simp
    · simp
    · intro _
      cases hl : ips.length with
      | zero =>
        have := ih.empty hl
        simp [hl]
        omega
      | succ k =>
        have := ih.last (by omega)
        simp only [hl, List.length_cons, Nat.add_sub_cancel, List.getD_cons_succ] at this ⊢
        simpa using this
    · intro i hi
      simp only [List.length_cons, Nat.add_lt_add_iff_right] at hi
      cases i with
      | zero =>
        have := ih.first hi
        simp only [List.getD_cons_zero, List.getD_cons_succ]
        omega
      | succ k =>
        have := ih.next k hi
        simpa using this
    · intro i hi
      cases i with
      | zero => simp only [List.getD_cons_zero]; omega
      | succ k =>
        have := ih.bounds k (by simpa using hi)
        simp only [List.getD_cons_succ]
        omega
    · intro i j hij hj
      cases j with
      | zero => omega
      | succ j1 =>
        have hj1 : j1 < ips.length := by simpa using hj
        have hbj := ih.bounds j1 hj1
        cases i with
        | zero => simp only [List.getD_cons_zero, List.getD_cons_succ]; omega
        | succ i1 =>
          have := ih.ordered i1 j1 (by omega) hj1
          simpa using this
    · intro s h1 h2
      by_cases hse : s < e
      · exact ⟨0, by simp, by simp only [List.getD_cons_zero]; omega,
          by simp only [List.getD_cons_zero]; omega⟩
      · obtain ⟨i, hi, h3, h4⟩ := ih.cover s (by omega) h2
        exact ⟨i + 1, by simpa using hi, by simpa using h3, by simpa using h4⟩
    · intro i ip1 hi
      cases i with
      | zero =>
        simp only [List.getElem?_cons_zero, Option.some.injEq] at hi
        subst hi
        simp only [List.getD_cons_zero]
        exact ⟨he, hs⟩
      | succ k =>
        have := ih.size k ip1 (by simpa using hi)
        simpa using this

/-! ## The partition table -/

theorem ex_tagger_typed : tagger_typed ex_tagger := by
  intro ip x y r h
  simp only [ex_tagger] at h ⊢
  split_ifs at h <;> simp_all
  all_goals (subst h; simp)

theorem ex_scanned :
    scanned_scales ex_ext ["a", "b", "c"] ["ga", "gb", "gc"] =
      [ex_ip 1 4, ex_ip 0 4, ex_ip 2 2, ex_ip 3 2] := by
  simp [scanned_scales, ex_ext]

theorem loaded_table (E : Ext G) (param : param_t) (ifiles gfiles : List String)
    (S : Sampler G) (h : Sampler.load E (Sampler.init E param) ifiles gfiles = some S) :
    RangeFacts S.m_tagger 0 S.m_ipscales S.m_ipsbegins S.m_ipsends S.m_n_samples := by
  have hg := load_grows E ifiles gfiles _ S h
  have ht := hg.table 0 (by simp [Sampler.init, table_from])
  rw [← hg.tagger] at ht
  exact table_from_facts _ _ _ _ _ _ ht

theorem partition_invariant_of_facts (S : Sampler G)
    (h : RangeFacts S.m_tagger 0 S.m_ipscales S.m_ipsbegins S.m_ipsends S.m_n_samples) :
    partition_invariant S := by
  have hget : ∀ (l : List Nat) i, i < l.length → l[i]? = some (l.getD i 0) := by
    intro l i hi
    simp [List.getD_eq_getElem?_getD, List.getElem?_eq_getElem hi]
  unfold partition_invariant Sampler.n_images
  refine ⟨h.begins_length, h.ends_length, ?_, ?_, ?_, ?_, ?_, ?_, ?_⟩
  · intro h0
    rw [hget _ 0 (by rw [h.begins_length]; exact h0), h.first h0]
  · intro i hi
    rw [hget _ i (by rw [h.ends_length]; omega), hget _ (i + 1) (by rw [h.begins_length]; omega),
      h.next i hi]
  · intro i hi
    exact ⟨_, _, hget _ i (by rw [h.begins_length]; exact hi),
      hget _ i (by rw [h.ends_length]; exact hi), (h.bounds i hi).2.1⟩
  · intro h0
    rw [hget _ _ (by rw [h.ends_length]; omega), h.last h0]
  · intro h0
    exact (h.empty h0).symm
  · intro s
    constructor
    · intro hs
      exact h.cover s (Nat.zero_le s) hs
    · rintro ⟨i, hi, _, h2⟩
      have := (h.bounds i hi).2.2
      omega
  · intro i j s hi hj h1 h2 h3 h4
    by_contra hne
    rcases Nat.lt_or_gt_of_ne hne with hlt | hgt
    · have := h.ordered i j hlt hj
      omega
    · have := h.ordered j i hgt hi
      omega

/-- C1: for every pair of file lists of equal length, every image pyramid whose
scan loops terminate and every tagger that reports types below `n_types()`,
`Sampler::load` on a freshly constructed sampler returns, and the sampler it leaves
satisfies the Image Partition Table invariant: the range vectors have length
`n_images()`, `begins[0] = 0`, `ends[i] = begins[i+1]`, `begins[i] < ends[i]`, the
last range ends at `n_samples()` (which is 0 for an empty table), and the ranges
cover `[0, n_samples())` without overlap. -/
theorem load_partition_invariant (E : Ext G) (param : param_t) (ifiles gfiles : List String)
    (hlen : ifiles.length = gfiles.length)
    (hscan : ∀ ip ∈ scanned_scales E ifiles gfiles, scan_ok ip)
    (htyped : tagger_typed (E.make_tagger param)) :
    ∃ S, Sampler.load E (Sampler.init E param) ifiles gfiles = some S ∧
      partition_invariant S := by
  obtain ⟨S, hS⟩ := load_some E ifiles gfiles (Sampler.init E param) (le_of_eq hlen) hscan
    (fun ip _ w hw => by
      have := tagged_type_lt _ htyped ip _ w hw
      simpa [Sampler.init, stat_init] using this)
  exact ⟨S, hS, partition_invariant_of_facts S (loaded_table E param ifiles gfiles S hS)⟩

theorem load_partition_invariant_witness :
    ["a", "b", "c"].length = ["ga", "gb", "gc"].length ∧
    (∀ ip ∈ scanned_scales ex_ext ["a", "b", "c"] ["ga", "gb", "gc"], scan_ok ip) ∧
    tagger_typed (ex_ext.make_tagger ex_param) ∧
    ∃ S, Sampler.load ex_ext (Sampler.init ex_ext ex_param) ["a", "b", "c"] ["ga", "gb", "gc"]
        = some S ∧ partition_invariant S :=
  ⟨rfl, by rw [ex_scanned]; decide, ex_tagger_typed,
    load_partition_invariant ex_ext ex_param ["a", "b", "c"] ["ga", "gb", "gc"] rfl
      (by rw [ex_scanned]; decide) ex_tagger_typed⟩

/-! ## The lookup sample2image -/

theorem sample2image_facts (S : Sampler G)
    (h : RangeFacts S.m_tagger 0 S.m_ipscales S.m_ipsbegins S.m_ipsends S.m_n_samples) (s : Nat) :
    (s < S.m_n_samples →
      S.sample2image s < S.n_images ∧
      S.m_ipsbegins.getD (S.sample2image s) 0 ≤ s ∧ s < S.m_ipsends.getD (S.sample2image s) 0) ∧
    (S.m_n_samples ≤ s → S.sample2image s = S.n_images) := by
  unfold Sampler.sample2image
  cases hf : (List.range S.n_images).find?
      (fun i => decide (S.m_ipsbegins.getD i 0 ≤ s ∧ s < S.m_ipsends.getD i 0)) with
  | none =>
    simp only [Option.getD_none, lt_self_iff_false, false_and, imp_false, not_lt, implies_true,
      and_true]
    by_contra hs
    obtain ⟨i, hi, h1, h2⟩ := h.cover s (Nat.zero_le s) (by omega)
    have := List.find?_eq_none.mp hf i (List.mem_range.mpr hi)
    simp only [decide_eq_true_eq, not_and, not_lt] at this
    have := this h1
    omega
  | some j =>
    have hp := List.find?_some hf
    have hj := List.mem_range.mp (List.mem_of_find?_eq_some hf)
    simp only [decide_eq_true_eq] at hp
    simp only [Option.getD_some]
    refine ⟨fun _ => ⟨hj, hp.1, hp.2⟩, fun hs => ?_⟩
    have := (h.bounds j hj).2.2
    omega

/-- C2: on a loaded sampler `sample2image` is a total lookup: for every `s` below
`n_samples()` it returns an image index `i < n_images()` with
`begins[i] <= s < ends[i]`, and `i` is the only such index; for every
`s >= n_samples()`, so for `s = n_samples()`, it returns `n_images()`. -/
theorem sample2image_lookup (E : Ext G) (param : param_t) (ifiles gfiles : List String)
    (S : Sampler G) (hS : Sampler.load E (Sampler.init E param) ifiles gfiles = some S)
    (s : Nat) :
    (s < S.m_n_samples →
      S.sample2image s < S.n_images ∧
      S.m_ipsbegins[S.sample2image s]? ≠ none ∧ S.m_ipsends[S.sample2image s]? ≠ none ∧
      S.m_ipsbegins.getD (S.sample2image s) 0 ≤ s ∧ s < S.m_ipsends.getD (S.sample2image s) 0 ∧
      ∀ j, j < S.n_images → S.m_ipsbegins.getD j 0 ≤ s → s < S.m_ipsends.getD j 0 →
        j = S.sample2image s) ∧
    (S.m_n_samples ≤ s → S.sample2image s = S.n_images) ∧
    S.sample2image S.m_n_samples = S.n_images := by
  have hf := loaded_table E param ifiles gfiles S hS
  have h2 := sample2image_facts S hf
  have hinv := partition_invariant_of_facts S hf
  refine ⟨fun hs => ?_, (h2 s).2, (h2 _).2 le_rfl⟩
  obtain ⟨h3, h4, h5⟩ := (h2 s).1 hs
  refine ⟨h3, ?_, ?_, h4, h5, fun j hj hb he => ?_⟩
  · have : S.sample2image s < S.m_ipsbegins.length := by rw [hf.begins_length]; exact h3
    simp [List.getElem?_eq_getElem this]
  · have : S.sample2image s < S.m_ipsends.length := by rw [hf.ends_length]; exact h3
    simp [List.getElem?_eq_getElem this]
  · exact hinv.2.2.2.2.2.2.2.2 j _ s hj h3 hb he h4 h5

theorem ex_load :
    Sampler.load ex_ext (Sampler.init ex_ext ex_param) ["a", "b", "c"] ["ga", "gb", "gc"] =
      some ex_sampler := by
  rfl

theorem ex_new : Sampler.new ex_ext ex_param SamplerType.TrainSampler = some ex_sampler := by
  rfl

theorem sample2image_lookup_witness :
    Sampler.load ex_ext (Sampler.init ex_ext ex_param) ["a", "b", "c"] ["ga", "gb", "gc"] =
      some ex_sampler ∧
    ((7 < ex_sampler.m_n_samples →
      ex_sampler.sample2image 7 < ex_sampler.n_images ∧
      ex_sampler.m_ipsbegins[ex_sampler.sample2image 7]? ≠ none ∧
      ex_sampler.m_ipsends[ex_sampler.sample2image 7]? ≠ none ∧
      ex_sampler.m_ipsbegins.getD (ex_sampler.sample2image 7) 0 ≤ 7 ∧
      7 < ex_sampler.m_ipsends.getD (ex_sampler.sample2image 7) 0 ∧
      ∀ j, j < ex_sampler.n_images → ex_sampler.m_ipsbegins.getD j 0 ≤ 7 →
        7 < ex_sampler.m_ipsends.getD j 0 → j = ex_sampler.sample2image 7) ∧
    (ex_sampler.m_n_samples ≤ 7 → ex_sampler.sample2image 7 = ex_sampler.n_images) ∧
    ex_sampler.sample2image ex_sampler.m_n_samples = ex_sampler.n_images) :=
  ⟨ex_load, sample2image_lookup ex_ext ex_param _ _ ex_sampler ex_load 7⟩

/-! ## Counting accepted positions -/

theorem tagged_length (tg : Tagger) (ip : ipscale_t) (ps : List (Int × Int)) :
    (tagged tg ip ps).length = (ps.filter (fun p => (tg.check ip p.1 p.2).isSome)).length := by
  induction ps with
  | nil => rfl
  | cons p ps ih =>
    cases hc : tg.check ip p.1 p.2 with
    | none => simpa [tagged, hc, List.filter_cons] using ih
    | some r => simpa [tagged, hc, List.filter_cons] using ih

theorem tagged_type_length (tg : Tagger) (ip : ipscale_t) (t : Nat) (ps : List (Int × Int)) :
    ((tagged tg ip ps).filter (fun w => w.type = t)).length =
      (ps.filter (fun p => (tg.check ip p.1 p.2).any (fun r => decide (r.2 = t)))).length := by
  induction ps with
  | nil => rfl
  | cons p ps ih =>
    cases hc : tg.check ip p.1 p.2 with
    | none => simpa [tagged, hc, List.filter_cons] using ih
    | some r =>
      have htag : tagged tg ip (p :: ps) = Window.mk p.1 p.2 r.1 r.2 :: tagged tg ip ps := by
        simp [tagged, hc]
      rw [htag]
      by_cases hr : r.2 = t
      · simpa [hc, List.filter_cons, hr] using ih
      · simpa [hc, List.filter_cons, hr] using ih

theorem scale_windows_length (tg : Tagger) (ip : ipscale_t) :
    (scale_windows tg ip).length = accepted_count tg ip :=
  tagged_length tg ip _

theorem type_count_eq (tg : Tagger) (t : Nat) (ip : ipscale_t) :
    type_count tg t ip = accepted_type_count tg t ip :=
  tagged_type_length tg ip t _

theorem sum_set_succ : ∀ (l : List Nat) (i c : Nat), l[i]? = some c →
    (l.set i (c + 1)).sum = l.sum + 1
  | [], i, c, h => by simp at h
  | a :: l, 0, c, h => by
    simp only [List.getElem?_cons_zero, Option.some.injEq] at h
    subst h
    simp only [List.set_cons_zero, List.sum_cons]
    omega
  | a :: l, i + 1, c, h => by
    simp only [List.getElem?_cons_succ] at h
    simp only [List.set_cons_succ, List.sum_cons, sum_set_succ l i c h]
    omega

theorem load_position_fold_sum (tg : Tagger) (ip : ipscale_t) :
    ∀ (ps : List (Int × Int)) (tc : List Nat) (n : Nat) (tc1 : List Nat) (n1 : Nat),
      ps.foldlM (load_position tg ip) (tc, n) = some (tc1, n1) → tc1.sum + n = tc.sum + n1
  | [], tc, n, tc1, n1, h => by
    simp at h
    obtain ⟨rfl, rfl⟩ := h
    rfl
  | p :: ps, tc, n, tc1, n1, h => by
    rw [List.foldlM_cons] at h
    cases hc : tg.check ip p.1 p.2 with
    | none =>
      simp only [load_position, hc, Option.some_bind] at h
      exact load_position_fold_sum tg ip ps tc n tc1 n1 h
    | some r =>
      obtain ⟨tgt, ty⟩ := r
      cases hr : tc[ty]? with
      | none => simp [load_position, hc, hr] at h
      | some c =>
        simp only [load_position, hc, hr, Option.some_bind] at h
        have := load_position_fold_sum tg ip ps _ _ tc1 n1 h
        rw [sum_set_succ tc ty c hr] at this
        omega

theorem load_scale_sum (S S1 : Sampler G) (ip : ipscale_t) (h : load_scale S ip = some S1) :
    S1.m_tcounts.sum + S.m_n_samples = S.m_tcounts.sum + S1.m_n_samples := by
  unfold load_scale at h
  cases hps : scan_positions ip with
  | none => simp [hps] at h
  | some ps =>
    simp only [hps] at h
    cases hf : ps.foldlM (load_position S.m_tagger ip) (S.m_tcounts, 0) with
    | none => simp [hf] at h
    | some r =>
      obtain ⟨tc, nn⟩ := r
      simp only [hf] at h
      have hsum := load_position_fold_sum S.m_tagger ip ps _ _ _ _ hf
      have hlen := (load_position_fold S.m_tagger ip ps _ _ _ _ hf).1
      by_cases hn : nn > 0
      · simp only [hn, if_true, Option.some.injEq] at h
        subst h
        simp only
        omega
      · simp only [hn, if_false, Option.some.injEq] at h
        subst h
        simp only
        omega

theorem load_scales_sum : ∀ (sc : List ipscale_t) (S S1 : Sampler G),
    sc.foldlM load_scale S = some S1 →
      S1.m_tcounts.sum + S.m_n_samples = S.m_tcounts.sum + S1.m_n_samples
  | [], S, S1, h => by
    simp only [List.foldlM_nil] at h
    cases h
    rfl
  | ip :: sc, S, S1, h => by
    rw [List.foldlM_cons] at h
    cases h0 : load_scale S ip with
    | none => simp [h0] at h
    | some S0 =>
      simp only [h0, Option.some_bind] at h
      have h1 := load_scale_sum S S0 ip h0
      have h2 := load_scales_sum sc S0 S1 h
      omega

theorem load_sum (E : Ext G) : ∀ (ifiles gfiles : List String) (S S1 : Sampler G),
    Sampler.load E S ifiles gfiles = some S1 →
      S1.m_tcounts.sum + S.m_n_samples = S.m_tcounts.sum + S1.m_n_samples
  | [], _, S, S1, h => by
    simp only [Sampler.load] at h
    cases h
    rfl
  | _ :: _, [], S, S1, h => by simp [Sampler.load] at h
  | i :: ifiles, g :: gfiles, S, S1, h => by
    simp only [Sampler.load] at h
    cases h0 : load_image E S i g with
    | none => simp [h0] at h
    | some S0 =>
      simp only [h0] at h
      have h2 := load_sum E ifiles gfiles S0 S1 h
      have h1 : S0.m_tcounts.sum + S.m_n_samples = S.m_tcounts.sum + S0.m_n_samples := by
        unfold load_image at h0
        cases hp : E.ipyramid_load i g with
        | none =>
          simp only [hp, Option.some.injEq] at h0
          subst h0
          rfl
        | some scales =>
          simp only [hp] at h0
          exact load_scales_sum scales S S0 h0
      omega

/-! ## Retained scales and type counts -/

theorem informative_eq (tg : Tagger) (sc : List ipscale_t) :
    informative tg sc = sc.filter (fun ip => decide (0 < accepted_count tg ip)) := by
  unfold informative
  congr 1
  funext ip
  rw [scale_windows_length]

theorem init_tagger (E : Ext G) (param : param_t) :
    (Sampler.init E param).m_tagger = E.make_tagger param := rfl

/-- C3: zero-sample scales never enter the cache. For file lists of equal length,
terminating scans and a typed tagger, `Sampler::load` returns, the retained sequence
`m_ipscales` is the in-order subsequence of the scales of the successfully loaded
images that have at least one scan position accepted by the tagger, and for each
retained scale `i` the width `ends[i] - begins[i]` is its number of accepted scan
positions (which is positive). -/
theorem load_retained_scales (E : Ext G) (param : param_t) (ifiles gfiles : List String)
    (hlen : ifiles.length = gfiles.length)
    (hscan : ∀ ip ∈ scanned_scales E ifiles gfiles, scan_ok ip)
    (htyped : tagger_typed (E.make_tagger param)) :
    ∃ S, Sampler.load E (Sampler.init E param) ifiles gfiles = some S ∧
      S.m_ipscales = (scanned_scales E ifiles gfiles).filter
        (fun ip => decide (0 < accepted_count (E.make_tagger param) ip)) ∧
      ∀ i ip, S.m_ipscales[i]? = some ip →
        0 < accepted_count (E.make_tagger param) ip ∧
        S.m_ipsends.getD i 0 - S.m_ipsbegins.getD i 0 =
          accepted_count (E.make_tagger param) ip := by
  obtain ⟨S, hS⟩ := load_some E ifiles gfiles (Sampler.init E param) (le_of_eq hlen) hscan
    (fun ip _ w hw => by
      have := tagged_type_lt _ htyped ip _ w hw
      simpa [Sampler.init, stat_init] using this)
  have hg := load_grows E ifiles gfiles _ S hS
  have hf := loaded_table E param ifiles gfiles S hS
  have htg : S.m_tagger = E.make_tagger param := hg.tagger
  refine ⟨S, hS, ?_, fun i ip hi => ?_⟩
  · rw [hg.ipscales, init_tagger, informative_eq]
    simp [Sampler.init]
  · have hsz := (hf.size i ip hi).1
    have hi2 : i < S.m_ipscales.length := by
      by_contra hcon
      rw [List.getElem?_eq_none (by omega)] at hi
      cases hi
    have hb := (hf.bounds i hi2).2.1
    rw [htg, scale_windows_length] at hsz
    omega

theorem load_retained_scales_witness :
    ["a", "b", "c"].length = ["ga", "gb", "gc"].length ∧
    (∀ ip ∈ scanned_scales ex_ext ["a", "b", "c"] ["ga", "gb", "gc"], scan_ok ip) ∧
    tagger_typed (ex_ext.make_tagger ex_param) ∧
    ∃ S, Sampler.load ex_ext (Sampler.init ex_ext ex_param) ["a", "b", "c"] ["ga", "gb", "gc"]
        = some S ∧
      S.m_ipscales = (scanned_scales ex_ext ["a", "b", "c"] ["ga", "gb", "gc"]).filter
        (fun ip => decide (0 < accepted_count (ex_ext.make_tagger ex_param) ip)) ∧
      ∀ i ip, S.m_ipscales[i]? = some ip →
        0 < accepted_count (ex_ext.make_tagger ex_param) ip ∧
        S.m_ipsends.getD i 0 - S.m_ipsbegins.getD i 0 =
          accepted_count (ex_ext.make_tagger ex_param) ip :=
  ⟨rfl, by rw [ex_scanned]; decide, ex_tagger_typed,
    load_retained_scales ex_ext ex_param ["a", "b", "c"] ["ga", "gb", "gc"] rfl
      (by rw [ex_scanned]; decide) ex_tagger_typed⟩

/-- C4: type counts. Provided the tagger only reports types below `n_types()` (and
the file lists have equal length and the scans terminate), `Sampler::load` returns
with `m_tcounts` of size `n_types()`, `m_tcounts[t]` equal for every type `t` to the
number of accepted scan positions of type `t` over all scanned scales, and the sum of
`m_tcounts` equal to `n_samples()`. -/
theorem load_type_counts (E : Ext G) (param : param_t) (ifiles gfiles : List String)
    (hlen : ifiles.length = gfiles.length)
    (hscan : ∀ ip ∈ scanned_scales E ifiles gfiles, scan_ok ip)
    (htyped : tagger_typed (E.make_tagger param)) :
    ∃ S, Sampler.load E (Sampler.init E param) ifiles gfiles = some S ∧
      S.m_tcounts.length = S.m_n_types ∧
      (∀ t, t < S.m_n_types → S.m_tcounts[t]? = some
        (((scanned_scales E ifiles gfiles).map
          (accepted_type_count (E.make_tagger param) t)).sum)) ∧
      S.m_tcounts.sum = S.m_n_samples := by
  obtain ⟨S, hS⟩ := load_some E ifiles gfiles (Sampler.init E param) (le_of_eq hlen) hscan
    (fun ip _ w hw => by
      have := tagged_type_lt _ htyped ip _ w hw
      simpa [Sampler.init, stat_init] using this)
  have hg := load_grows E ifiles gfiles _ S hS
  have hsum := load_sum E ifiles gfiles _ S hS
  have hl : S.m_tcounts.length = S.m_n_types := by
    rw [hg.tcounts_length, hg.n_types]
    simp [Sampler.init, stat_init]
  refine ⟨S, hS, hl, fun t ht => ?_, ?_⟩
  · have h1 := hg.tcounts t
    have h0 : (Sampler.init E param).m_tcounts.getD t 0 = 0 := by
      simp only [Sampler.init, stat_init, List.getD_eq_getElem?_getD, List.getElem?_replicate]
      split_ifs <;> rfl
    rw [h0, zero_add, init_tagger] at h1
    have hfun : type_count (E.make_tagger param) t = accepted_type_count (E.make_tagger param) t :=
      funext (type_count_eq _ t)
    rw [hfun] at h1
    rw [← h1, List.getD_eq_getElem?_getD, List.getElem?_eq_getElem (by omega)]
    rfl
  · have h0 : (Sampler.init E param).m_tcounts.sum = 0 := by
      simp [Sampler.init, stat_init]
    have h1 : (Sampler.init E param).m_n_samples = 0 := rfl
    omega

theorem load_type_counts_witness :
    ["a", "b", "c"].length = ["ga", "gb", "gc"].length ∧
    (∀ ip ∈ scanned_scales ex_ext ["a", "b", "c"] ["ga", "gb", "gc"], scan_ok ip) ∧
    tagger_typed (ex_ext.make_tagger ex_param) ∧
    ∃ S, Sampler.load ex_ext (Sampler.init ex_ext ex_param) ["a", "b", "c"] ["ga", "gb", "gc"]
        = some S ∧
      S.m_tcounts.length = S.m_n_types ∧
      (∀ t, t < S.m_n_types → S.m_tcounts[t]? = some
        (((scanned_scales ex_ext ["a", "b", "c"] ["ga", "gb", "gc"]).map
          (accepted_type_count (ex_ext.make_tagger ex_param) t)).sum)) ∧
      S.m_tcounts.sum = S.m_n_samples :=
  ⟨rfl, by rw [ex_scanned]; decide, ex_tagger_typed,
    load_type_counts ex_ext ex_param ["a", "b", "c"] ["ga", "gb", "gc"] rfl
      (by rw [ex_scanned]; decide) ex_tagger_typed⟩

/-! ## Sampling weights -/

theorem fill_fold (val : Nat → Option ℚ) : ∀ (k : Nat) (sp sp1 : List ℚ),
    (List.range k).foldlM (fill_step val) sp = some sp1 →
      sp1.length = sp.length ∧ k ≤ sp.length ∧
      (∀ i, i < k → sp1[i]? = val i ∧ val i ≠ none) ∧ (∀ i, k ≤ i → sp1[i]? = sp[i]?)
  | 0, sp, sp1, h => by
    simp only [List.range_zero, List.foldlM_nil] at h
    cases h
    simp
  | k + 1, sp, sp1, h => by
    rw [List.range_succ, List.foldlM_append] at h
    cases h0 : (List.range k).foldlM (fill_step val) sp with
    | none => simp [h0] at h
    | some sp0 =>
      obtain ⟨e1, e2, e3, e4⟩ := fill_fold val k sp sp0 h0
      simp only [h0, Option.some_bind, List.foldlM_cons, List.foldlM_nil] at h
      unfold fill_step at h
      cases hv : val k with
      | none => simp [hv] at h
      | some v =>
        simp only [hv] at h
        by_cases hk : k < sp0.length
        · have h : sp0.set k v = sp1 := by simpa [hk] using h
          subst h
          refine ⟨by simpa using e1, by omega, fun i hi => ?_, fun i hi => ?_⟩
          · by_cases hik : i = k
            · subst hik
              simp [List.getElem?_set, hk, hv]
            · have : k ≠ i := fun hh => hik hh.symm
              simp only [List.getElem?_set, this, if_false]
              exact e3 i (by omega)
          · have : k ≠ i := by omega
            simp only [List.getElem?_set, this, if_false]
            exact e4 i (by omega)
        · simp [hk] at h

theorem fill_fold_some (val : Nat → Option ℚ) : ∀ (k : Nat) (sp : List ℚ),
    k ≤ sp.length → (∀ i, i < k → val i ≠ none) →
      ∃ sp1, (List.range k).foldlM (fill_step val) sp = some sp1
  | 0, sp, _, _ => ⟨sp, rfl⟩
  | k + 1, sp, hk, hv => by
    obtain ⟨sp0, h0⟩ := fill_fold_some val k sp (by omega) (fun i hi => hv i (by omega))
    have hl := (fill_fold val k sp sp0 h0).1
    rw [List.range_succ, List.foldlM_append, h0]
    simp only [Option.some_bind, List.foldlM_cons, List.foldlM_nil]
    unfold fill_step
    cases hvk : val k with
    | none => exact absurd hvk (hv k (by omega))
    | some v =>
      have : k < sp0.length := by omega
      simp [this]

theorem uniform_sprobs_step_eq (S : Sampler G) (n : Nat) :
    uniform_sprobs_step S n = fill_step (fun i =>
      (S.m_tcounts[i]?).map (fun (c : Nat) => (n : ℚ) * inverse S.m_n_types * inverse c)) := by
  funext sp i
  unfold uniform_sprobs_step fill_step
  cases h : S.m_tcounts[i]? <;> simp [h]

theorem error_sprobs_step_eq (S : Sampler G) (n : Nat) (terrors : List ℚ) :
    error_sprobs_step S n terrors = fill_step (fun i =>
      (terrors[i]?).map (fun e => (n : ℚ) * inverse S.m_tcounts.length * inverse e)) := by
  funext sp i
  unfold error_sprobs_step fill_step
  cases h : terrors[i]? <;> simp [h]

/-- The vectors of a loaded sampler indexed by type have `n_types()` entries. -/
theorem loaded_type_vectors (E : Ext G) (param : param_t) (ifiles gfiles : List String)
    (S : Sampler G) (h : Sampler.load E (Sampler.init E param) ifiles gfiles = some S) :
    S.m_tcounts.length = S.m_n_types ∧ S.m_sprobs.length = S.m_n_types ∧
    S.m_rgens.length = E.n_threads := by
  have hg := load_grows E ifiles gfiles _ S h
  rw [hg.tcounts_length, hg.n_types, hg.sprobs, hg.rgens]
  simp [Sampler.init, stat_init]

theorem uniform_sprobs_spec (S : Sampler G) (n : Nat)
    (h1 : S.m_tcounts.length = S.m_n_types) (h2 : S.m_sprobs.length = S.m_n_types) :
    ∃ sprobs, S.uniform_sprobs n = some sprobs ∧ sprobs.length = S.m_n_types ∧
      ∀ t, t < S.m_n_types →
        sprobs[t]? = some ((n : ℚ) * inverse S.m_n_types * inverse (S.m_tcounts.getD t 0)) := by
  unfold Sampler.uniform_sprobs
  rw [uniform_sprobs_step_eq]
  obtain ⟨sp, hsp⟩ := fill_fold_some (fun i =>
      (S.m_tcounts[i]?).map (fun (c : Nat) => (n : ℚ) * inverse S.m_n_types * inverse c))
    S.m_n_types S.m_sprobs (by omega) (fun i hi => by
      simp [List.getElem?_eq_getElem (show i < S.m_tcounts.length by omega)])
  obtain ⟨e1, _, e3, _⟩ := fill_fold _ _ _ _ hsp
  refine ⟨sp, hsp, by omega, fun t ht => ?_⟩
  rw [(e3 t ht).1]
  simp [List.getD_eq_getElem?_getD, List.getElem?_eq_getElem (show t < S.m_tcounts.length by omega)]

theorem inverse_nonneg (x : ℚ) (h : 0 ≤ x) : 0 ≤ inverse x := by
  unfold inverse
  split_ifs
  · exact le_rfl
  · positivity

/-- C5: uniform sampling weights. On a loaded sampler the loop at the start of the
uniform `Sampler::sample(n_target, out)` returns a vector `sprobs` with one entry per
type, and for every type `t` (with `T = n_types()`): if `tcounts[t] > 0` then
`sprobs[t] = n_target / (T * tcounts[t])`, so the summed weight
`tcounts[t] * sprobs[t]` of the samples of type `t` is `n_target / T` whatever
`tcounts[t]` is; if `tcounts[t] = 0` then `sprobs[t] = 0`. -/
theorem uniform_weights (E : Ext G) (param : param_t) (ifiles gfiles : List String)
    (S : Sampler G) (hS : Sampler.load E (Sampler.init E param) ifiles gfiles = some S)
    (n_target : Nat) :
    ∃ sprobs, S.uniform_sprobs n_target = some sprobs ∧ sprobs.length = S.m_n_types ∧
      ∀ t, t < S.m_n_types → ∃ c w, S.m_tcounts[t]? = some c ∧ sprobs[t]? = some w ∧
        (0 < c → w = (n_target : ℚ) / ((S.m_n_types : ℚ) * (c : ℚ)) ∧
          (c : ℚ) * w = (n_target : ℚ) / (S.m_n_types : ℚ)) ∧
        (c = 0 → w = 0) := by
  obtain ⟨h1, h2, _⟩ := loaded_type_vectors E param ifiles gfiles S hS
  obtain ⟨sp, hsp, hl, hv⟩ := uniform_sprobs_spec S n_target h1 h2
  refine ⟨sp, hsp, hl, fun t ht => ?_⟩
  have htl : t < S.m_tcounts.length := by omega
  refine ⟨S.m_tcounts[t], _, List.getElem?_eq_getElem htl, hv t ht, fun hc => ?_, fun hc => ?_⟩
  · have hT : (S.m_n_types : ℚ) ≠ 0 := by
      have : 0 < S.m_n_types := by omega
      exact_mod_cast this.ne'
    have hc0 : (S.m_tcounts[t] : ℚ) ≠ 0 := by exact_mod_cast hc.ne'
    have hget : S.m_tcounts.getD t 0 = S.m_tcounts[t] := by
      simp [List.getD_eq_getElem?_getD, List.getElem?_eq_getElem htl]
    rw [hget]
    unfold inverse
    rw [if_neg hT, if_neg hc0]
    constructor
    · field_simp
    · field_simp
      ring
  · have hget : S.m_tcounts.getD t 0 = 0 := by
      simp [List.getD_eq_getElem?_getD, List.getElem?_eq_getElem htl, hc]
    rw [hget]
    simp [inverse]

theorem uniform_weights_witness :
    Sampler.load ex_ext (Sampler.init ex_ext ex_param) ["a", "b", "c"] ["ga", "gb", "gc"] =
      some ex_sampler ∧
    ∃ sprobs, ex_sampler.uniform_sprobs 6 = some sprobs ∧ sprobs.length = ex_sampler.m_n_types ∧
      ∀ t, t < ex_sampler.m_n_types → ∃ c w, ex_sampler.m_tcounts[t]? = some c ∧
        sprobs[t]? = some w ∧
        (0 < c → w = ((6 : Nat) : ℚ) / ((ex_sampler.m_n_types : ℚ) * (c : ℚ)) ∧
          (c : ℚ) * w = ((6 : Nat) : ℚ) / (ex_sampler.m_n_types : ℚ)) ∧
        (c = 0 → w = 0) :=
  ⟨ex_load, uniform_weights ex_ext ex_param _ _ ex_sampler ex_load 6⟩

/-! ## The emission rule -/

theorem to_uint64_eq (c : ℚ) : to_uint64 c = ⌊c⌋₊ := by
  unfold to_uint64
  rw [← Int.floor_toNat]
  rfl

theorem sample_cost_eq (E : Ext G) (s : Nat) (c : ℚ) (gen : G) (samples : List Nat) :
    sample_cost E s c gen samples =
      (samples ++ List.replicate (⌊c⌋₊ + if (E.die gen).1 < c - ⌊c⌋₊ then 1 else 0) s,
        (E.die gen).2) := by
  unfold sample_cost
  simp only [to_uint64_eq]
  by_cases h0 : ⌊c⌋₊ > 0
  · by_cases hu : (E.die gen).1 < c - (⌊c⌋₊ : ℚ)
    · simp [h0, hu, List.replicate_succ', List.append_assoc]
    · simp [h0, hu]
  · have hz : ⌊c⌋₊ = 0 := by omega
    by_cases hu : (E.die gen).1 < c - (⌊c⌋₊ : ℚ)
    · simp [hz] at hu ⊢
      simp [hu]
    · simp [hz] at hu ⊢
      simp [not_lt.mpr hu]

/-- C6: the fractional emission rule of the cost-based `Sampler::sample`. For every
cost `c >= 0` and every draw `u = die(gen)` in `[0, 1)` the call appends `s` exactly
`floor(c) + (1 if u < c - floor(c) else 0)` times to `samples` and nothing else, and
leaves the generator advanced by that one draw; when `c` is an integer `k`, `s` is
appended exactly `k` times. -/
theorem sample_cost_emission (E : Ext G) (s : Nat) (c : ℚ) (gen : G) (samples : List Nat)
    (hc : 0 ≤ c) (hu : 0 ≤ (E.die gen).1 ∧ (E.die gen).1 < 1) :
    (sample_cost E s c gen samples).1 =
      samples ++ List.replicate (⌊c⌋₊ + if (E.die gen).1 < c - ⌊c⌋₊ then 1 else 0) s ∧
    (sample_cost E s c gen samples).2 = (E.die gen).2 ∧
    (∀ k : Nat, c = k → (sample_cost E s c gen samples).1 = samples ++ List.replicate k s) ∧
    (0 ≤ c - ⌊c⌋₊ ∧ c - ⌊c⌋₊ < 1) := by
  rw [sample_cost_eq]
  refine ⟨rfl, rfl, fun k hk => ?_, ?_, ?_⟩
  · subst hk
    have : ¬ (E.die gen).1 < ((k : ℚ)) - (k : ℚ) := by
      rw [sub_self]
      exact not_lt.mpr hu.1
    simp only [Nat.floor_natCast, if_neg this, add_zero]
  · have := Nat.floor_le hc
    linarith
  · have := Nat.lt_floor_add_one c
    linarith

theorem sample_cost_emission_witness :
    (0 : ℚ) ≤ 5 / 2 ∧ (0 ≤ (ex_ext.die 1).1 ∧ (ex_ext.die 1).1 < 1) ∧
    ((sample_cost ex_ext 7 (5 / 2) 1 [3]).1 =
      [3] ++ List.replicate (⌊(5 / 2 : ℚ)⌋₊ +
        if (ex_ext.die 1).1 < (5 / 2 : ℚ) - ⌊(5 / 2 : ℚ)⌋₊ then 1 else 0) 7 ∧
    (sample_cost ex_ext 7 (5 / 2) 1 [3]).2 = (ex_ext.die 1).2 ∧
    (∀ k : Nat, (5 / 2 : ℚ) = k →
      (sample_cost ex_ext 7 (5 / 2) 1 [3]).1 = [3] ++ List.replicate k 7) ∧
    (0 ≤ (5 / 2 : ℚ) - ⌊(5 / 2 : ℚ)⌋₊ ∧ (5 / 2 : ℚ) - ⌊(5 / 2 : ℚ)⌋₊ < 1)) :=
  ⟨by norm_num, by norm_num [ex_ext, ex_die],
    sample_cost_emission ex_ext 7 (5 / 2) 1 [3] (by norm_num) (by norm_num [ex_ext, ex_die])⟩

/-! ## Error based weights -/

theorem error_sprobs_spec (S : Sampler G) (n : Nat) (terrors : List ℚ)
    (h1 : terrors.length = S.m_n_types) (h2 : S.m_sprobs.length = S.m_n_types) :
    ∃ sprobs, S.error_sprobs n terrors = some sprobs ∧ sprobs.length = S.m_n_types ∧
      ∀ t, t < S.m_n_types →
        sprobs[t]? = some ((n : ℚ) * inverse S.m_tcounts.length * inverse (terrors.getD t 0)) := by
  unfold Sampler.error_sprobs
  rw [error_sprobs_step_eq]
  obtain ⟨sp, hsp⟩ := fill_fold_some (fun i =>
      (terrors[i]?).map (fun e => (n : ℚ) * inverse S.m_tcounts.length * inverse e))
    S.m_n_types S.m_sprobs (by omega) (fun i hi => by
      simp [List.getElem?_eq_getElem (show i < terrors.length by omega)])
  obtain ⟨e1, _, e3, _⟩ := fill_fold _ _ _ _ hsp
  refine ⟨sp, hsp, by omega, fun t ht => ?_⟩
  rw [(e3 t ht).1]
  simp [List.getD_eq_getElem?_getD, List.getElem?_eq_getElem (show t < terrors.length by omega)]

/-- C7, as the code has it: in the error based `Sampler::sample(n_target, model, out)`
on a loaded sampler, for every merged error vector with one entry per type, the loop
that fills `m_sprobs` returns, and for every type `t` with non-zero accumulated error
`sprobs[t] = n_target / (T * error_sum[t])`, where `T = m_tcounts.size()` is the
number of types `n_types()`, the divisor of uniform sampling, and not the number of
samples. -/
theorem error_weights (E : Ext G) (param : param_t) (ifiles gfiles : List String)
    (S : Sampler G) (hS : Sampler.load E (Sampler.init E param) ifiles gfiles = some S)
    (n_target : Nat) (terrors : List ℚ) (hlen : terrors.length = S.m_n_types) :
    S.m_tcounts.length = S.m_n_types ∧
    ∃ sprobs, S.error_sprobs n_target terrors = some sprobs ∧ sprobs.length = S.m_n_types ∧
      ∀ t, t < S.m_n_types → ∃ e w, terrors[t]? = some e ∧ sprobs[t]? = some w ∧
        (e ≠ 0 → w = (n_target : ℚ) / ((S.m_n_types : ℚ) * e)) ∧ (e = 0 → w = 0) := by
  obtain ⟨h1, h2, _⟩ := loaded_type_vectors E param ifiles gfiles S hS
  obtain ⟨sp, hsp, hl, hv⟩ := error_sprobs_spec S n_target terrors hlen h2
  refine ⟨h1, sp, hsp, hl, fun t ht => ?_⟩
  have htl : t < terrors.length := by omega
  have hget : terrors.getD t 0 = terrors[t] := by
    simp [List.getD_eq_getElem?_getD, List.getElem?_eq_getElem htl]
  refine ⟨terrors[t], _, List.getElem?_eq_getElem htl, hv t ht, fun he => ?_, fun he => ?_⟩
  · have hT : (S.m_n_types : ℚ) ≠ 0 := by
      have : 0 < S.m_n_types := by omega
      exact_mod_cast this.ne'
    rw [hget, h1]
    unfold inverse
    rw [if_neg hT, if_neg he]
    field_simp
  · rw [hget, he]
    simp [inverse]

theorem error_weights_witness :
    Sampler.load ex_ext (Sampler.init ex_ext ex_param) ["a", "b", "c"] ["ga", "gb", "gc"] =
      some ex_sampler ∧
    ([3, 2] : List ℚ).length = ex_sampler.m_n_types ∧
    ex_sampler.m_tcounts.length = ex_sampler.m_n_types ∧
    ∃ sprobs, ex_sampler.error_sprobs 12 [3, 2] = some sprobs ∧
      sprobs.length = ex_sampler.m_n_types ∧
      ∀ t, t < ex_sampler.m_n_types → ∃ e w, ([3, 2] : List ℚ)[t]? = some e ∧
        sprobs[t]? = some w ∧
        (e ≠ 0 → w = ((12 : Nat) : ℚ) / ((ex_sampler.m_n_types : ℚ) * e)) ∧ (e = 0 → w = 0) :=
  ⟨ex_load, rfl, error_weights ex_ext ex_param _ _ ex_sampler ex_load 12 [3, 2] rfl⟩

/-- C7 as stated fails: on the example sampler (12 samples, 2 types), with merged
errors 3 and 2 and `n_target = 12`, the weight of type 0 is `12 / (2 * 3) = 2`, and
not `12 / (12 * 3) = 1 / 3`. -/
theorem error_weights_counterexample :
    Sampler.load ex_ext (Sampler.init ex_ext ex_param) ["a", "b", "c"] ["ga", "gb", "gc"] =
      some ex_sampler ∧
    ex_sampler.m_n_samples = 12 ∧ ex_sampler.m_n_types = 2 ∧
    ex_sampler.error_sprobs 12 [3, 2] = some [2, 3] ∧
    ¬ (∀ sprobs, ex_sampler.error_sprobs 12 [3, 2] = some sprobs →
        ∀ (t : Nat) (e : ℚ), ([3, 2] : List ℚ)[t]? = some e → e ≠ 0 →
          sprobs[t]? = some (((12 : Nat) : ℚ) / ((ex_sampler.m_n_samples : ℚ) * e))) := by
  have hval : ex_sampler.error_sprobs 12 [3, 2] = some [2, 3] := by
    simp [Sampler.error_sprobs, error_sprobs_step, ex_sampler, List.range_succ, inverse]
    norm_num
  refine ⟨ex_load, rfl, rfl, hval, fun h => ?_⟩
  have h0 := h [2, 3] hval 0 3 rfl (by norm_num)
  simp only [List.getElem?_cons_zero, Option.some.injEq] at h0
  have h12 : (ex_sampler.m_n_samples : ℚ) = 12 := by
    simp [ex_sampler]
  rw [h12] at h0
  norm_num at h0

/-! ## The class costs -/

theorem map_tcounts_fold : ∀ (types : List Nat) (tc tc1 : List Nat),
    types.foldlM (fun tcounts type => (tcounts[type]?).map (fun c => tcounts.set type (c + 1)))
      tc = some tc1 →
    tc1.length = tc.length ∧ ∀ t, tc1.getD t 0 = tc.getD t 0 + types.count t
  | [], tc, tc1, h => by
    simp only [List.foldlM_nil] at h
    cases h
    simp
  | ty :: types, tc, tc1, h => by
    rw [List.foldlM_cons] at h
    cases hr : tc[ty]? with
    | none => simp [hr] at h
    | some c =>
      simp only [hr, Option.map_some', Option.some_bind] at h
      obtain ⟨e1, e2⟩ := map_tcounts_fold types _ tc1 h
      have hty : ty < tc.length := by
        by_contra hcon
        rw [List.getElem?_eq_none (by omega)] at hr
        cases hr
      have hcv : tc[ty] = c := by
        rw [List.getElem?_eq_getElem hty] at hr
        exact Option.some.inj hr
      refine ⟨by simpa using e1, fun t => ?_⟩
      rw [e2 t, List.count_cons]
      by_cases htt : ty = t
      · subst htt
        simp [List.getD_eq_getElem?_getD, List.getElem?_set, hty, hcv]
        omega
      · simp [List.getD_eq_getElem?_getD, List.getElem?_set, htt]

theorem map_tcounts_fold_some : ∀ (types : List Nat) (tc : List Nat),
    (∀ ty ∈ types, ty < tc.length) →
    ∃ tc1, types.foldlM
      (fun tcounts type => (tcounts[type]?).map (fun c => tcounts.set type (c + 1))) tc = some tc1
  | [], tc, _ => ⟨tc, rfl⟩
  | ty :: types, tc, h => by
    have hty : ty < tc.length := h ty (List.mem_cons_self _ _)
    rw [List.foldlM_cons]
    simp only [List.getElem?_eq_getElem hty, Option.map_some', Option.some_bind]
    exact map_tcounts_fold_some types _ (fun t ht => by
      simpa using h t (List.mem_cons_of_mem _ ht))

theorem map_tcounts_spec (S : Sampler G) (types : List Nat)
    (h : ∀ ty ∈ types, ty < S.m_n_types) :
    ∃ tcounts, S.map_tcounts types = some tcounts ∧ tcounts.length = S.m_n_types ∧
      ∀ t, tcounts.getD t 0 = types.count t := by
  obtain ⟨tc, htc⟩ := map_tcounts_fold_some types (stat_init S.m_n_types)
    (fun ty hty => by simpa [stat_init] using h ty hty)
  obtain ⟨e1, e2⟩ := map_tcounts_fold types _ tc htc
  refine ⟨tc, htc, by simpa [stat_init] using e1, fun t => ?_⟩
  rw [e2 t]
  have : (stat_init S.m_n_types : List Nat).getD t 0 = 0 := by
    simp only [stat_init, List.getD_eq_getElem?_getD, List.getElem?_replicate]
    split_ifs <;> rfl
  omega

theorem map_sum_inv_fold (tcounts : List Nat) : ∀ (k : Nat) (acc : ℚ), k ≤ tcounts.length →
    (List.range k).foldlM
      (fun sum_inv iti => (tcounts[iti]?).map (fun (count : Nat) => sum_inv + inverse count)) acc
      = some (acc + ∑ i ∈ Finset.range k, inverse (tcounts.getD i 0))
  | 0, acc, _ => by simp
  | k + 1, acc, hk => by
    rw [List.range_succ, List.foldlM_append, map_sum_inv_fold tcounts k acc (by omega)]
    have hk1 : k < tcounts.length := by omega
    simp [List.getElem?_eq_getElem hk1, Finset.sum_range_succ, List.getD_eq_getElem?_getD,
      add_assoc]

theorem map_tcosts_step_eq (tcounts : List Nat) (sum_inv : ℚ) :
    map_tcosts_step tcounts sum_inv = fill_step (fun i =>
      (tcounts[i]?).map
        (fun (count : Nat) => inverse sum_inv * inverse count * (tcounts.length : ℚ))) := by
  funext sp i
  unfold map_tcosts_step fill_step
  cases h : tcounts[i]? <;> simp [h]

theorem map_tcosts_spec (S : Sampler G) (types : List Nat)
    (h : ∀ ty ∈ types, ty < S.m_n_types) :
    ∃ tcosts, S.map_tcosts types = some tcosts ∧ tcosts.length = S.m_n_types ∧
      ∀ t, t < S.m_n_types → tcosts[t]? = some
        (inverse (∑ u ∈ Finset.range S.m_n_types, inverse (types.count u)) *
          inverse (types.count t) * S.m_n_types) := by
  obtain ⟨tc, htc, hl, hc⟩ := map_tcounts_spec S types h
  have hsum : S.map_sum_inv tc =
      some (∑ u ∈ Finset.range S.m_n_types, inverse (types.count u)) := by
    unfold Sampler.map_sum_inv
    rw [map_sum_inv_fold tc S.m_n_types 0 (by omega), zero_add]
    simp only [hc]
  unfold Sampler.map_tcosts
  simp only [htc, hsum]
  rw [map_tcosts_step_eq]
  obtain ⟨sp, hsp⟩ := fill_fold_some (fun i => (tc[i]?).map (fun (count : Nat) =>
      inverse (∑ u ∈ Finset.range S.m_n_types, inverse (types.count u)) * inverse count *
        (tc.length : ℚ)))
    S.m_n_types (stat_init S.m_n_types) (by simp [stat_init]) (fun i hi => by
      simp [List.getElem?_eq_getElem (show i < tc.length by omega)])
  obtain ⟨e1, _, e3, _⟩ := fill_fold _ _ _ _ hsp
  refine ⟨sp, hsp, by simpa [stat_init] using e1, fun t ht => ?_⟩
  rw [(e3 t ht).1]
  have htl : t < tc.length := by omega
  have := hc t
  rw [List.getD_eq_getElem?_getD, List.getElem?_eq_getElem htl] at this
  simp only [Option.getD_some] at this
  simp [List.getElem?_eq_getElem htl, this, hl]

theorem mapM_lookup (tcosts : List ℚ) : ∀ (types : List Nat),
    (∀ ty ∈ types, ty < tcosts.length) →
      types.mapM (fun type => tcosts[type]?) = some (types.map (fun ty => tcosts.getD ty 0))
  | [], _ => rfl
  | ty :: types, h => by
    have hty : ty < tcosts.length := h ty (List.mem_cons_self _ _)
    rw [List.mapM_cons, mapM_lookup tcosts types (fun t ht => h t (List.mem_cons_of_mem _ ht))]
    simp [List.getElem?_eq_getElem hty, List.getD_eq_getElem?_getD]

theorem map_costs_spec (S : Sampler G) (types : List Nat)
    (h : ∀ ty ∈ types, ty < S.m_n_types) :
    ∃ costs, S.map_costs types = some costs ∧ costs.length = types.length ∧
      ∀ (s ty : Nat), types[s]? = some ty → costs[s]? = some
        (inverse (∑ u ∈ Finset.range S.m_n_types, inverse (types.count u)) *
          inverse (types.count ty) * S.m_n_types) := by
  obtain ⟨tcosts, ht, hl, hv⟩ := map_tcosts_spec S types h
  unfold Sampler.map_costs
  simp only [ht]
  rw [mapM_lookup tcosts types (fun ty hty => by rw [hl]; exact h ty hty)]
  refine ⟨_, rfl, by simp, fun s ty hs => ?_⟩
  have hty : ty < S.m_n_types := h ty (List.getElem?_mem hs)
  have := hv ty hty
  simp [List.getElem?_map, hs, List.getD_eq_getElem?_getD, this]

theorem sum_inv_pos (T : Nat) (count : Nat → Nat) (hT : 0 < T)
    (hpos : ∀ t, t < T → 0 < count t) :
    0 < ∑ u ∈ Finset.range T, (1 : ℚ) / (count u : ℚ) := by
  apply Finset.sum_pos
  · intro u hu
    have := hpos u (Finset.mem_range.mp hu)
    positivity
  · exact ⟨0, Finset.mem_range.mpr hT⟩

theorem sum_inverse_eq (T : Nat) (count : Nat → Nat) (hpos : ∀ t, t < T → 0 < count t) :
    ∑ u ∈ Finset.range T, inverse (count u) = ∑ u ∈ Finset.range T, (1 : ℚ) / (count u : ℚ) := by
  apply Finset.sum_congr rfl
  intro u hu
  have : (count u : ℚ) ≠ 0 := by exact_mod_cast (hpos u (Finset.mem_range.mp hu)).ne'
  simp [inverse, this]

theorem cost_value (T : Nat) (count : Nat → Nat) (hpos : ∀ t, t < T → 0 < count t)
    (t : Nat) (ht : t < T) :
    inverse (∑ u ∈ Finset.range T, inverse (count u)) * inverse (count t) * (T : ℚ) =
      (T : ℚ) / ((count t : ℚ) * ∑ u ∈ Finset.range T, (1 : ℚ) / (count u : ℚ)) := by
  rw [sum_inverse_eq T count hpos]
  have hS := sum_inv_pos T count (by omega) hpos
  have hc : (count t : ℚ) ≠ 0 := by exact_mod_cast (hpos t ht).ne'
  unfold inverse
  rw [if_neg hS.ne', if_neg hc]
  have hS0 := hS.ne'
  field_simp
  left
  ring

/-- C9: the class-balance cost formula of `Sampler::map`. For every vector of example
types (all below `T = n_types()`) in which every type occurs, the cost computation of
`Sampler::map` returns one cost per example, and the cost of every example of type `t`
is `T / (count[t] * sum over u of 1 / count[u])`, with `count[t]` the number of mapped
examples of type `t`. -/
theorem map_cost_formula (S : Sampler G) (types : List Nat)
    (htypes : ∀ ty ∈ types, ty < S.m_n_types)
    (hpos : ∀ t, t < S.m_n_types → 0 < types.count t) :
    ∃ costs, S.map_costs types = some costs ∧ costs.length = types.length ∧
      ∀ (s t : Nat), types[s]? = some t → costs[s]? = some
        ((S.m_n_types : ℚ) / ((types.count t : ℚ) *
          ∑ u ∈ Finset.range S.m_n_types, (1 : ℚ) / (types.count u : ℚ))) := by
  obtain ⟨costs, hc, hl, hv⟩ := map_costs_spec S types htypes
  refine ⟨costs, hc, hl, fun s t hs => ?_⟩
  rw [hv s t hs, cost_value S.m_n_types (fun u => types.count u) hpos t
    (htypes t (List.getElem?_mem hs))]

theorem map_cost_formula_witness :
    (∀ ty ∈ [0, 1, 0, 0], ty < ex_sampler.m_n_types) ∧
    (∀ t, t < ex_sampler.m_n_types → 0 < [0, 1, 0, 0].count t) ∧
    ∃ costs, ex_sampler.map_costs [0, 1, 0, 0] = some costs ∧
      costs.length = [0, 1, 0, 0].length ∧
      ∀ (s t : Nat), [0, 1, 0, 0][s]? = some t → costs[s]? = some
        ((ex_sampler.m_n_types : ℚ) / (([0, 1, 0, 0].count t : ℚ) *
          ∑ u ∈ Finset.range ex_sampler.m_n_types, (1 : ℚ) / ([0, 1, 0, 0].count u : ℚ))) :=
  ⟨by decide, by decide,
    map_cost_formula ex_sampler [0, 1, 0, 0] (by decide) (by decide)⟩

theorem sum_by_type (f : Nat → ℚ) (T : Nat) : ∀ (types : List Nat),
    (∀ ty ∈ types, ty < T) →
      (types.map f).sum = ∑ t ∈ Finset.range T, (types.count t : ℚ) * f t
  | [], _ => by simp
  | ty :: types, h => by
    have hty : ty < T := h ty (List.mem_cons_self _ _)
    have ih := sum_by_type f T types (fun t ht => h t (List.mem_cons_of_mem _ ht))
    have hsplit : ∀ t, (((ty :: types).count t : Nat) : ℚ) * f t =
        (types.count t : ℚ) * f t + (if t = ty then f ty else 0) := by
      intro t
      rw [List.count_cons]
      by_cases htt : t = ty
      · subst htt
        simp
        ring
      · have : ¬ ty = t := fun hh => htt hh.symm
        simp [htt, this]
    rw [List.map_cons, List.sum_cons, ih, Finset.sum_congr rfl (fun t _ => hsplit t),
      Finset.sum_add_distrib, Finset.sum_ite_eq' (Finset.range T) ty (fun _ => f ty),
      if_pos (Finset.mem_range.mpr hty)]
    ring

/-- C10, as the code has it: for every vector of example types (all below
`T = n_types()`) in which every type occurs, the costs of `Sampler::map` have total
weighted mass `sum over t of count[t] * cost[t] = T * T / (sum over u of 1 / count[u])`,
which is also the sum of the per-example costs; each type contributes
`T / (sum over u of 1 / count[u])`. -/
theorem map_cost_mass (S : Sampler G) (types : List Nat)
    (htypes : ∀ ty ∈ types, ty < S.m_n_types)
    (hpos : ∀ t, t < S.m_n_types → 0 < types.count t) :
    ∃ tcosts costs, S.map_tcosts types = some tcosts ∧ S.map_costs types = some costs ∧
      ∑ t ∈ Finset.range S.m_n_types, (types.count t : ℚ) * tcosts.getD t 0 =
        (S.m_n_types : ℚ) * (S.m_n_types : ℚ) /
          ∑ u ∈ Finset.range S.m_n_types, (1 : ℚ) / (types.count u : ℚ) ∧
      costs.sum = (S.m_n_types : ℚ) * (S.m_n_types : ℚ) /
          ∑ u ∈ Finset.range S.m_n_types, (1 : ℚ) / (types.count u : ℚ) := by
  obtain ⟨tcosts, ht, hl, hv⟩ := map_tcosts_spec S types htypes
  have hcosts : S.map_costs types = some (types.map (fun ty => tcosts.getD ty 0)) := by
    unfold Sampler.map_costs
    simp only [ht]
    exact mapM_lookup tcosts types (fun ty hty => by rw [hl]; exact htypes ty hty)
  have hmass : ∑ t ∈ Finset.range S.m_n_types, (types.count t : ℚ) * tcosts.getD t 0 =
      (S.m_n_types : ℚ) * (S.m_n_types : ℚ) /
        ∑ u ∈ Finset.range S.m_n_types, (1 : ℚ) / (types.count u : ℚ) := by
    have hterm : ∀ t ∈ Finset.range S.m_n_types, (types.count t : ℚ) * tcosts.getD t 0 =
        (S.m_n_types : ℚ) / ∑ u ∈ Finset.range S.m_n_types, (1 : ℚ) / (types.count u : ℚ) := by
      intro t htm
      have htT := Finset.mem_range.mp htm
      have hc : (types.count t : ℚ) ≠ 0 := by exact_mod_cast (hpos t htT).ne'
      have hS := (sum_inv_pos S.m_n_types (fun u => types.count u) (by omega) hpos).ne'
      rw [List.getD_eq_getElem?_getD, hv t htT, Option.getD_some,
        cost_value S.m_n_types (fun u => types.count u) hpos t htT]
      field_simp
      ring
    rw [Finset.sum_congr rfl hterm, Finset.sum_const, Finset.card_range, nsmul_eq_mul]
    ring
  refine ⟨tcosts, _, ht, hcosts, hmass, ?_⟩
  rw [sum_by_type (fun ty => tcosts.getD ty 0) S.m_n_types types htypes]
  exact hmass

theorem map_cost_mass_witness :
    (∀ ty ∈ [0, 0, 1, 1], ty < ex_sampler.m_n_types) ∧
    (∀ t, t < ex_sampler.m_n_types → 0 < [0, 0, 1, 1].count t) ∧
    ∃ tcosts costs, ex_sampler.map_tcosts [0, 0, 1, 1] = some tcosts ∧
      ex_sampler.map_costs [0, 0, 1, 1] = some costs ∧
      ∑ t ∈ Finset.range ex_sampler.m_n_types, ([0, 0, 1, 1].count t : ℚ) * tcosts.getD t 0 =
        (ex_sampler.m_n_types : ℚ) * (ex_sampler.m_n_types : ℚ) /
          ∑ u ∈ Finset.range ex_sampler.m_n_types, (1 : ℚ) / ([0, 0, 1, 1].count u : ℚ) ∧
      costs.sum = (ex_sampler.m_n_types : ℚ) * (ex_sampler.m_n_types : ℚ) /
          ∑ u ∈ Finset.range ex_sampler.m_n_types, (1 : ℚ) / ([0, 0, 1, 1].count u : ℚ) :=
  ⟨by decide, by decide, map_cost_mass ex_sampler [0, 0, 1, 1] (by decide) (by decide)⟩

/-- C10 as stated fails: with two types and the mapped examples of types 0, 0, 1, 1
every type occurs (twice), both type costs are 1, every example has cost 1, and the
total mass `2 * 1 + 2 * 1 = 4` is not the number of types 2. -/
theorem map_cost_mass_counterexample :
    ex_sampler.m_n_types = 2 ∧
    (∀ ty ∈ [0, 0, 1, 1], ty < ex_sampler.m_n_types) ∧
    (∀ t, t < ex_sampler.m_n_types → 0 < [0, 0, 1, 1].count t) ∧
    ex_sampler.map_tcosts [0, 0, 1, 1] = some [1, 1] ∧
    ex_sampler.map_costs [0, 0, 1, 1] = some [1, 1, 1, 1] ∧
    ∑ t ∈ Finset.range ex_sampler.m_n_types,
      ([0, 0, 1, 1].count t : ℚ) * ([1, 1] : List ℚ).getD t 0 ≠ (ex_sampler.m_n_types : ℚ) ∧
    ([1, 1, 1, 1] : List ℚ).sum ≠ (ex_sampler.m_n_types : ℚ) := by
  have htc : ex_sampler.map_tcosts [0, 0, 1, 1] = some [1, 1] := by
    simp [Sampler.map_tcosts, Sampler.map_tcounts, Sampler.map_sum_inv, map_tcosts_step,
      stat_init, ex_sampler, List.range_succ, inverse]
    norm_num
  have hco : ex_sampler.map_costs [0, 0, 1, 1] = some [1, 1, 1, 1] := by
    unfold Sampler.map_costs
    rw [htc]
    rfl
  refine ⟨rfl, by decide, by decide, htc, hco, ?_, ?_⟩
  · have h2 : ex_sampler.m_n_types = 2 := rfl
    rw [h2]
    simp [Finset.sum_range_succ]
  · have h2 : ex_sampler.m_n_types = 2 := rfl
    rw [h2]
    norm_num

/-! ## Uniform sampling -/

theorem th_usample_position_eq (E : Ext G) (S : Sampler G) (srange : Nat × Nat)
    (ip : ipscale_t) (st : Walk G) (p : Int × Int) :
    th_usample_position E S srange ip st p =
      match S.m_tagger.check ip p.1 p.2 with
      | none => some st
      | some r => usample_window E S srange st (Window.mk p.1 p.2 r.1 r.2) := by
  unfold th_usample_position usample_window
  cases S.m_tagger.check ip p.1 p.2 <;> rfl

theorem th_usample_fold_eq (E : Ext G) (S : Sampler G) (srange : Nat × Nat) (ip : ipscale_t) :
    ∀ (ps : List (Int × Int)) (st : Walk G),
      ps.foldlM (th_usample_position E S srange ip) st =
        (tagged S.m_tagger ip ps).foldlM (usample_window E S srange) st
  | [], st => rfl
  | p :: ps, st => by
    rw [List.foldlM_cons, th_usample_position_eq]
    cases hc : S.m_tagger.check ip p.1 p.2 with
    | none =>
      have : tagged S.m_tagger ip (p :: ps) = tagged S.m_tagger ip ps := by simp [tagged, hc]
      rw [this]
      simp only [Option.some_bind]
      exact th_usample_fold_eq E S srange ip ps st
    | some r =>
      have : tagged S.m_tagger ip (p :: ps) =
          Window.mk p.1 p.2 r.1 r.2 :: tagged S.m_tagger ip ps := by simp [tagged, hc]
      rw [this, List.foldlM_cons]
      simp only []
      cases hu : usample_window E S srange st (Window.mk p.1 p.2 r.1 r.2) with
      | none => rfl
      | some st1 => exact th_usample_fold_eq E S srange ip ps st1

theorem emitted_nil (sprobs : List ℚ) (srange : Nat × Nat) (s : Nat) :
    Emitted sprobs srange s [] [] := by
  refine ⟨List.sorted_nil, fun x hx => by simp at hx, fun k w hk => by simp at hk⟩

theorem emitted_append {sprobs : List ℚ} {srange : Nat × Nat} {s : Nat} {ws1 ws2 : List Window}
    {o1 o2 : List Nat} (h1 : Emitted sprobs srange s ws1 o1)
    (h2 : Emitted sprobs srange (s + ws1.length) ws2 o2) :
    Emitted sprobs srange s (ws1 ++ ws2) (o1 ++ o2) := by
  obtain ⟨a1, b1, c1⟩ := h1
  obtain ⟨a2, b2, c2⟩ := h2
  refine ⟨?_, ?_, ?_⟩
  · unfold List.Sorted at a1 a2 ⊢
    rw [List.pairwise_append]
    refine ⟨a1, a2, fun x hx y hy => ?_⟩
    have := b1 x hx
    have := b2 y hy
    omega
  · intro x hx
    rw [List.length_append]
    rcases List.mem_append.mp hx with h | h
    · have := b1 x h
      omega
    · have := b2 x h
      omega
  · intro k w hk h3 h4
    rw [List.count_append]
    by_cases hlt : k < ws1.length
    · rw [List.getElem?_append_left hlt] at hk
      have hz : o2.count (s + k) = 0 := by
        apply List.count_eq_zero_of_not_mem
        intro hm
        have := b2 _ hm
        omega
      rw [hz, add_zero]
      exact c1 k w hk h3 h4
    · rw [List.getElem?_append_right (by omega)] at hk
      have hz : o1.count (s + k) = 0 := by
        apply List.count_eq_zero_of_not_mem
        intro hm
        have := b1 _ hm
        omega
      rw [hz, zero_add]
      have := c2 (k - ws1.length) w hk (by omega) (by omega)
      have he : s + ws1.length + (k - ws1.length) = s + k := by omega
      rw [he] at this
      exact this

theorem usample_window_spec (E : Ext G) (S : Sampler G) (srange : Nat × Nat) (st : Walk G)
    (w : Window) (hw : w.type < S.m_sprobs.length) :
    ∃ st1 out, usample_window E S srange st w = some st1 ∧ st1.s = st.s + 1 ∧
      st1.samples = st.samples ++ out ∧ Emitted S.m_sprobs srange st.s [w] out := by
  unfold usample_window
  by_cases hr : st.s ≥ srange.1 ∧ st.s < srange.2
  · simp only [hr, and_self, if_true, List.getElem?_eq_getElem hw, sample_cost_eq]
    refine ⟨_, _, rfl, rfl, rfl, ?_, ?_, ?_⟩
    · exact List.pairwise_replicate.mpr (Or.inr le_rfl)
    · intro x hx
      have := List.eq_of_mem_replicate hx
      simp only [List.length_singleton]
      omega
    · intro k w1 hk _ _
      have hk0 : k = 0 := by
        by_contra hne
        rw [List.getElem?_eq_none (by simp; omega)] at hk
        cases hk
      subst hk0
      simp only [List.getElem?_cons_zero, Option.some.injEq] at hk
      subst hk
      simp only [add_zero, List.count_replicate_self, List.getD_eq_getElem?_getD,
        List.getElem?_eq_getElem hw, Option.getD_some]
      split_ifs
      · exact Or.inr rfl
      · exact Or.inl rfl
  · rw [if_neg hr]
    refine ⟨_, [], rfl, rfl, by simp, List.sorted_nil, fun x hx => by simp at hx, ?_⟩
    intro k w1 hk h3 h4
    have hk0 : k = 0 := by
      by_contra hne
      rw [List.getElem?_eq_none (by simp; omega)] at hk
      cases hk
    subst hk0
    simp only [add_zero] at h3 h4
    exact absurd (And.intro h3 h4) hr

theorem usample_windows_spec (E : Ext G) (S : Sampler G) (srange : Nat × Nat) :
    ∀ (ws : List Window) (st : Walk G), (∀ w ∈ ws, w.type < S.m_sprobs.length) →
      ∃ st1 out, ws.foldlM (usample_window E S srange) st = some st1 ∧
        st1.s = st.s + ws.length ∧ st1.samples = st.samples ++ out ∧
        Emitted S.m_sprobs srange st.s ws out
  | [], st, _ => ⟨st, [], rfl, rfl, by simp, emitted_nil _ _ _⟩
  | w :: ws, st, h => by
    obtain ⟨st0, o0, e1, e2, e3, e4⟩ :=
      usample_window_spec E S srange st w (h w (List.mem_cons_self _ _))
    obtain ⟨st1, o1, f1, f2, f3, f4⟩ :=
      usample_windows_spec E S srange ws st0 (fun x hx => h x (List.mem_cons_of_mem _ hx))
    refine ⟨st1, o0 ++ o1, ?_, ?_, ?_, ?_⟩
    · rw [List.foldlM_cons, e1]
      exact f1
    · rw [f2, e2, List.length_cons]
      omega
    · rw [f3, e3, List.append_assoc]
    · have : Emitted S.m_sprobs srange (st.s + [w].length) ws o1 := by
        rw [List.length_singleton, ← e2]
        exact f4
      exact emitted_append e4 this

theorem emitted_past (sprobs : List ℚ) (srange : Nat × Nat) (s : Nat) (ws : List Window)
    (h : srange.2 ≤ s) : Emitted sprobs srange s ws [] := by
  refine ⟨List.sorted_nil, fun x hx => by simp at hx, fun k w _ _ h4 => ?_⟩
  omega

theorem th_usample_scale_spec (E : Ext G) (S : Sampler G) (srange : Nat × Nat) (st : Walk G)
    (ip : ipscale_t) (hs : (scan_positions ip).isSome)
    (ht : ∀ w ∈ scale_windows S.m_tagger ip, w.type < S.m_sprobs.length) :
    ∃ st1 out, th_usample_scale E S srange st ip = some st1 ∧
      st1.s = st.s + (scale_windows S.m_tagger ip).length ∧ st1.samples = st.samples ++ out ∧
      Emitted S.m_sprobs srange st.s (scale_windows S.m_tagger ip) out := by
  obtain ⟨ps, hps⟩ := Option.isSome_iff_exists.mp hs
  have hw : scale_windows S.m_tagger ip = tagged S.m_tagger ip ps := by
    simp [scale_windows, hps]
  unfold th_usample_scale
  simp only [hps]
  rw [th_usample_fold_eq, ← hw]
  exact usample_windows_spec E S srange _ st ht

theorem th_usample_walk_spec (E : Ext G) (S : Sampler G) (srange : Nat × Nat) :
    ∀ (ips : List ipscale_t) (bs es : List Nat) (n : Nat) (st : Walk G),
      table_from S.m_tagger st.s ips bs es n →
      (∀ ip ∈ ips, ∀ w ∈ scale_windows S.m_tagger ip, w.type < S.m_sprobs.length) →
      ∃ st1 out, th_usample_walk E S srange ips st = some st1 ∧
        st1.samples = st.samples ++ out ∧
        Emitted S.m_sprobs srange st.s (ips.flatMap (scale_windows S.m_tagger)) out
  | [], _, _, _, st, _, _ => ⟨st, [], rfl, by simp, emitted_nil _ _ _⟩
  | ip :: ips, [], _, _, _, h, _ => by simp [table_from] at h
  | ip :: ips, _ :: _, [], _, _, h, _ => by simp [table_from] at h
  | ip :: ips, b :: bs, e :: es, n, st, h, ht => by
    simp only [table_from] at h
    obtain ⟨_, hs, _, he, htab⟩ := h
    unfold th_usample_walk
    by_cases hlt : st.s < srange.2
    · obtain ⟨st0, o0, e1, e2, e3, e4⟩ := th_usample_scale_spec E S srange st ip hs
        (ht ip (List.mem_cons_self _ _))
      have htab0 : table_from S.m_tagger st0.s ips bs es n := by
        rw [e2, ← he]
        exact htab
      obtain ⟨st1, o1, f1, f3, f4⟩ := th_usample_walk_spec E S srange ips bs es n st0 htab0
        (fun i hi => ht i (List.mem_cons_of_mem _ hi))
      refine ⟨st1, o0 ++ o1, ?_, ?_, ?_⟩
      · simp only [hlt, if_true, e1]
        exact f1
      · rw [f3, e3, List.append_assoc]
      · rw [List.flatMap_cons]
        apply emitted_append e4
        rw [← e2]
        exact f4
    · refine ⟨st, [], by simp [hlt], by simp, emitted_past _ _ _ _ (by omega)⟩

theorem table_from_drop (tg : Tagger) :
    ∀ (ips : List ipscale_t) (bs es : List Nat) (a n i : Nat),
      table_from tg a ips bs es n → i < ips.length →
        table_from tg (bs.getD i 0) (ips.drop i) (bs.drop i) (es.drop i) n ∧
        bs.getD i 0 = a + ((ips.take i).flatMap (scale_windows tg)).length
  | [], _, _, _, _, _, _, hi => by simp at hi
  | _ :: _, [], _, _, _, _, h, _ => by simp [table_from] at h
  | _ :: _, _ :: _, [], _, _, _, h, _ => by simp [table_from] at h
  | ip :: ips, b :: bs, e :: es, a, n, 0, h, _ => by
    have hb : b = a := by
      simp only [table_from] at h
      exact h.1
    subst hb
    simpa using h
  | ip :: ips, b :: bs, e :: es, a, n, i + 1, h, hi => by
    simp only [table_from] at h
    obtain ⟨hb, _, _, he, htab⟩ := h
    obtain ⟨h1, h2⟩ := table_from_drop tg ips bs es e n i htab (by simpa using hi)
    refine ⟨by simpa using h1, ?_⟩
    simp only [List.getD_cons_succ, List.take_succ_cons, List.flatMap_cons, List.length_append]
    rw [h2, he]
    omega

theorem table_from_total (tg : Tagger) :
    ∀ (ips : List ipscale_t) (bs es : List Nat) (a n : Nat),
      table_from tg a ips bs es n → n = a + (ips.flatMap (scale_windows tg)).length
  | [], [], [], a, n, h => by
    simp only [table_from] at h
    simp [h]
  | [], [], _ :: _, _, _, h => by simp [table_from] at h
  | [], _ :: _, _, _, _, h => by simp [table_from] at h
  | _ :: _, [], _, _, _, h => by simp [table_from] at h
  | _ :: _, _ :: _, [], _, _, h => by simp [table_from] at h
  | ip :: ips, b :: bs, e :: es, a, n, h => by
    simp only [table_from] at h
    obtain ⟨_, _, _, he, htab⟩ := h
    rw [table_from_total tg ips bs es e n htab, he, List.flatMap_cons, List.length_append]
    omega

theorem same_data_refl (S : Sampler G) : SameData S S := by
  constructor <;> rfl

theorem same_data_trans {S S1 S2 : Sampler G} (h1 : SameData S S1) (h2 : SameData S1 S2) :
    SameData S S2 := by
  constructor
  · rw [h2.tagger, h1.tagger]
  · rw [h2.n_outputs, h1.n_outputs]
  · rw [h2.n_samples, h1.n_samples]
  · rw [h2.n_types, h1.n_types]
  · rw [h2.tcounts, h1.tcounts]
  · rw [h2.sprobs, h1.sprobs]
  · rw [h2.ipscales, h1.ipscales]
  · rw [h2.ipsbegins, h1.ipsbegins]
  · rw [h2.ipsends, h1.ipsends]
  · rw [h2.rgens_length, h1.rgens_length]
  · rw [h2.loss, h1.loss]

theorem same_data_windows {S S1 : Sampler G} (h : SameData S S1) : S1.windows = S.windows := by
  unfold Sampler.windows
  rw [h.tagger, h.ipscales]

theorem same_data_ready {S S1 : Sampler G} (h : SameData S S1) (hr : Ready S) : Ready S1 := by
  constructor
  · rw [h.tagger, h.ipscales, h.ipsbegins, h.ipsends, h.n_samples]
    exact hr.table
  · rw [same_data_windows h, h.sprobs]
    exact hr.types

theorem ready_windows_length {S : Sampler G} (hr : Ready S) :
    S.windows.length = S.m_n_samples := by
  have := table_from_total _ _ _ _ _ _ hr.table
  unfold Sampler.windows
  omega

theorem th_usample_spec (E : Ext G) (S : Sampler G) (hr : Ready S) (ith : Nat)
    (srange : Nat × Nat) (samples : List Nat) (hith : ith < S.m_rgens.length)
    (hrange : srange.2 ≤ S.m_n_samples) :
    ∃ out S1, S.th_usample E ith srange samples = some (samples ++ out, S1) ∧
      SameData S S1 ∧ RangeOut S.windows S.m_sprobs srange.1 srange.2 out := by
  unfold Sampler.th_usample
  by_cases hge : srange.1 ≥ srange.2
  · refine ⟨[], S, by simp [hge], same_data_refl S, List.sorted_nil,
      fun x hx => by simp at hx, fun x w h1 h2 _ => ?_⟩
    omega
  · rw [if_neg hge]
    have hfacts := table_from_facts _ _ _ _ _ _ hr.table
    have hfirst : srange.1 < S.m_n_samples := by omega
    obtain ⟨hi0, hb0, _⟩ := (sample2image_facts S hfacts srange.1).1 hfirst
    unfold Sampler.n_images at hi0
    have hbl : S.sample2image srange.1 < S.m_ipsbegins.length := by
      rw [hfacts.begins_length]
      exact hi0
    have hbget : S.m_ipsbegins[S.sample2image srange.1]? =
        some (S.m_ipsbegins.getD (S.sample2image srange.1) 0) := by
      simp [List.getD_eq_getElem?_getD, List.getElem?_eq_getElem hbl]
    obtain ⟨hdrop, hs0⟩ := table_from_drop _ _ _ _ _ _ _ hr.table hi0
    have htypes : ∀ ip ∈ S.m_ipscales.drop (S.sample2image srange.1),
        ∀ w ∈ scale_windows S.m_tagger ip, w.type < S.m_sprobs.length := by
      intro ip hip w hw
      apply hr.types
      unfold Sampler.windows
      exact List.mem_flatMap.mpr ⟨ip, List.mem_of_mem_drop hip, hw⟩
    obtain ⟨st1, out, e1, e2, e3, e4, e5⟩ := th_usample_walk_spec E S srange _ _ _ _
      { s := S.m_ipsbegins.getD (S.sample2image srange.1) 0, samples := samples,
        gen := S.m_rgens[ith] } hdrop htypes
    simp only [List.getElem?_eq_getElem hith, hbget, e1]
    have hsplit : S.windows =
        (S.m_ipscales.take (S.sample2image srange.1)).flatMap (scale_windows S.m_tagger) ++
        (S.m_ipscales.drop (S.sample2image srange.1)).flatMap (scale_windows S.m_tagger) := by
      unfold Sampler.windows
      rw [← List.flatMap_append, List.take_append_drop]
    have hlen := ready_windows_length hr
    have hlen2 := congrArg List.length hsplit
    rw [List.length_append] at hlen2
    simp only [zero_add] at hs0
    refine ⟨out, _, by rw [e2], ?_, e3, fun x hx => ?_, fun x w h1 h2 hw => ?_⟩
    · constructor <;> simp
    · have := e4 x hx
      simp only at this
      omega
    · rw [hsplit, List.getElem?_append_right (by omega)] at hw
      have := e5 _ w hw (by simp only; omega) (by simp only; omega)
      have he : S.m_ipsbegins.getD (S.sample2image srange.1) 0 +
          (x - ((S.m_ipscales.take (S.sample2image srange.1)).flatMap
            (scale_windows S.m_tagger)).length) = x := by omega
      simp only [he] at this
      exact this

theorem contiguous_from_le : ∀ (ranges : List (Nat × Nat)) (a n : Nat),
    contiguous_from a ranges n → a ≤ n
  | [], a, n, h => by
    simp only [contiguous_from] at h
    omega
  | r :: ranges, a, n, h => by
    simp only [contiguous_from] at h
    have := contiguous_from_le ranges r.2 n h.2.2
    omega

theorem range_out_nil (windows : List Window) (sprobs : List ℚ) (a : Nat) :
    RangeOut windows sprobs a a [] := by
  refine ⟨List.sorted_nil, fun x hx => by simp at hx, fun x w h1 h2 _ => ?_⟩
  omega

theorem range_out_append {windows : List Window} {sprobs : List ℚ} {lo mid hi : Nat}
    {o1 o2 : List Nat} (h1 : RangeOut windows sprobs lo mid o1)
    (h2 : RangeOut windows sprobs mid hi o2) (hlm : lo ≤ mid) (hmh : mid ≤ hi) :
    RangeOut windows sprobs lo hi (o1 ++ o2) := by
  obtain ⟨a1, b1, c1⟩ := h1
  obtain ⟨a2, b2, c2⟩ := h2
  refine ⟨?_, ?_, ?_⟩
  · unfold List.Sorted at a1 a2 ⊢
    rw [List.pairwise_append]
    refine ⟨a1, a2, fun x hx y hy => ?_⟩
    have := b1 x hx
    have := b2 y hy
    omega
  · intro x hx
    rcases List.mem_append.mp hx with h | h
    · have := b1 x h
      omega
    · have := b2 x h
      omega
  · intro x w h3 h4 hw
    rw [List.count_append]
    by_cases hlt : x < mid
    · have hz : o2.count x = 0 := by
        apply List.count_eq_zero_of_not_mem
        intro hm
        have := b2 _ hm
        omega
      rw [hz, add_zero]
      exact c1 x w h3 hlt hw
    · have hz : o1.count x = 0 := by
        apply List.count_eq_zero_of_not_mem
        intro hm
        have := b1 _ hm
        omega
      rw [hz, zero_add]
      exact c2 x w (by omega) h4 hw

theorem thread_iloop_spec (E : Ext G) : ∀ (ranges : List (Nat × Nat)) (ith : Nat)
    (S : Sampler G) (a : Nat), Ready S → contiguous_from a ranges S.m_n_samples →
    ith + ranges.length ≤ S.m_rgens.length →
    ∃ outs S1, thread_iloop (Sampler.th_usample E) ranges ith S = some (outs, S1) ∧
      outs.length = ranges.length ∧ SameData S S1 ∧
      RangeOut S.windows S.m_sprobs a S.m_n_samples outs.flatten
  | [], ith, S, a, _, hc, _ => by
    simp only [contiguous_from] at hc
    subst hc
    exact ⟨[], S, rfl, rfl, same_data_refl S, range_out_nil _ _ _⟩
  | r :: ranges, ith, S, a, hr, hc, hl => by
    simp only [contiguous_from] at hc
    obtain ⟨h1, h2, h3⟩ := hc
    have hle := contiguous_from_le ranges r.2 _ h3
    simp only [List.length_cons] at hl
    obtain ⟨o, S1, e1, e2, e3⟩ := th_usample_spec E S hr ith r [] (by omega) hle
    have h3b : contiguous_from r.2 ranges S1.m_n_samples := by
      rw [e2.n_samples]
      exact h3
    obtain ⟨os, S2, f1, f2, f3, f4⟩ := thread_iloop_spec E ranges (ith + 1) S1 r.2
      (same_data_ready e2 hr) h3b (by rw [e2.rgens_length]; omega)
    rw [same_data_windows e2, e2.sprobs, e2.n_samples] at f4
    refine ⟨o :: os, S2, ?_, by simp [f2], same_data_trans e2 f3, ?_⟩
    · simp only [thread_iloop, e1, List.nil_append, f1]
    · rw [List.flatten_cons]
      rw [h1] at e3
      exact range_out_append e3 f4 (by omega) hle

theorem merge_samples_fold (th : List (List Nat)) : ∀ (k : Nat) (acc : List Nat),
    k ≤ th.length →
      (List.range k).foldlM (fun samples ith => (th[ith]?).map (fun o => samples ++ o)) acc =
        some (acc ++ (th.take k).flatten)
  | 0, acc, _ => by simp
  | k + 1, acc, hk => by
    have hk1 : k < th.length := by omega
    rw [List.range_succ, List.foldlM_append, merge_samples_fold th k acc (by omega)]
    have ht : (th.take (k + 1)).flatten = (th.take k).flatten ++ th[k] := by
      rw [List.take_succ, List.getElem?_eq_getElem hk1, Option.toList_some, List.flatten_append,
        List.flatten_cons, List.flatten_nil, List.append_nil]
    rw [ht]
    simp only [Option.bind_eq_bind, Option.some_bind, List.foldlM_cons, List.foldlM_nil,
      List.getElem?_eq_getElem hk1, Option.map_some', List.append_assoc]
    rfl

theorem merge_samples_eq (th : List (List Nat)) :
    merge_samples th.length th = some th.flatten := by
  unfold merge_samples
  rw [merge_samples_fold th th.length [] le_rfl, List.take_length, List.nil_append]

theorem flatMap_informative (tg : Tagger) : ∀ (sc : List ipscale_t),
    (informative tg sc).flatMap (scale_windows tg) = sc.flatMap (scale_windows tg)
  | [] => rfl
  | ip :: sc => by
    unfold informative
    rw [List.filter_cons]
    by_cases h : 0 < (scale_windows tg ip).length
    · simp only [h, decide_True, if_true, List.flatMap_cons]
      congr 1
      exact flatMap_informative tg sc
    · have h0 : scale_windows tg ip = [] := List.length_eq_zero.mp (by omega)
      simp only [h, decide_False, List.flatMap_cons, h0, List.nil_append]
      exact flatMap_informative tg sc

theorem loaded_windows (E : Ext G) (param : param_t) (ifiles gfiles : List String)
    (S : Sampler G) (h : Sampler.load E (Sampler.init E param) ifiles gfiles = some S) :
    S.windows = load_windows E param ifiles gfiles ∧
    ∀ w ∈ S.windows, w.type < S.m_n_types := by
  have hg := load_grows E ifiles gfiles _ S h
  have hw : S.windows = load_windows E param ifiles gfiles := by
    unfold Sampler.windows load_windows
    rw [hg.ipscales, hg.tagger, init_tagger]
    simp only [Sampler.init, List.nil_append]
    exact flatMap_informative _ _
  refine ⟨hw, fun w hm => ?_⟩
  rw [hw] at hm
  obtain ⟨ip, hip, hwip⟩ := List.mem_flatMap.mp hm
  have := hg.types ip hip w hwip
  rw [hg.n_types]
  simpa [Sampler.init, stat_init] using this

theorem loaded_ready (E : Ext G) (param : param_t) (ifiles gfiles : List String)
    (S : Sampler G) (h : Sampler.load E (Sampler.init E param) ifiles gfiles = some S)
    (sprobs : List ℚ) (gens : List G) (hsp : sprobs.length = S.m_n_types) :
    Ready { S with m_sprobs := sprobs, m_rgens := gens } := by
  have hg := load_grows E ifiles gfiles _ S h
  have ht := hg.table 0 (by simp [Sampler.init, table_from])
  rw [← hg.tagger] at ht
  refine ⟨ht, fun w hw => ?_⟩
  rw [hsp]
  exact (loaded_windows E param ifiles gfiles S h).2 w hw

/-- C8: the result of uniform sampling. For every loaded sampler, every `n_target`,
all generator states (one per thread) and every split of `[0, n_samples())` into
contiguous ordered per-thread ranges, the uniform `Sampler::sample` returns a list
that is sorted ascending, contains only indices below `n_samples()`, and in which
every index `s` below `n_samples()` occurs `floor(c)` or `floor(c) + 1` times, where
`c = sprobs[type(s)]` and `type(s)` is the tagger type of the `s`-th accepted scan
position in load order; and `th_usample` on any range `[a, b)` with
`b <= n_samples()` returns a list that is ascending and confined to `[a, b)`. -/
theorem uniform_sample_result (E : Ext G) (param : param_t) (ifiles gfiles : List String)
    (S : Sampler G) (hS : Sampler.load E (Sampler.init E param) ifiles gfiles = some S)
    (gens : List G) (hgens : gens.length = E.n_threads) (n_target : Nat)
    (hsplit : split_ok (E.thread_ranges S.m_n_samples) E.n_threads S.m_n_samples) :
    ∃ sprobs samples S1, S.uniform_sprobs n_target = some sprobs ∧
      Sampler.sample E { S with m_rgens := gens } n_target = some (samples, S1) ∧
      samples.Sorted (fun a b => a ≤ b) ∧ (∀ x ∈ samples, x < S.m_n_samples) ∧
      (load_windows E param ifiles gfiles).length = S.m_n_samples ∧
      (∀ (s : Nat) (w : Window), (load_windows E param ifiles gfiles)[s]? = some w →
        ∃ c, sprobs[w.type]? = some c ∧
          (samples.count s = ⌊c⌋₊ ∨ samples.count s = ⌊c⌋₊ + 1)) ∧
      (∀ (ith a b : Nat), ith < E.n_threads → b ≤ S.m_n_samples →
        ∃ o S2, Sampler.th_usample E { S with m_sprobs := sprobs, m_rgens := gens } ith (a, b) []
            = some (o, S2) ∧
          o.Sorted (fun x y => x ≤ y) ∧ ∀ x ∈ o, a ≤ x ∧ x < b) := by
  obtain ⟨h1, h2, _⟩ := loaded_type_vectors E param ifiles gfiles S hS
  obtain ⟨sprobs, hsp, hspl, _⟩ := uniform_sprobs_spec S n_target h1 h2
  obtain ⟨hwin, htypes⟩ := loaded_windows E param ifiles gfiles S hS
  have hready := loaded_ready E param ifiles gfiles S hS sprobs gens hspl
  have hwin1 : Sampler.windows { S with m_sprobs := sprobs, m_rgens := gens } = S.windows := rfl
  obtain ⟨outs, S1, e1, e2, _, e4⟩ := thread_iloop_spec E (E.thread_ranges S.m_n_samples) 0
    { S with m_sprobs := sprobs, m_rgens := gens } 0 hready hsplit.2
    (by simp only [zero_add]; rw [hsplit.1, hgens])
  simp only at e4
  rw [hwin1] at e4
  obtain ⟨a1, b1, c1⟩ := e4
  have hmerge : merge_samples E.n_threads outs = some outs.flatten := by
    rw [← hsplit.1, ← e2]
    exact merge_samples_eq outs
  have hsample : Sampler.sample E { S with m_rgens := gens } n_target =
      some (outs.flatten.insertionSort (fun a b => a ≤ b), S1) := by
    unfold Sampler.sample
    have hsp1 : Sampler.uniform_sprobs { S with m_rgens := gens } n_target = some sprobs := hsp
    simp only [hsp1, e1, hmerge]
  have hperm := List.perm_insertionSort (fun a b : Nat => a ≤ b) outs.flatten
  have hlen : S.windows.length = S.m_n_samples := by
    have hl := ready_windows_length hready
    exact hl
  refine ⟨sprobs, _, S1, hsp, hsample, List.sorted_insertionSort _ _, fun x hx => ?_, ?_,
    fun s w hw => ?_, fun ith a b hith hb => ?_⟩
  · exact (b1 x (hperm.mem_iff.mp hx)).2.1
  · rw [← hwin]
    exact hlen
  · rw [← hwin] at hw
    have hs : s < S.windows.length := by
      by_contra hcon
      rw [List.getElem?_eq_none (by omega)] at hw
      cases hw
    have hty : w.type < sprobs.length := by
      rw [hspl]
      exact htypes w (List.getElem?_mem hw)
    refine ⟨sprobs[w.type], List.getElem?_eq_getElem hty, ?_⟩
    rw [hperm.count_eq s]
    have := c1 s w (Nat.zero_le s) (by omega) hw
    simpa [List.getD_eq_getElem?_getD, List.getElem?_eq_getElem hty] using this
  · obtain ⟨o, S2, f1, _, f3⟩ := th_usample_spec E { S with m_sprobs := sprobs, m_rgens := gens }
      hready ith (a, b) [] (by simp only; omega) hb
    rw [List.nil_append] at f1
    refine ⟨o, S2, f1, f3.1, fun x hx => ?_⟩
    have := f3.2.1 x hx
    exact ⟨this.1, this.2.1⟩

theorem ex_split : split_ok (ex_ext.thread_ranges ex_sampler.m_n_samples) ex_ext.n_threads
    ex_sampler.m_n_samples := by
  simp [split_ok, contiguous_from, ex_ext, ex_sampler]

theorem uniform_sample_result_witness :
    Sampler.load ex_ext (Sampler.init ex_ext ex_param) ["a", "b", "c"] ["ga", "gb", "gc"] =
      some ex_sampler ∧
    [5, 9].length = ex_ext.n_threads ∧
    split_ok (ex_ext.thread_ranges ex_sampler.m_n_samples) ex_ext.n_threads
      ex_sampler.m_n_samples ∧
    ∃ sprobs samples S1, ex_sampler.uniform_sprobs 20 = some sprobs ∧
      Sampler.sample ex_ext { ex_sampler with m_rgens := [5, 9] } 20 = some (samples, S1) ∧
      samples.Sorted (fun a b => a ≤ b) ∧ (∀ x ∈ samples, x < ex_sampler.m_n_samples) ∧
      (load_windows ex_ext ex_param ["a", "b", "c"] ["ga", "gb", "gc"]).length =
        ex_sampler.m_n_samples ∧
      (∀ (s : Nat) (w : Window),
        (load_windows ex_ext ex_param ["a", "b", "c"] ["ga", "gb", "gc"])[s]? = some w →
        ∃ c, sprobs[w.type]? = some c ∧
          (samples.count s = ⌊c⌋₊ ∨ samples.count s = ⌊c⌋₊ + 1)) ∧
      (∀ (ith a b : Nat), ith < ex_ext.n_threads → b ≤ ex_sampler.m_n_samples →
        ∃ o S2, Sampler.th_usample ex_ext
            { ex_sampler with m_sprobs := sprobs, m_rgens := [5, 9] } ith (a, b) []
            = some (o, S2) ∧
          o.Sorted (fun x y => x ≤ y) ∧ ∀ x ∈ o, a ≤ x ∧ x < b) :=
  ⟨ex_load, rfl, ex_split,
    uniform_sample_result ex_ext ex_param _ _ ex_sampler ex_load [5, 9] rfl 20 ex_split⟩

/-! ## Class balance of the costs -/

theorem map_type_mass (S : Sampler G) (types : List Nat) (tcosts : List ℚ)
    (hv : ∀ t, t < S.m_n_types → tcosts[t]? = some
      (inverse (∑ u ∈ Finset.range S.m_n_types, inverse (types.count u)) *
        inverse (types.count t) * S.m_n_types))
    (hpos : ∀ t, t < S.m_n_types → 0 < types.count t) (t : Nat) (ht : t < S.m_n_types) :
    (types.count t : ℚ) * tcosts.getD t 0 =
      (S.m_n_types : ℚ) / ∑ u ∈ Finset.range S.m_n_types, (1 : ℚ) / (types.count u : ℚ) := by
  have hc : (types.count t : ℚ) ≠ 0 := by exact_mod_cast (hpos t ht).ne'
  have hS := (sum_inv_pos S.m_n_types (fun u => types.count u) (by omega) hpos).ne'
  rw [List.getD_eq_getElem?_getD, hv t ht, Option.getD_some,
    cost_value S.m_n_types (fun u => types.count u) hpos t ht]
  field_simp
  ring

/-- C11: equal aggregate influence per type. For every vector of example types (all
below `T = n_types()`) in which every type occurs, the costs of `Sampler::map` give
every type the same aggregate weight `count[t] * cost[t]`, and the share of every type
in the total cost mass, `count[t] * cost[t]` divided by the sum over `u` of
`count[u] * cost[u]`, is `1 / T`. -/
theorem map_cost_share (S : Sampler G) (types : List Nat)
    (htypes : ∀ ty ∈ types, ty < S.m_n_types)
    (hpos : ∀ t, t < S.m_n_types → 0 < types.count t) :
    ∃ tcosts, S.map_tcosts types = some tcosts ∧
      (∀ t u, t < S.m_n_types → u < S.m_n_types →
        (types.count t : ℚ) * tcosts.getD t 0 = (types.count u : ℚ) * tcosts.getD u 0) ∧
      ∀ t, t < S.m_n_types →
        (types.count t : ℚ) * tcosts.getD t 0 /
          (∑ u ∈ Finset.range S.m_n_types, (types.count u : ℚ) * tcosts.getD u 0) =
            1 / (S.m_n_types : ℚ) := by
  obtain ⟨tcosts, ht, _, hv⟩ := map_tcosts_spec S types htypes
  have hm := map_type_mass S types tcosts hv hpos
  refine ⟨tcosts, ht, fun t u h1 h2 => by rw [hm t h1, hm u h2], fun t h1 => ?_⟩
  have hT : (S.m_n_types : ℚ) ≠ 0 := by
    have : 0 < S.m_n_types := by omega
    exact_mod_cast this.ne'
  have hS := (sum_inv_pos S.m_n_types (fun u => types.count u) (by omega) hpos).ne'
  rw [Finset.sum_congr rfl (fun u hu => hm u (Finset.mem_range.mp hu)), hm t h1,
    Finset.sum_const, Finset.card_range, nsmul_eq_mul]
  field_simp

theorem map_cost_share_witness :
    (∀ ty ∈ [0, 1, 0, 0], ty < ex_sampler.m_n_types) ∧
    (∀ t, t < ex_sampler.m_n_types → 0 < [0, 1, 0, 0].count t) ∧
    ∃ tcosts, ex_sampler.map_tcosts [0, 1, 0, 0] = some tcosts ∧
      (∀ t u, t < ex_sampler.m_n_types → u < ex_sampler.m_n_types →
        ([0, 1, 0, 0].count t : ℚ) * tcosts.getD t 0 =
          ([0, 1, 0, 0].count u : ℚ) * tcosts.getD u 0) ∧
      ∀ t, t < ex_sampler.m_n_types →
        ([0, 1, 0, 0].count t : ℚ) * tcosts.getD t 0 /
          (∑ u ∈ Finset.range ex_sampler.m_n_types,
            ([0, 1, 0, 0].count u : ℚ) * tcosts.getD u 0) =
            1 / (ex_sampler.m_n_types : ℚ) :=
  ⟨by decide, by decide, map_cost_share ex_sampler [0, 1, 0, 0] (by decide) (by decide)⟩

theorem sum_inverse_present (T : Nat) (count : Nat → Nat) :
    ∑ u ∈ Finset.range T, inverse (count u) =
      ∑ u ∈ (Finset.range T).filter (fun u => 0 < count u), (1 : ℚ) / (count u : ℚ) := by
  rw [Finset.sum_filter]
  apply Finset.sum_congr rfl
  intro u _
  by_cases h : 0 < count u
  · have : (count u : ℚ) ≠ 0 := by exact_mod_cast h.ne'
    simp [inverse, this, h]
  · have : count u = 0 := by omega
    simp [inverse, this]

/-- C12: degenerate statistics are guarded in `Sampler::map`. With `inverse(0) = 0`,
for every vector of example types (all below `T = n_types()`), the empty one and the
ones in which some type does not occur included, the cost computation returns: a type
with `count[t] = 0` gets cost 0, all type costs are 0 when there is no example, a
type with `count[t] > 0` gets cost `T / (count[t] * S)` with `S` the sum of
`1 / count[u]` over the types `u` that occur, and every example gets the cost of its
type. -/
theorem map_cost_degenerate (S : Sampler G) (types : List Nat)
    (htypes : ∀ ty ∈ types, ty < S.m_n_types) :
    ∃ tcosts costs, S.map_tcosts types = some tcosts ∧ S.map_costs types = some costs ∧
      tcosts.length = S.m_n_types ∧ costs.length = types.length ∧
      (∀ t, t < S.m_n_types → types.count t = 0 → tcosts[t]? = some 0) ∧
      (∀ t, t < S.m_n_types → 0 < types.count t → tcosts[t]? = some
        ((S.m_n_types : ℚ) / ((types.count t : ℚ) *
          ∑ u ∈ (Finset.range S.m_n_types).filter (fun u => 0 < types.count u),
            (1 : ℚ) / (types.count u : ℚ)))) ∧
      (types = [] → ∀ t, t < S.m_n_types → tcosts[t]? = some 0) ∧
      (∀ (s ty : Nat), types[s]? = some ty → costs[s]? = tcosts[ty]?) := by
  obtain ⟨tcosts, ht, hl, hv⟩ := map_tcosts_spec S types htypes
  have hcosts : S.map_costs types = some (types.map (fun ty => tcosts.getD ty 0)) := by
    unfold Sampler.map_costs
    simp only [ht]
    exact mapM_lookup tcosts types (fun ty hty => by rw [hl]; exact htypes ty hty)
  have hzero : ∀ t, t < S.m_n_types → types.count t = 0 → tcosts[t]? = some 0 := by
    intro t h1 h0
    rw [hv t h1, h0]
    simp [inverse]
  refine ⟨tcosts, _, ht, hcosts, hl, by simp, hzero, fun t h1 hc => ?_,
    fun he t h1 => hzero t h1 (by rw [he]; rfl), fun s ty hs => ?_⟩
  · rw [hv t h1, sum_inverse_present]
    have hc0 : (types.count t : ℚ) ≠ 0 := by exact_mod_cast hc.ne'
    have hS : 0 < ∑ u ∈ (Finset.range S.m_n_types).filter (fun u => 0 < types.count u),
        (1 : ℚ) / (types.count u : ℚ) := by
      apply Finset.sum_pos
      · intro u hu
        have := (Finset.mem_filter.mp hu).2
        positivity
      · exact ⟨t, Finset.mem_filter.mpr ⟨Finset.mem_range.mpr h1, hc⟩⟩
    have hS0 := hS.ne'
    unfold inverse
    rw [if_neg hS0, if_neg hc0]
    congr 1
    rw [div_mul_div_comm, one_mul, one_div, mul_comm _ (S.m_n_types : ℚ), ← div_eq_mul_inv,
      mul_comm]
  · have hty : ty < tcosts.length := by
      rw [hl]
      exact htypes ty (List.getElem?_mem hs)
    simp [List.getElem?_map, hs, List.getD_eq_getElem?_getD, List.getElem?_eq_getElem hty]

theorem map_cost_degenerate_witness :
    (∀ ty ∈ [0, 0], ty < ex_sampler.m_n_types) ∧
    ∃ tcosts costs, ex_sampler.map_tcosts [0, 0] = some tcosts ∧
      ex_sampler.map_costs [0, 0] = some costs ∧
      tcosts.length = ex_sampler.m_n_types ∧ costs.length = [0, 0].length ∧
      (∀ t, t < ex_sampler.m_n_types → [0, 0].count t = 0 → tcosts[t]? = some 0) ∧
      (∀ t, t < ex_sampler.m_n_types → 0 < [0, 0].count t → tcosts[t]? = some
        ((ex_sampler.m_n_types : ℚ) / (([0, 0].count t : ℚ) *
          ∑ u ∈ (Finset.range ex_sampler.m_n_types).filter (fun u => 0 < [0, 0].count u),
            (1 : ℚ) / ([0, 0].count u : ℚ)))) ∧
      (([0, 0] : List Nat) = [] → ∀ t, t < ex_sampler.m_n_types → tcosts[t]? = some 0) ∧
      (∀ (s ty : Nat), [0, 0][s]? = some ty → costs[s]? = tcosts[ty]?) :=
  ⟨by decide, map_cost_degenerate ex_sampler [0, 0] (by decide)⟩

/-! ## Unreadable images -/

theorem load_readable (E : Ext G) : ∀ (ifiles gfiles : List String) (S : Sampler G),
    ifiles.length = gfiles.length →
      Sampler.load E S ifiles gfiles =
        Sampler.load E S ((readable E ifiles gfiles).map Prod.fst)
          ((readable E ifiles gfiles).map Prod.snd)
  | [], [], S, _ => by simp [readable, Sampler.load]
  | [], _ :: _, _, h => by simp at h
  | _ :: _, [], _, h => by simp at h
  | i :: ifiles, g :: gfiles, S, h => by
    have hl : ifiles.length = gfiles.length := by simpa using h
    cases hp : E.ipyramid_load i g with
    | none =>
      have hr : readable E (i :: ifiles) (g :: gfiles) = readable E ifiles gfiles := by
        simp [readable, List.filter_cons, hp]
      rw [hr, ← load_readable E ifiles gfiles S hl]
      simp [Sampler.load, load_image, hp]
    | some scales =>
      have hr : readable E (i :: ifiles) (g :: gfiles) = (i, g) :: readable E ifiles gfiles := by
        simp [readable, List.filter_cons, hp]
      rw [hr]
      simp only [List.map_cons, Sampler.load]
      cases h0 : load_image E S i g with
      | none => rfl
      | some S1 => exact load_readable E ifiles gfiles S1 hl

/-- C16: unreadable images are skipped without other effect. For file lists of equal
length and every starting state, `Sampler::load` returns what it returns on the same
lists with every pair whose pyramid load fails removed (the same retained scales,
begins, ends, type counts and `n_samples`, or no state at all in both runs); the
loop body leaves the sampler unchanged at a failing image, and all pairs that remain
load. -/
theorem load_skips_unreadable (E : Ext G) (ifiles gfiles : List String) (S : Sampler G)
    (hlen : ifiles.length = gfiles.length) :
    Sampler.load E S ifiles gfiles =
      Sampler.load E S ((readable E ifiles gfiles).map Prod.fst)
        ((readable E ifiles gfiles).map Prod.snd) ∧
    (∀ p ∈ readable E ifiles gfiles, p ∈ ifiles.zip gfiles ∧
      E.ipyramid_load p.1 p.2 ≠ none) ∧
    (∀ p ∈ ifiles.zip gfiles, E.ipyramid_load p.1 p.2 ≠ none → p ∈ readable E ifiles gfiles) ∧
    (∀ (S1 : Sampler G) (i g : String), E.ipyramid_load i g = none →
      load_image E S1 i g = some S1) := by
  refine ⟨load_readable E ifiles gfiles S hlen, fun p hp => ?_, fun p hp hne => ?_,
    fun S1 i g h => by simp [load_image, h]⟩
  · have := List.mem_filter.mp hp
    refine ⟨this.1, fun hn => ?_⟩
    simp [hn] at this
  · apply List.mem_filter.mpr
    refine ⟨hp, ?_⟩
    cases h : E.ipyramid_load p.1 p.2 with
    | none => exact absurd h hne
    | some _ => rfl

theorem load_skips_unreadable_witness :
    ["a", "b", "c"].length = ["ga", "gb", "gc"].length ∧
    (Sampler.load ex_ext (Sampler.init ex_ext ex_param) ["a", "b", "c"] ["ga", "gb", "gc"] =
      Sampler.load ex_ext (Sampler.init ex_ext ex_param)
        ((readable ex_ext ["a", "b", "c"] ["ga", "gb", "gc"]).map Prod.fst)
        ((readable ex_ext ["a", "b", "c"] ["ga", "gb", "gc"]).map Prod.snd) ∧
    (∀ p ∈ readable ex_ext ["a", "b", "c"] ["ga", "gb", "gc"],
      p ∈ ["a", "b", "c"].zip ["ga", "gb", "gc"] ∧ ex_ext.ipyramid_load p.1 p.2 ≠ none) ∧
    (∀ p ∈ ["a", "b", "c"].zip ["ga", "gb", "gc"], ex_ext.ipyramid_load p.1 p.2 ≠ none →
      p ∈ readable ex_ext ["a", "b", "c"] ["ga", "gb", "gc"]) ∧
    (∀ (S1 : Sampler Nat) (i g : String), ex_ext.ipyramid_load i g = none →
      load_image ex_ext S1 i g = some S1)) :=
  ⟨rfl, load_skips_unreadable ex_ext ["a", "b", "c"] ["ga", "gb", "gc"]
    (Sampler.init ex_ext ex_param) rfl⟩

/-! ## Error accumulation -/

theorem th_errors_fold_eq (S : Sampler G) (model : Model) (srange : Nat × Nat)
    (ip : ipscale_t) : ∀ (ps : List (Int × Int)) (st : ErrWalk),
      ps.foldlM (th_errors_position S model srange ip) st =
        ((tagged S.m_tagger ip ps).map (fun w => (ip, w))).foldlM
          (errors_item S model srange) st
  | [], st => rfl
  | p :: ps, st => by
    rw [List.foldlM_cons]
    cases hc : S.m_tagger.check ip p.1 p.2 with
    | none =>
      have : tagged S.m_tagger ip (p :: ps) = tagged S.m_tagger ip ps := by simp [tagged, hc]
      rw [this]
      simp only [th_errors_position, hc, Option.some_bind]
      exact th_errors_fold_eq S model srange ip ps st
    | some r =>
      have : tagged S.m_tagger ip (p :: ps) =
          Window.mk p.1 p.2 r.1 r.2 :: tagged S.m_tagger ip ps := by simp [tagged, hc]
      rw [this, List.map_cons, List.foldlM_cons]
      have hstep : th_errors_position S model srange ip st p =
          errors_item S model srange st (ip, Window.mk p.1 p.2 r.1 r.2) := by
        unfold th_errors_position errors_item
        rw [hc]
      rw [hstep]
      cases hu : errors_item S model srange st (ip, Window.mk p.1 p.2 r.1 r.2) with
      | none => rfl
      | some st1 => exact th_errors_fold_eq S model srange ip ps st1

theorem local_sum_append (S : Sampler G) (model : Model) (srange : Nat × Nat) (t : Nat) :
    ∀ (l1 l2 : List (ipscale_t × Window)) (s : Nat),
      local_sum S model srange t s (l1 ++ l2) =
        local_sum S model srange t s l1 + local_sum S model srange t (s + l1.length) l2
  | [], l2, s => by simp [local_sum]
  | iw :: l1, l2, s => by
    have ih := local_sum_append S model srange t l1 l2 (s + 1)
    rw [show s + 1 + l1.length = s + (iw :: l1).length by simp; omega] at ih
    show (if srange.1 ≤ s ∧ s < srange.2 ∧ iw.2.type = t then
        S.error model iw.1 iw.2.x iw.2.y iw.2.targets else 0) +
        local_sum S model srange t (s + 1) (l1 ++ l2) =
      ((if srange.1 ≤ s ∧ s < srange.2 ∧ iw.2.type = t then
        S.error model iw.1 iw.2.x iw.2.y iw.2.targets else 0) +
        local_sum S model srange t (s + 1) l1) +
        local_sum S model srange t (s + (iw :: l1).length) l2
    rw [ih]
    ring

theorem local_sum_past (S : Sampler G) (model : Model) (srange : Nat × Nat) (t : Nat) :
    ∀ (l : List (ipscale_t × Window)) (s : Nat), srange.2 ≤ s →
      local_sum S model srange t s l = 0
  | [], _, _ => rfl
  | iw :: l, s, h => by
    have hn : ¬ (srange.1 ≤ s ∧ s < srange.2 ∧ iw.2.type = t) := by omega
    simp only [local_sum, if_neg hn, zero_add]
    exact local_sum_past S model srange t l (s + 1) (by omega)

theorem errors_items_spec (S : Sampler G) (model : Model) (srange : Nat × Nat) :
    ∀ (items : List (ipscale_t × Window)) (st : ErrWalk),
      (∀ iw ∈ items, iw.2.type < st.terrors.length) →
      ∃ st1, items.foldlM (errors_item S model srange) st = some st1 ∧
        st1.s = st.s + items.length ∧ st1.terrors.length = st.terrors.length ∧
        ∀ t, st1.terrors.getD t 0 = st.terrors.getD t 0 + local_sum S model srange t st.s items
  | [], st, _ => ⟨st, rfl, rfl, rfl, fun t => by simp [local_sum]⟩
  | iw :: items, st, h => by
    have hty : iw.2.type < st.terrors.length := h iw (List.mem_cons_self _ _)
    rw [List.foldlM_cons]
    by_cases hr : st.s ≥ srange.1 ∧ st.s < srange.2
    · have hstep : errors_item S model srange st iw = some
          { s := st.s + 1
            terrors := st.terrors.set iw.2.type
              (st.terrors[iw.2.type] + S.error model iw.1 iw.2.x iw.2.y iw.2.targets) } := by
        simp only [errors_item, hr, and_self, if_true, List.getElem?_eq_getElem hty]
      obtain ⟨st1, e1, e2, e3, e4⟩ := errors_items_spec S model srange items
        { s := st.s + 1
          terrors := st.terrors.set iw.2.type
            (st.terrors[iw.2.type] + S.error model iw.1 iw.2.x iw.2.y iw.2.targets) }
        (fun x hx => by simpa using h x (List.mem_cons_of_mem _ hx))
      simp only [List.length_set] at e2 e3
      refine ⟨st1, by rw [hstep]; exact e1, by rw [e2, List.length_cons]; omega, e3,
        fun t => ?_⟩
      have e4t := e4 t
      simp only at e4t
      rw [e4t]
      simp only [local_sum]
      by_cases htt : iw.2.type = t
      · subst htt
        have h1 : srange.1 ≤ st.s ∧ st.s < srange.2 ∧ iw.2.type = iw.2.type :=
          ⟨hr.1, hr.2, rfl⟩
        rw [if_pos h1]
        simp only [List.getD_eq_getElem?_getD, List.getElem?_set, if_true, hty,
          List.getElem?_eq_getElem hty, Option.getD_some]
        ring
      · have h1 : ¬ (srange.1 ≤ st.s ∧ st.s < srange.2 ∧ iw.2.type = t) := fun hh => htt hh.2.2
        rw [if_neg h1]
        simp only [List.getD_eq_getElem?_getD, List.getElem?_set, htt, if_false, zero_add]
    · have hstep : errors_item S model srange st iw = some { st with s := st.s + 1 } := by
        simp only [errors_item, if_neg hr]
      obtain ⟨st1, e1, e2, e3, e4⟩ := errors_items_spec S model srange items
        { st with s := st.s + 1 } (fun x hx => h x (List.mem_cons_of_mem _ hx))
      simp only at e2 e3
      refine ⟨st1, by rw [hstep]; exact e1, by rw [e2, List.length_cons]; omega, e3,
        fun t => ?_⟩
      have e4t := e4 t
      simp only at e4t
      rw [e4t]
      have h1 : ¬ (srange.1 ≤ st.s ∧ st.s < srange.2 ∧ iw.2.type = t) :=
        fun hh => hr ⟨hh.1, hh.2.1⟩
      simp only [local_sum, if_neg h1, zero_add]

theorem scale_info_snd (tg : Tagger) : ∀ (ips : List ipscale_t),
    (ips.flatMap (scale_info tg)).map Prod.snd = ips.flatMap (scale_windows tg)
  | [] => rfl
  | ip :: ips => by
    rw [List.flatMap_cons, List.flatMap_cons, List.map_append, scale_info_snd tg ips]
    congr 1
    simp [scale_info]

theorem scale_info_length (tg : Tagger) (ips : List ipscale_t) :
    (ips.flatMap (scale_info tg)).length = (ips.flatMap (scale_windows tg)).length := by
  rw [← scale_info_snd tg ips, List.length_map]

theorem th_errors_scale_spec (S : Sampler G) (model : Model) (srange : Nat × Nat)
    (st : ErrWalk) (ip : ipscale_t) (hs : (scan_positions ip).isSome)
    (ht : ∀ w ∈ scale_windows S.m_tagger ip, w.type < st.terrors.length) :
    ∃ st1, th_errors_scale S model srange st ip = some st1 ∧
      st1.s = st.s + (scale_windows S.m_tagger ip).length ∧
      st1.terrors.length = st.terrors.length ∧
      ∀ t, st1.terrors.getD t 0 =
        st.terrors.getD t 0 + local_sum S model srange t st.s (scale_info S.m_tagger ip) := by
  obtain ⟨ps, hps⟩ := Option.isSome_iff_exists.mp hs
  have hw : scale_windows S.m_tagger ip = tagged S.m_tagger ip ps := by
    simp [scale_windows, hps]
  unfold th_errors_scale
  simp only [hps]
  rw [th_errors_fold_eq, ← hw]
  obtain ⟨st1, e1, e2, e3, e4⟩ := errors_items_spec S model srange
    ((scale_windows S.m_tagger ip).map (fun w => (ip, w))) st (fun iw hiw => by
      obtain ⟨w, hw1, rfl⟩ := List.mem_map.mp hiw
      exact ht w hw1)
  exact ⟨st1, e1, by simpa using e2, e3, e4⟩

theorem th_errors_walk_spec (S : Sampler G) (model : Model) (srange : Nat × Nat) :
    ∀ (ips : List ipscale_t) (bs es : List Nat) (n : Nat) (st : ErrWalk),
      table_from S.m_tagger st.s ips bs es n →
      (∀ ip ∈ ips, ∀ w ∈ scale_windows S.m_tagger ip, w.type < st.terrors.length) →
      ∃ st1, th_errors_walk S model srange ips st = some st1 ∧
        st1.terrors.length = st.terrors.length ∧
        ∀ t, st1.terrors.getD t 0 = st.terrors.getD t 0 +
          local_sum S model srange t st.s (ips.flatMap (scale_info S.m_tagger))
  | [], _, _, _, st, _, _ => ⟨st, rfl, rfl, fun t => by simp [local_sum]⟩
  | ip :: ips, [], _, _, _, h, _ => by simp [table_from] at h
  | ip :: ips, _ :: _, [], _, _, h, _ => by simp [table_from] at h
  | ip :: ips, b :: bs, e :: es, n, st, h, ht => by
    simp only [table_from] at h
    obtain ⟨_, hs, _, he, htab⟩ := h
    unfold th_errors_walk
    by_cases hlt : st.s < srange.2
    · obtain ⟨st0, e1, e2, e3, e4⟩ := th_errors_scale_spec S model srange st ip hs
        (ht ip (List.mem_cons_self _ _))
      have htab0 : table_from S.m_tagger st0.s ips bs es n := by
        rw [e2, ← he]
        exact htab
      obtain ⟨st1, f1, f2, f3⟩ := th_errors_walk_spec S model srange ips bs es n st0 htab0
        (fun i hi w hw => by rw [e3]; exact ht i (List.mem_cons_of_mem _ hi) w hw)
      refine ⟨st1, ?_, by rw [f2, e3], fun t => ?_⟩
      · simp only [hlt, if_true, e1]
        exact f1
      · rw [f3 t, e4 t, List.flatMap_cons, local_sum_append, e2]
        have : (scale_info S.m_tagger ip).length = (scale_windows S.m_tagger ip).length := by
          simp [scale_info]
        rw [this]
        ring
    · refine ⟨st, by simp [hlt], rfl, fun t => ?_⟩
      rw [local_sum_past S model srange t _ st.s (by omega), add_zero]

theorem local_sum_eq_sum (S : Sampler G) (model : Model) (srange : Nat × Nat) (t : Nat) :
    ∀ (items : List (ipscale_t × Window)) (s : Nat),
      (∀ k, items[k]? = S.info[s + k]?) →
      local_sum S model srange t s items =
        ∑ x ∈ Finset.Ico s (s + items.length),
          if x ∈ Finset.Ico srange.1 srange.2 then
            (if S.type_at x = some t then S.error_at model x else 0) else 0
  | [], s, _ => by simp [local_sum]
  | iw :: items, s, h => by
    have h0 : S.info[s]? = some iw := by
      have := h 0
      simpa using this.symm
    have ih := local_sum_eq_sum S model srange t items (s + 1) (fun k => by
      have := h (k + 1)
      rw [List.getElem?_cons_succ] at this
      rw [this]
      congr 1
      omega)
    rw [Finset.sum_eq_sum_Ico_succ_bot (by simp)]
    simp only [local_sum, List.length_cons]
    rw [ih, show s + 1 + items.length = s + (items.length + 1) by omega]
    congr 1
    simp only [Sampler.type_at, Sampler.error_at, h0, Option.map_some', Option.some.injEq,
      Finset.mem_Ico]
    by_cases h1 : srange.1 ≤ s ∧ s < srange.2
    · by_cases h2 : iw.2.type = t
      · simp [h1, h2]
      · simp [h1, h2]
    · have h3 : ¬ (srange.1 ≤ s ∧ s < srange.2 ∧ iw.2.type = t) := fun hh => h1 ⟨hh.1, hh.2.1⟩
      simp [h1, h3]

theorem info_length (S : Sampler G) : S.info.length = S.windows.length :=
  scale_info_length S.m_tagger S.m_ipscales

theorem th_errors_spec (S : Sampler G) (hr : Ready S) (hsp : S.m_sprobs.length = S.m_n_types)
    (model : Model) (srange : Nat × Nat) (terrors0 : List ℚ) (hlt : srange.1 < srange.2)
    (hrange : srange.2 ≤ S.m_n_samples) :
    ∃ terrors, S.th_errors srange model terrors0 = some terrors ∧
      terrors.length = S.m_n_types ∧
      ∀ t, terrors.getD t 0 = S.type_error model t srange.1 srange.2 := by
  unfold Sampler.th_errors
  rw [if_neg (by omega)]
  have hfacts := table_from_facts _ _ _ _ _ _ hr.table
  have hfirst : srange.1 < S.m_n_samples := by omega
  obtain ⟨hi0, hb0, _⟩ := (sample2image_facts S hfacts srange.1).1 hfirst
  unfold Sampler.n_images at hi0
  have hbl : S.sample2image srange.1 < S.m_ipsbegins.length := by
    rw [hfacts.begins_length]
    exact hi0
  have hbget : S.m_ipsbegins[S.sample2image srange.1]? =
      some (S.m_ipsbegins.getD (S.sample2image srange.1) 0) := by
    simp [List.getD_eq_getElem?_getD, List.getElem?_eq_getElem hbl]
  obtain ⟨hdrop, hs0⟩ := table_from_drop _ _ _ _ _ _ _ hr.table hi0
  have htypes : ∀ ip ∈ S.m_ipscales.drop (S.sample2image srange.1),
      ∀ w ∈ scale_windows S.m_tagger ip,
        w.type < (stat_init S.m_n_types : List ℚ).length := by
    intro ip hip w hw
    have := hr.types w (List.mem_flatMap.mpr ⟨ip, List.mem_of_mem_drop hip, hw⟩)
    simpa [stat_init, hsp] using this
  obtain ⟨st1, e1, e2, e3⟩ := th_errors_walk_spec S model srange _ _ _ _
    { s := S.m_ipsbegins.getD (S.sample2image srange.1) 0, terrors := stat_init S.m_n_types }
    hdrop htypes
  simp only [hbget, e1]
  have hsplit : S.info =
      (S.m_ipscales.take (S.sample2image srange.1)).flatMap (scale_info S.m_tagger) ++
      (S.m_ipscales.drop (S.sample2image srange.1)).flatMap (scale_info S.m_tagger) := by
    unfold Sampler.info
    rw [← List.flatMap_append, List.take_append_drop]
  have hlen : S.info.length = S.m_n_samples := by
    rw [info_length]
    exact ready_windows_length hr
  have hlen2 := congrArg List.length hsplit
  rw [List.length_append, scale_info_length, scale_info_length] at hlen2
  simp only [zero_add] at hs0
  refine ⟨st1.terrors, rfl, by simpa [stat_init] using e2, fun t => ?_⟩
  have e3t := e3 t
  simp only at e3t
  have hz : (stat_init S.m_n_types : List ℚ).getD t 0 = 0 := by
    simp only [stat_init, List.getD_eq_getElem?_getD, List.getElem?_replicate]
    split_ifs <;> rfl
  rw [e3t, hz, zero_add, local_sum_eq_sum S model srange t _ _ (fun k => by
    rw [hsplit, List.getElem?_append_right (by rw [scale_info_length]; omega)]
    congr 1
    rw [scale_info_length]
    omega), Finset.sum_ite_mem]
  unfold Sampler.type_error
  congr 1
  apply Finset.inter_eq_right.mpr
  intro x hx
  rw [Finset.mem_Ico] at hx ⊢
  rw [scale_info_length]
  omega

theorem thread_loop_errors (S : Sampler G) (hr : Ready S)
    (hsp : S.m_sprobs.length = S.m_n_types) (model : Model) :
    ∀ (ranges : List (Nat × Nat)) (a : Nat), contiguous_from a ranges S.m_n_samples →
      ∃ th, thread_loop (fun srange terrors => S.th_errors srange model terrors) [] ranges =
          some th ∧ th.length = ranges.length ∧
        ∀ t, (th.map (fun stats => stats.getD t 0)).sum =
          S.type_error model t a S.m_n_samples
  | [], a, hc => by
    simp only [contiguous_from] at hc
    subst hc
    exact ⟨[], rfl, rfl, fun t => by simp [Sampler.type_error]⟩
  | r :: ranges, a, hc => by
    simp only [contiguous_from] at hc
    obtain ⟨h1, h2, h3⟩ := hc
    have hle := contiguous_from_le ranges r.2 _ h3
    obtain ⟨th, f1, f2, f3⟩ := thread_loop_errors S hr hsp model ranges r.2 h3
    by_cases hlt : r.1 < r.2
    · obtain ⟨te, e1, _, e3⟩ := th_errors_spec S hr hsp model r [] hlt hle
      refine ⟨te :: th, by simp only [thread_loop, e1, f1], by simp [f2], fun t => ?_⟩
      rw [List.map_cons, List.sum_cons, e3 t, f3 t, h1]
      unfold Sampler.type_error
      exact Finset.sum_Ico_consecutive _ (by omega) hle
    · have he : S.th_errors r model [] = some [] := by
        unfold Sampler.th_errors
        rw [if_pos (by omega)]
      have hr2 : r.2 = a := by omega
      refine ⟨[] :: th, by simp only [thread_loop, he, f1], by simp [f2], fun t => ?_⟩
      rw [List.map_cons, List.sum_cons, f3 t, hr2]
      simp

theorem stat_cumulate_get (n_types : Nat) (th : List (List ℚ)) (t : Nat) (ht : t < n_types) :
    (stat_cumulate n_types th)[t]? = some ((th.map (fun stats => stats.getD t 0)).sum) := by
  unfold stat_cumulate
  rw [List.getElem?_map, List.getElem?_range ht]
  rfl

/-- C19: per-type error accumulation. For every loaded sampler, every model and every
range `[a, b)` with `a < b <= n_samples()`, `Sampler::th_errors` returns a vector with
one entry per type whose entry `t` is the sum of `error(s)` over the sample indices `s`
of `[a, b)` whose tagger type is `t`; and for every split of `[0, n_samples())` into
contiguous ordered ranges the per-thread vectors merged by `stat_cumulate` hold, for
every type `t`, the total error of all samples of type `t`. -/
theorem th_errors_accumulates (E : Ext G) (param : param_t) (ifiles gfiles : List String)
    (S : Sampler G) (hS : Sampler.load E (Sampler.init E param) ifiles gfiles = some S)
    (model : Model) :
    S.info.length = S.m_n_samples ∧
    (∀ (a b : Nat) (terrors0 : List ℚ), a < b → b ≤ S.m_n_samples →
      ∃ terrors, S.th_errors (a, b) model terrors0 = some terrors ∧
        terrors.length = S.m_n_types ∧
        ∀ t, t < S.m_n_types → terrors[t]? = some
          (∑ s ∈ Finset.Ico a b, if S.type_at s = some t then S.error_at model s else 0)) ∧
    (∀ (ranges : List (Nat × Nat)), contiguous_from 0 ranges S.m_n_samples →
      ∃ th, thread_loop (fun srange terrors => S.th_errors srange model terrors) [] ranges =
          some th ∧ th.length = ranges.length ∧
        ∀ t, t < S.m_n_types → (stat_cumulate S.m_n_types th)[t]? = some
          (∑ s ∈ Finset.range S.m_n_samples,
            if S.type_at s = some t then S.error_at model s else 0)) := by
  obtain ⟨_, h2, _⟩ := loaded_type_vectors E param ifiles gfiles S hS
  have hr : Ready S := loaded_ready E param ifiles gfiles S hS S.m_sprobs S.m_rgens h2
  refine ⟨?_, fun a b t0 hab hb => ?_, fun ranges hc => ?_⟩
  · rw [info_length]
    exact ready_windows_length hr
  · obtain ⟨te, e1, e2, e3⟩ := th_errors_spec S hr h2 model (a, b) t0 hab hb
    refine ⟨te, e1, e2, fun t ht => ?_⟩
    have := e3 t
    rw [List.getD_eq_getElem?_getD, List.getElem?_eq_getElem (by omega)] at this
    rw [List.getElem?_eq_getElem (by omega)]
    simp only [Option.getD_some] at this
    rw [this]
    rfl
  · obtain ⟨th, f1, f2, f3⟩ := thread_loop_errors S hr h2 model ranges 0 hc
    refine ⟨th, f1, f2, fun t ht => ?_⟩
    rw [stat_cumulate_get _ _ _ ht, f3 t, Finset.range_eq_Ico]
    rfl

theorem th_errors_accumulates_witness :
    Sampler.load ex_ext (Sampler.init ex_ext ex_param) ["a", "b", "c"] ["ga", "gb", "gc"] =
      some ex_sampler ∧
    (ex_sampler.info.length = ex_sampler.m_n_samples ∧
    (∀ (a b : Nat) (terrors0 : List ℚ), a < b → b ≤ ex_sampler.m_n_samples →
      ∃ terrors, ex_sampler.th_errors (a, b) ex_model terrors0 = some terrors ∧
        terrors.length = ex_sampler.m_n_types ∧
        ∀ t, t < ex_sampler.m_n_types → terrors[t]? = some
          (∑ s ∈ Finset.Ico a b,
            if ex_sampler.type_at s = some t then ex_sampler.error_at ex_model s else 0)) ∧
    (∀ (ranges : List (Nat × Nat)), contiguous_from 0 ranges ex_sampler.m_n_samples →
      ∃ th, thread_loop (fun srange terrors => ex_sampler.th_errors srange ex_model terrors)
          [] ranges = some th ∧ th.length = ranges.length ∧
        ∀ t, t < ex_sampler.m_n_types → (stat_cumulate ex_sampler.m_n_types th)[t]? = some
          (∑ s ∈ Finset.range ex_sampler.m_n_samples,
            if ex_sampler.type_at s = some t then ex_sampler.error_at ex_model s else 0))) :=
  ⟨ex_load, th_errors_accumulates ex_ext ex_param _ _ ex_sampler ex_load ex_model⟩

/-! ## The empty data set -/

theorem listfiles_cleared (E : Ext G) (param : param_t) (type : SamplerType)
    (h : listfiles_unusable E param type) : Sampler.listfiles E param type = ([], []) := by
  unfold listfiles_unusable at h
  unfold Sampler.listfiles
  simp only
  cases hl : E.load_listfiles
      (if type = SamplerType.TrainSampler then param.m_train_data else param.m_valid_data) with
  | none => rfl
  | some fs =>
    obtain ⟨ifiles, gfiles⟩ := fs
    rw [hl] at h
    simp only at h
    rcases h with h | h
    · simp [h]
    · simp [h]

theorem contiguous_from_bounds : ∀ (ranges : List (Nat × Nat)) (a n : Nat),
    contiguous_from a ranges n → ∀ r ∈ ranges, a ≤ r.1 ∧ r.1 ≤ r.2 ∧ r.2 ≤ n
  | [], _, _, _ => fun r hr => by simp at hr
  | r0 :: ranges, a, n, h => by
    simp only [contiguous_from] at h
    obtain ⟨h1, h2, h3⟩ := h
    have hle := contiguous_from_le ranges r0.2 n h3
    intro r hr
    rcases List.mem_cons.mp hr with rfl | hr
    · omega
    · have := contiguous_from_bounds ranges r0.2 n h3 r hr
      omega

theorem thread_iloop_empty
    (op : Sampler G → Nat → Nat × Nat → List Nat → Option (List Nat × Sampler G))
    (hop : ∀ S ith r o, r.1 ≥ r.2 → op S ith r o = some (o, S)) :
    ∀ (ranges : List (Nat × Nat)) (ith : Nat) (S : Sampler G), (∀ r ∈ ranges, r.1 ≥ r.2) →
      thread_iloop op ranges ith S = some (List.replicate ranges.length [], S)
  | [], _, _, _ => rfl
  | r :: ranges, ith, S, h => by
    simp only [thread_iloop, hop S ith r [] (h r (List.mem_cons_self _ _)),
      thread_iloop_empty op hop ranges (ith + 1) S (fun x hx => h x (List.mem_cons_of_mem _ hx)),
      List.length_cons, List.replicate_succ]

theorem thread_loop_empty {R : Type} (op : Nat × Nat → R → Option R) (init : R)
    (hop : ∀ r, r.1 ≥ r.2 → op r init = some init) :
    ∀ (ranges : List (Nat × Nat)), (∀ r ∈ ranges, r.1 ≥ r.2) →
      thread_loop op init ranges = some (List.replicate ranges.length init)
  | [], _ => rfl
  | r :: ranges, h => by
    simp only [thread_loop, hop r (h r (List.mem_cons_self _ _)),
      thread_loop_empty op init hop ranges (fun x hx => h x (List.mem_cons_of_mem _ hx)),
      List.length_cons, List.replicate_succ]

theorem flatten_replicate_nil : ∀ (k : Nat), (List.replicate k ([] : List Nat)).flatten = []
  | 0 => rfl
  | k + 1 => by
    rw [List.replicate_succ, List.flatten_cons, flatten_replicate_nil k]
    rfl

theorem merge_samples_empty (k : Nat) : merge_samples k (List.replicate k []) = some [] := by
  have := merge_samples_eq (List.replicate k ([] : List Nat))
  rw [List.length_replicate, flatten_replicate_nil] at this
  exact this

/-- C15: an empty data set is inert. When the list files cannot be read, hold no image
or differ in length, the constructor returns a sampler with `n_samples() = 0`, no
retained image and all type counts 0; and on it, with the thread ranges of a split of
0 elements, the uniform `sample(n, out)` and the error based `sample(n, model, out)`
return the empty list for every `n` and every model, without an access outside a
vector. -/
theorem empty_dataset_inert (E : Ext G) (param : param_t) (type : SamplerType)
    (hbad : listfiles_unusable E param type)
    (hsplit : split_ok (E.thread_ranges 0) E.n_threads 0) :
    ∃ S, Sampler.new E param type = some S ∧ S.m_n_samples = 0 ∧ S.m_ipscales = [] ∧
      S.n_images = 0 ∧ S.m_tcounts = List.replicate S.m_n_types 0 ∧
      ∀ (n : Nat) (model : Model),
        (∃ S1, S.sample E n = some ([], S1)) ∧ (∃ S1, S.sample_error E n model = some ([], S1)) := by
  have hnew : Sampler.new E param type = some (Sampler.init E param) := by
    unfold Sampler.new
    simp only [listfiles_cleared E param type hbad, Sampler.load]
  have hempty : ∀ r ∈ E.thread_ranges 0, r.1 ≥ r.2 := fun r hr => by
    have := contiguous_from_bounds _ _ _ hsplit.2 r hr
    omega
  refine ⟨Sampler.init E param, hnew, rfl, rfl, rfl, rfl, fun n model => ⟨?_, ?_⟩⟩
  · obtain ⟨sp, hsp, _, _⟩ := uniform_sprobs_spec (Sampler.init E param) n
      (by simp [Sampler.init, stat_init]) (by simp [Sampler.init, stat_init])
    unfold Sampler.sample
    simp only [hsp]
    have h0 : (Sampler.init E param).m_n_samples = 0 := rfl
    rw [h0, thread_iloop_empty (Sampler.th_usample E) (fun S ith r o hr => by
      unfold Sampler.th_usample
      rw [if_pos hr]) _ 0 _ hempty]
    simp only [hsplit.1, merge_samples_empty]
    exact ⟨_, rfl⟩
  · unfold Sampler.sample_error
    have h0 : (Sampler.init E param).m_n_samples = 0 := rfl
    rw [h0, thread_loop_empty
      (fun srange terrors => (Sampler.init E param).th_errors srange model terrors) []
      (fun r hr => by
        show Sampler.th_errors _ r model [] = some []
        unfold Sampler.th_errors
        rw [if_pos hr]) _ hempty]
    simp only
    obtain ⟨sp, hsp, _, _⟩ := error_sprobs_spec (Sampler.init E param) n
      (stat_cumulate (Sampler.init E param).m_n_types
        (List.replicate (E.thread_ranges 0).length []))
      (by simp [stat_cumulate]) (by simp [Sampler.init, stat_init])
    simp only [hsp]
    rw [thread_iloop_empty
      (fun S2 ith srange samples => S2.th_esample E ith srange model samples)
      (fun S ith r o hr => by
        show Sampler.th_esample E S ith r model o = some (o, S)
        unfold Sampler.th_esample
        rw [if_pos hr]) _ 0 _ hempty]
    simp only [hsplit.1, merge_samples_empty]
    exact ⟨_, rfl⟩

theorem empty_dataset_inert_witness :
    listfiles_unusable ex_ext ex_param SamplerType.ValidSampler ∧
    split_ok (ex_ext.thread_ranges 0) ex_ext.n_threads 0 ∧
    ∃ S, Sampler.new ex_ext ex_param SamplerType.ValidSampler = some S ∧ S.m_n_samples = 0 ∧
      S.m_ipscales = [] ∧ S.n_images = 0 ∧ S.m_tcounts = List.replicate S.m_n_types 0 ∧
      ∀ (n : Nat) (model : Model),
        (∃ S1, S.sample ex_ext n = some ([], S1)) ∧
        (∃ S1, S.sample_error ex_ext n model = some ([], S1)) :=
  ⟨by simp [listfiles_unusable, ex_ext, ex_param],
    by simp [split_ok, contiguous_from, ex_ext],
    empty_dataset_inert ex_ext ex_param SamplerType.ValidSampler
      (by simp [listfiles_unusable, ex_ext, ex_param])
      (by simp [split_ok, contiguous_from, ex_ext])⟩

/-! ## Writes to the data set -/

theorem set_entry_spec (m m1 : List (List ℚ)) (i j : Nat) (v : ℚ)
    (h : set_entry m i j v = some m1) :
    shape m1 = shape m ∧ entry m1 i j = some v ∧
    (∀ i1 j1, (i1 ≠ i ∨ j1 ≠ j) → entry m1 i1 j1 = entry m i1 j1) ∧
    (∀ i1, i1 ≠ i → m1[i1]? = m[i1]?) := by
  unfold set_entry at h
  cases hrow : m[i]? with
  | none => simp [hrow] at h
  | some row =>
    simp only [hrow] at h
    by_cases hj : j < row.length
    · simp only [hj, if_true, Option.some.injEq] at h
      subst h
      have hi : i < m.length := by
        by_contra hcon
        rw [List.getElem?_eq_none (by omega)] at hrow
        cases hrow
      have hrow2 : m[i] = row := by
        rw [List.getElem?_eq_getElem hi] at hrow
        exact Option.some.inj hrow
      refine ⟨?_, ?_, ?_, ?_⟩
      · unfold shape
        apply List.ext_getElem?
        intro k
        simp only [List.getElem?_map, List.getElem?_set]
        by_cases hk : i = k
        · subst hk
          simp [hi, hrow]
        · simp [hk]
      · unfold entry
        simp [List.getElem?_set, hi, hj]
      · intro i1 j1 hne
        unfold entry
        by_cases hk : i = i1
        · subst hk
          have hj1 : j ≠ j1 := by
            rcases hne with h1 | h1
            · exact absurd rfl h1
            · exact fun hh => h1 hh.symm
          simp [List.getElem?_set, hi, hrow, hj1]
        · simp [List.getElem?_set, hk]
      · intro i1 hne
        have : i ≠ i1 := fun hh => hne hh.symm
        simp [List.getElem?_set, this]
    · simp [hj] at h

theorem set_entry_some (m : List (List ℚ)) (i j n : Nat) (v : ℚ)
    (hi : (shape m)[i]? = some n) (hj : j < n) : ∃ m1, set_entry m i j v = some m1 := by
  unfold shape at hi
  rw [List.getElem?_map] at hi
  cases hrow : m[i]? with
  | none => simp [hrow] at hi
  | some row =>
    simp only [hrow, Option.map_some', Option.some.injEq] at hi
    unfold set_entry
    simp only [hrow]
    rw [if_pos (by omega)]
    exact ⟨_, rfl⟩

theorem write_fold_spec (I J : Nat → Nat) (V : Nat → Option ℚ) :
    ∀ (k : Nat) (m m1 : List (List ℚ)),
      (List.range k).foldlM (write_step I J V) m = some m1 →
      shape m1 = shape m ∧
      (∀ i j, (∀ t, t < k → (I t ≠ i ∨ J t ≠ j)) → entry m1 i j = entry m i j) ∧
      (∀ i, (∀ t, t < k → I t ≠ i) → m1[i]? = m[i]?) ∧
      (∀ t, t < k → (∀ t1, t < t1 → t1 < k → (I t1 ≠ I t ∨ J t1 ≠ J t)) →
        entry m1 (I t) (J t) = V t)
  | 0, m, m1, h => by
    simp only [List.range_zero, List.foldlM_nil] at h
    cases h
    refine ⟨rfl, fun _ _ _ => rfl, fun _ _ => rfl, fun t ht => by omega⟩
  | k + 1, m, m1, h => by
    rw [List.range_succ, List.foldlM_append] at h
    cases h0 : (List.range k).foldlM (write_step I J V) m with
    | none => simp [h0] at h
    | some m0 =>
      obtain ⟨e1, e2, e3, e4⟩ := write_fold_spec I J V k m m0 h0
      simp only [h0, Option.bind_eq_bind, Option.some_bind, List.foldlM_cons,
        List.foldlM_nil] at h
      cases hv : V k with
      | none => simp [write_step, hv] at h
      | some v =>
        simp only [write_step, hv] at h
        cases hs : set_entry m0 (I k) (J k) v with
        | none => simp [hs] at h
        | some m2 =>
          simp only [hs, Option.some_bind] at h
          have hm : m2 = m1 := by simpa using h
          subst hm
          obtain ⟨f1, f2, f3, f4⟩ := set_entry_spec m0 m2 (I k) (J k) v hs
          refine ⟨by rw [f1, e1], fun i j hij => ?_, fun i hi => ?_, fun t ht hlast => ?_⟩
          · have hk := hij k (by omega)
            rw [f3 i j (by
              rcases hk with h1 | h1
              · exact Or.inl (fun hh => h1 hh.symm)
              · exact Or.inr (fun hh => h1 hh.symm))]
            exact e2 i j (fun t ht => hij t (by omega))
          · rw [f4 i (fun hh => hi k (by omega) hh.symm)]
            exact e3 i (fun t ht => hi t (by omega))
          · by_cases htk : t = k
            · subst htk
              rw [f2, hv]
            · have hlt : t < k := by omega
              have hk := hlast k hlt (by omega)
              rw [f3 _ _ (by
                rcases hk with h1 | h1
                · exact Or.inl (fun hh => h1 hh.symm)
                · exact Or.inr (fun hh => h1 hh.symm))]
              exact e4 t hlt (fun t1 h1 h2 => hlast t1 h1 (by omega))

theorem write_fold_some (I J : Nat → Nat) (V : Nat → Option ℚ) :
    ∀ (k : Nat) (m : List (List ℚ)),
      (∀ t, t < k → V t ≠ none ∧ ∃ n, (shape m)[I t]? = some n ∧ J t < n) →
      ∃ m1, (List.range k).foldlM (write_step I J V) m = some m1
  | 0, m, _ => ⟨m, rfl⟩
  | k + 1, m, h => by
    obtain ⟨m0, h0⟩ := write_fold_some I J V k m (fun t ht => h t (by omega))
    have hsh := (write_fold_spec I J V k m m0 h0).1
    obtain ⟨hv, n, hn, hj⟩ := h k (by omega)
    cases hvk : V k with
    | none => exact absurd hvk hv
    | some v =>
      obtain ⟨m1, hm1⟩ := set_entry_some m0 (I k) (J k) n v (by rw [hsh]; exact hn) hj
      refine ⟨m1, ?_⟩
      rw [List.range_succ, List.foldlM_append, h0]
      simp only [Option.bind_eq_bind, Option.some_bind, List.foldlM_cons, List.foldlM_nil,
        write_step, hvk, hm1]
      rfl

/-! ## What mapping leaves alone -/

theorem map_targets_eq (n_outputs : Nat) (targets : List ℚ) (ss : Nat) (m : List (List ℚ)) :
    map_targets n_outputs targets ss m =
      (List.range n_outputs).foldlM
        (write_step (fun _ => ss) (fun o => o) (fun o => targets[o]?)) m := rfl

theorem map_values_eq (model : Model) (ip : ipscale_t) (x y : Int) (ss : Nat)
    (m : List (List ℚ)) :
    map_values model ip x y ss m =
      (List.range model.n_features).foldlM
        (write_step (fun f => f) (fun _ => ss) (fun f => some (model.get ip f x y))) m := rfl

theorem map_targets_spec (n_outputs : Nat) (targets : List ℚ) (ss : Nat)
    (m m1 : List (List ℚ)) (h : map_targets n_outputs targets ss m = some m1) :
    shape m1 = shape m ∧ (∀ i, i ≠ ss → m1[i]? = m[i]?) ∧
    (∀ o, o < n_outputs → entry m1 ss o = targets[o]?) := by
  rw [map_targets_eq] at h
  obtain ⟨e1, _, e3, e4⟩ := write_fold_spec _ _ _ _ _ _ h
  refine ⟨e1, fun i hi => e3 i (fun t _ hh => hi hh.symm), fun o ho => ?_⟩
  exact e4 o ho (fun t1 h1 _ => Or.inr (by omega))

theorem map_values_spec (model : Model) (ip : ipscale_t) (x y : Int) (ss : Nat)
    (m m1 : List (List ℚ)) (h : map_values model ip x y ss m = some m1) :
    shape m1 = shape m ∧ (∀ f j, j ≠ ss → entry m1 f j = entry m f j) ∧
    (∀ f, f < model.n_features → entry m1 f ss = some (model.get ip f x y)) := by
  rw [map_values_eq] at h
  obtain ⟨e1, e2, _, e4⟩ := write_fold_spec _ _ _ _ _ _ h
  refine ⟨e1, fun f j hj => e2 f j (fun t _ => Or.inr (fun hh => hj hh.symm)), fun f hf => ?_⟩
  exact e4 f hf (fun t1 h1 _ => Or.inl (by omega))

theorem frame_refl (b : Nat) (st : MapWalk) : Frame b st st :=
  ⟨le_rfl, fun _ _ => ⟨rfl, rfl, fun _ => rfl⟩, rfl, rfl, rfl, rfl⟩

theorem frame_trans {b : Nat} {st st1 st2 : MapWalk} (h1 : Frame b st st1)
    (h2 : Frame b st1 st2) : Frame b st st2 := by
  refine ⟨le_trans h1.ss_le h2.ss_le, fun j hj => ?_, by rw [h2.costs, h1.costs],
    by rw [h2.types_length, h1.types_length], by rw [h2.targets_shape, h1.targets_shape],
    by rw [h2.values_shape, h1.values_shape]⟩
  have a1 := h1.same j hj
  have a2 := h2.same j (by
    rcases hj with h | h
    · exact Or.inl (lt_of_lt_of_le h h1.ss_le)
    · exact Or.inr h)
  exact ⟨a2.1.trans a1.1, a2.2.1.trans a1.2.1, fun f => (a2.2.2 f).trans (a1.2.2 f)⟩

theorem frame_step (b : Nat) (st : MapWalk) : Frame b st { st with s := st.s + 1 } :=
  ⟨le_rfl, fun _ _ => ⟨rfl, rfl, fun _ => rfl⟩, rfl, rfl, rfl, rfl⟩

theorem th_map_window_frame (S : Sampler G) (model : Model) (srange : Nat × Nat)
    (samples : List Nat) (ip : ipscale_t) (x y : Int) (targets : List ℚ) (type : Nat)
    (st st1 : MapWalk)
    (h : th_map_window S model srange samples ip x y targets type st = some st1) :
    Frame srange.2 st st1 := by
  unfold th_map_window at h
  by_cases h1 : st.ss < srange.2
  · rw [if_pos h1] at h
    cases hid : samples[st.ss]? with
    | none => simp [hid] at h
    | some id =>
      simp only [hid] at h
      by_cases h2 : st.s = id
      · rw [if_pos h2] at h
        by_cases h3 : st.ss < st.types.length
        · rw [if_pos h3] at h
          cases ht : map_targets S.m_n_outputs targets st.ss st.data.m_targets with
          | none => simp [ht] at h
          | some mt =>
            simp only [ht] at h
            cases hv : map_values model ip x y st.ss st.data.m_values with
            | none => simp [hv] at h
            | some mv =>
              simp only [hv, Option.some.injEq] at h
              subst h
              obtain ⟨t1, t2, _⟩ := map_targets_spec _ _ _ _ _ ht
              obtain ⟨v1, v2, _⟩ := map_values_spec _ _ _ _ _ _ _ hv
              refine ⟨by simp, fun j hj => ?_, rfl, by simp, t1, v1⟩
              have hne : j ≠ st.ss := by omega
              refine ⟨?_, t2 j hne, fun f => v2 f j hne⟩
              have : st.ss ≠ j := fun hh => hne hh.symm
              simp [List.getElem?_set, this]
        · simp [h3] at h
      · rw [if_neg h2, Option.some.injEq] at h
        subst h
        exact frame_step _ st
  · rw [if_neg h1, Option.some.injEq] at h
    subst h
    exact frame_step _ st

theorem th_map_positions_frame (S : Sampler G) (model : Model) (srange : Nat × Nat)
    (samples : List Nat) (ip : ipscale_t) : ∀ (ps : List (Int × Int)) (st st1 : MapWalk),
      ps.foldlM (th_map_position S model srange samples ip) st = some st1 →
        Frame srange.2 st st1
  | [], st, st1, h => by
    simp only [List.foldlM_nil] at h
    cases h
    exact frame_refl _ st
  | p :: ps, st, st1, h => by
    rw [List.foldlM_cons] at h
    cases h0 : th_map_position S model srange samples ip st p with
    | none => simp [h0] at h
    | some st0 =>
      simp only [h0, Option.some_bind] at h
      have hf : Frame srange.2 st st0 := by
        unfold th_map_position at h0
        cases hc : S.m_tagger.check ip p.1 p.2 with
        | none =>
          simp only [hc, Option.some.injEq] at h0
          subst h0
          exact frame_refl _ st
        | some r =>
          simp only [hc] at h0
          exact th_map_window_frame S model srange samples ip _ _ _ _ st st0 h0
      exact frame_trans hf (th_map_positions_frame S model srange samples ip ps st0 st1 h)

theorem th_map_walk_frame (S : Sampler G) (model : Model) (srange : Nat × Nat)
    (samples : List Nat) : ∀ (ips : List ipscale_t) (st st1 : MapWalk),
      th_map_walk S model srange samples ips st = some st1 → Frame srange.2 st st1
  | [], st, st1, h => by
    simp only [th_map_walk, Option.some.injEq] at h
    subst h
    exact frame_refl _ st
  | ip :: ips, st, st1, h => by
    unfold th_map_walk at h
    by_cases hlt : st.ss < srange.2
    · rw [if_pos hlt] at h
      cases h0 : th_map_scale S model srange samples st ip with
      | none => simp [h0] at h
      | some st0 =>
        simp only [h0] at h
        have hf : Frame srange.2 st st0 := by
          unfold th_map_scale at h0
          cases hps : scan_positions ip with
          | none => simp [hps] at h0
          | some ps =>
            simp only [hps] at h0
            exact th_map_positions_frame S model srange samples ip ps st st0 h0
        exact frame_trans hf (th_map_walk_frame S model srange samples ips st0 st1 h)
    · rw [if_neg hlt, Option.some.injEq] at h
      subst h
      exact frame_refl _ st

theorem th_map_same (S : Sampler G) (srange : Nat × Nat) (samples : List Nat) (model : Model)
    (types : List Nat) (data : DataSet) (types1 : List Nat) (data1 : DataSet)
    (h : S.th_map srange samples model types data = some (types1, data1)) :
    (∀ ss, (ss < srange.1 ∨ srange.2 ≤ ss) →
      types1[ss]? = types[ss]? ∧ data1.m_targets[ss]? = data.m_targets[ss]? ∧
      ∀ f, entry data1.m_values f ss = entry data.m_values f ss) ∧
    data1.m_costs = data.m_costs ∧ types1.length = types.length ∧
    shape data1.m_targets = shape data.m_targets ∧
    shape data1.m_values = shape data.m_values := by
  unfold Sampler.th_map at h
  by_cases hge : srange.1 ≥ srange.2
  · rw [if_pos hge] at h
    simp only [Option.some.injEq, Prod.mk.injEq] at h
    obtain ⟨rfl, rfl⟩ := h
    exact ⟨fun _ _ => ⟨rfl, rfl, fun _ => rfl⟩, rfl, rfl, rfl, rfl⟩
  · rw [if_neg hge] at h
    cases hid : samples[srange.1]? with
    | none => simp [hid] at h
    | some id =>
      simp only [hid] at h
      cases hb : S.m_ipsbegins[S.sample2image id]? with
      | none => simp [hb] at h
      | some s =>
        simp only [hb] at h
        cases hw : th_map_walk S model srange samples (S.m_ipscales.drop (S.sample2image id))
            { s := s, ss := srange.1, types := types, data := data } with
        | none => simp [hw] at h
        | some st =>
          simp only [hw, Option.some.injEq, Prod.mk.injEq] at h
          obtain ⟨rfl, rfl⟩ := h
          have hf := th_map_walk_frame S model srange samples _ _ _ hw
          exact ⟨fun ss hss => hf.same ss hss, hf.costs, hf.types_length, hf.targets_shape,
            hf.values_shape⟩

/-- C20: mapping writes only inside its slice. For every sampler, every id list and
every slice `[a, b)`, whenever `Sampler::th_map` returns, every position `ss` outside
`[a, b)` holds the `types[ss]`, the target row `ss` and the entries `ss` of all feature
columns it held before, and the costs and the sizes of `types` and of the data set
are left as they are; so workers given disjoint slices write disjoint parts. -/
theorem th_map_frame (S : Sampler G) (srange : Nat × Nat) (samples : List Nat) (model : Model)
    (types : List Nat) (data : DataSet) (types1 : List Nat) (data1 : DataSet)
    (h : S.th_map srange samples model types data = some (types1, data1)) :
    (∀ ss, (ss < srange.1 ∨ srange.2 ≤ ss) →
      types1[ss]? = types[ss]? ∧ data1.m_targets[ss]? = data.m_targets[ss]? ∧
      ∀ f, entry data1.m_values f ss = entry data.m_values f ss) ∧
    data1.m_costs = data.m_costs ∧ types1.length = types.length ∧
    shape data1.m_targets = shape data.m_targets ∧
    shape data1.m_values = shape data.m_values := by
  unfold Sampler.th_map at h
  by_cases hge : srange.1 ≥ srange.2
  · rw [if_pos hge] at h
    simp only [Option.some.injEq, Prod.mk.injEq] at h
    obtain ⟨rfl, rfl⟩ := h
    exact ⟨fun _ _ => ⟨rfl, rfl, fun _ => rfl⟩, rfl, rfl, rfl, rfl⟩
  · rw [if_neg hge] at h
    cases hid : samples[srange.1]? with
    | none => simp [hid] at h
    | some id =>
      simp only [hid] at h
      cases hb : S.m_ipsbegins[S.sample2image id]? with
      | none => simp [hb] at h
      | some s =>
        simp only [hb] at h
        cases hw : th_map_walk S model srange samples (S.m_ipscales.drop (S.sample2image id))
            { s := s, ss := srange.1, types := types, data := data } with
        | none => simp [hw] at h
        | some st =>
          simp only [hw, Option.some.injEq, Prod.mk.injEq] at h
          obtain ⟨rfl, rfl⟩ := h
          have hf := th_map_walk_frame S model srange samples _ _ _ hw
          exact ⟨fun ss hss => hf.same ss hss, hf.costs, hf.types_length, hf.targets_shape,
            hf.values_shape⟩

/-! ## Mapping fills its slice -/

theorem sorted_lt_get (samples : List Nat) (h : samples.Sorted (fun a b => a < b))
    (i j a b : Nat) (hij : i < j) (hi : samples[i]? = some a) (hj : samples[j]? = some b) :
    a < b := by
  obtain ⟨h1, rfl⟩ := List.getElem?_eq_some.mp hi
  obtain ⟨h2, rfl⟩ := List.getElem?_eq_some.mp hj
  exact List.pairwise_iff_getElem.mp h i j h1 h2 hij

theorem row_eq_of_entries (m : List (List ℚ)) (i n : Nat) (row : List ℚ)
    (hs : (shape m)[i]? = some n) (hl : row.length = n)
    (he : ∀ o, o < n → entry m i o = row[o]?) : m[i]? = some row := by
  unfold shape at hs
  rw [List.getElem?_map] at hs
  cases hrow : m[i]? with
  | none => simp [hrow] at hs
  | some r =>
    simp only [hrow, Option.map_some', Option.some.injEq] at hs
    congr 1
    apply List.ext_getElem?
    intro o
    by_cases ho : o < n
    · have := he o ho
      unfold entry at this
      simpa [hrow] using this
    · rw [List.getElem?_eq_none (by omega), List.getElem?_eq_none (by omega)]

theorem filled_persists (S : Sampler G) (model : Model) (samples : List Nat) (j : Nat)
    (types types1 : List Nat) (data data1 : DataSet)
    (hf : FilledAt S model samples j types data) (hs : SameAt j types data types1 data1) :
    FilledAt S model samples j types1 data1 := by
  obtain ⟨id, iw, h1, h2, h3, h4, h5⟩ := hf
  exact ⟨id, iw, h1, h2, hs.1.trans h3, hs.2.1.trans h4, fun f hf => (hs.2.2 f).trans (h5 f hf)⟩

theorem filled_between_trans (S : Sampler G) (model : Model) (samples : List Nat) (b : Nat)
    (st st1 st2 : MapWalk) (h1 : FilledBetween S model samples st st1)
    (h2 : FilledBetween S model samples st1 st2) (hf : Frame b st1 st2) :
    FilledBetween S model samples st st2 := by
  intro j hj1 hj2
  by_cases hlt : j < st1.ss
  · exact filled_persists S model samples j _ _ _ _ (h1 j hj1 hlt) (hf.same j (Or.inl hlt))
  · exact h2 j (by omega) hj2

theorem th_map_window_spec (S : Sampler G) (model : Model) (srange : Nat × Nat)
    (samples : List Nat) (hb : srange.2 ≤ samples.length)
    (hsorted : samples.Sorted (fun a b => a < b)) (st : MapWalk)
    (hinv : MapInv S model srange samples st) (iw : ipscale_t × Window)
    (hiw : S.info[st.s]? = some iw) (hout : iw.2.targets.length = S.m_n_outputs) :
    ∃ st1, th_map_window S model srange samples iw.1 iw.2.x iw.2.y iw.2.targets iw.2.type st
        = some st1 ∧ st1.s = st.s + 1 ∧ MapInv S model srange samples st1 ∧
      FilledBetween S model samples st st1 := by
  unfold th_map_window
  by_cases h1 : st.ss < srange.2
  · rw [if_pos h1]
    have hss : st.ss < samples.length := by omega
    rw [List.getElem?_eq_getElem hss]
    simp only
    by_cases h2 : st.s = samples[st.ss]
    · rw [if_pos h2, if_pos (by rw [hinv.types_length]; exact hss)]
      have hshape_t : (shape st.data.m_targets)[st.ss]? = some S.m_n_outputs := by
        rw [hinv.targets_shape, List.getElem?_replicate, if_pos hss]
      obtain ⟨mt, hmt⟩ : ∃ mt, map_targets S.m_n_outputs iw.2.targets st.ss st.data.m_targets
          = some mt := by
        rw [map_targets_eq]
        apply write_fold_some
        intro t ht
        refine ⟨?_, S.m_n_outputs, hshape_t, ht⟩
        rw [List.getElem?_eq_getElem (by omega)]
        simp
      obtain ⟨mv, hmv⟩ : ∃ mv, map_values model iw.1 iw.2.x iw.2.y st.ss st.data.m_values
          = some mv := by
        rw [map_values_eq]
        apply write_fold_some
        intro t ht
        refine ⟨by simp, samples.length, ?_, hss⟩
        rw [hinv.values_shape, List.getElem?_replicate, if_pos ht]
      obtain ⟨t1, t2, t3⟩ := map_targets_spec _ _ _ _ _ hmt
      obtain ⟨v1, v2, v3⟩ := map_values_spec _ _ _ _ _ _ _ hmv
      simp only [hmt, hmv]
      refine ⟨_, rfl, rfl, ⟨?_, ?_, ?_, ?_, ?_, ?_⟩, ?_⟩
      · simp only
        have := hinv.ss_ge
        omega
      · simp only
        omega
      · intro id _ hid
        simp only at hid ⊢
        have := sorted_lt_get samples hsorted st.ss (st.ss + 1) _ id (by omega)
          (List.getElem?_eq_getElem hss) hid
        omega
      · simp only [List.length_set]
        exact hinv.types_length
      · simp only
        rw [t1]
        exact hinv.targets_shape
      · simp only
        rw [v1]
        exact hinv.values_shape
      · intro j hj1 hj2
        simp only at hj2
        have hj : j = st.ss := by omega
        subst hj
        refine ⟨samples[st.ss], iw, List.getElem?_eq_getElem hss, by rw [← h2]; exact hiw,
          ?_, ?_, fun f hf => v3 f hf⟩
        · simp only [List.getElem?_set, if_true]
          rw [if_pos (by rw [hinv.types_length]; exact hss)]
        · simp only
          exact row_eq_of_entries mt st.ss S.m_n_outputs iw.2.targets
            (by rw [t1]; exact hshape_t) hout (fun o ho => t3 o ho)
    · rw [if_neg h2]
      refine ⟨_, rfl, rfl, ⟨hinv.ss_ge, hinv.ss_le, fun id hlt hid => ?_, hinv.types_length,
        hinv.targets_shape, hinv.values_shape⟩, fun j hj1 hj2 => ?_⟩
      · simp only at hid ⊢
        have := hinv.ahead id hlt hid
        rw [List.getElem?_eq_getElem hss, Option.some.injEq] at hid
        omega
      · simp only at hj2
        omega
  · rw [if_neg h1]
    refine ⟨_, rfl, rfl, ⟨hinv.ss_ge, hinv.ss_le, fun id hlt _ => absurd hlt h1,
      hinv.types_length, hinv.targets_shape, hinv.values_shape⟩, fun j hj1 hj2 => ?_⟩
    simp only at hj2
    omega

theorem th_map_positions_spec (S : Sampler G) (model : Model) (srange : Nat × Nat)
    (samples : List Nat) (hb : srange.2 ≤ samples.length)
    (hsorted : samples.Sorted (fun a b => a < b))
    (houts : ∀ iw ∈ S.info, iw.2.targets.length = S.m_n_outputs) (ip : ipscale_t) :
    ∀ (ps : List (Int × Int)) (st : MapWalk), MapInv S model srange samples st →
      (∀ k w, (tagged S.m_tagger ip ps)[k]? = some w → S.info[st.s + k]? = some (ip, w)) →
      ∃ st1, ps.foldlM (th_map_position S model srange samples ip) st = some st1 ∧
        st1.s = st.s + (tagged S.m_tagger ip ps).length ∧
        MapInv S model srange samples st1 ∧ FilledBetween S model samples st st1
  | [], st, hinv, _ => ⟨st, rfl, rfl, hinv, fun j h1 h2 => by omega⟩
  | p :: ps, st, hinv, hcor => by
    rw [List.foldlM_cons]
    cases hc : S.m_tagger.check ip p.1 p.2 with
    | none =>
      have htag : tagged S.m_tagger ip (p :: ps) = tagged S.m_tagger ip ps := by
        simp [tagged, hc]
      rw [htag] at hcor ⊢
      simp only [th_map_position, hc, Option.some_bind]
      exact th_map_positions_spec S model srange samples hb hsorted houts ip ps st hinv hcor
    | some r =>
      have htag : tagged S.m_tagger ip (p :: ps) =
          Window.mk p.1 p.2 r.1 r.2 :: tagged S.m_tagger ip ps := by simp [tagged, hc]
      rw [htag] at hcor ⊢
      have hiw : S.info[st.s]? = some (ip, Window.mk p.1 p.2 r.1 r.2) := by
        have := hcor 0 (Window.mk p.1 p.2 r.1 r.2) (by simp)
        simpa using this
      obtain ⟨st0, e1, e2, e3, e4⟩ := th_map_window_spec S model srange samples hb hsorted st
        hinv (ip, Window.mk p.1 p.2 r.1 r.2) hiw (houts _ (List.getElem?_mem hiw))
      have hstep : th_map_position S model srange samples ip st p = some st0 := by
        unfold th_map_position
        rw [hc]
        exact e1
      obtain ⟨st1, f1, f2, f3, f4⟩ := th_map_positions_spec S model srange samples hb hsorted
        houts ip ps st0 e3 (fun k w hk => by
          have := hcor (k + 1) w (by simpa using hk)
          rw [e2]
          rw [show st.s + 1 + k = st.s + (k + 1) by omega]
          exact this)
      refine ⟨st1, by rw [hstep]; exact f1, by rw [f2, e2, List.length_cons]; omega, f3, ?_⟩
      exact filled_between_trans S model samples srange.2 st st0 st1 e4 f4
        (th_map_positions_frame S model srange samples ip ps st0 st1 f1)

theorem th_map_walk_spec (S : Sampler G) (model : Model) (srange : Nat × Nat)
    (samples : List Nat) (hb : srange.2 ≤ samples.length)
    (hsorted : samples.Sorted (fun a b => a < b))
    (houts : ∀ iw ∈ S.info, iw.2.targets.length = S.m_n_outputs) :
    ∀ (ips : List ipscale_t) (bs es : List Nat) (n : Nat) (st : MapWalk),
      table_from S.m_tagger st.s ips bs es n → MapInv S model srange samples st →
      (∀ k iw, (ips.flatMap (scale_info S.m_tagger))[k]? = some iw →
        S.info[st.s + k]? = some iw) →
      ∃ st1, th_map_walk S model srange samples ips st = some st1 ∧
        MapInv S model srange samples st1 ∧ FilledBetween S model samples st st1 ∧
        (st1.ss = srange.2 ∨ st1.s = st.s + (ips.flatMap (scale_info S.m_tagger)).length)
  | [], _, _, _, st, _, hinv, _ =>
    ⟨st, rfl, hinv, fun j h1 h2 => by omega, Or.inr (by simp)⟩
  | ip :: ips, [], _, _, _, h, _, _ => by simp [table_from] at h
  | ip :: ips, _ :: _, [], _, _, h, _, _ => by simp [table_from] at h
  | ip :: ips, b :: bs, e :: es, n, st, h, hinv, hcor => by
    simp only [table_from] at h
    obtain ⟨_, hs, _, he, htab⟩ := h
    unfold th_map_walk
    by_cases hlt : st.ss < srange.2
    · rw [if_pos hlt]
      obtain ⟨ps, hps⟩ := Option.isSome_iff_exists.mp hs
      have hw : scale_windows S.m_tagger ip = tagged S.m_tagger ip ps := by
        simp [scale_windows, hps]
      have hlen : (scale_info S.m_tagger ip).length = (scale_windows S.m_tagger ip).length := by
        simp [scale_info]
      obtain ⟨st0, e1, e2, e3, e4⟩ := th_map_positions_spec S model srange samples hb hsorted
        houts ip ps st hinv (fun k w hk => by
          apply hcor k (ip, w)
          rw [List.flatMap_cons, List.getElem?_append_left (by
            rw [hlen, hw]
            by_contra hcon
            rw [List.getElem?_eq_none (by omega)] at hk
            cases hk)]
          simp [scale_info, hw, hk])
      have hscale : th_map_scale S model srange samples st ip = some st0 := by
        unfold th_map_scale
        simp only [hps]
        exact e1
      have htab0 : table_from S.m_tagger st0.s ips bs es n := by
        rw [e2, ← hw, ← he]
        exact htab
      obtain ⟨st1, f1, f2, f3, f4⟩ := th_map_walk_spec S model srange samples hb hsorted houts
        ips bs es n st0 htab0 e3 (fun k iw hk => by
          have := hcor ((scale_info S.m_tagger ip).length + k) iw (by
            rw [List.flatMap_cons, List.getElem?_append_right (by omega)]
            rw [Nat.add_sub_cancel_left]
            exact hk)
          rw [e2, ← hw, ← hlen, Nat.add_assoc]
          exact this)
      refine ⟨st1, by simp only [hscale]; exact f1, f2, ?_, ?_⟩
      · exact filled_between_trans S model samples srange.2 st st0 st1 e4 f3
          (th_map_walk_frame S model srange samples ips st0 st1 f1)
      · rcases f4 with f4 | f4
        · exact Or.inl f4
        · right
          rw [f4, e2, List.flatMap_cons, List.length_append, hlen, hw]
          omega
    · rw [if_neg hlt]
      have := hinv.ss_le
      exact ⟨st, rfl, hinv, fun j h1 h2 => by omega, Or.inl (by omega)⟩

theorem th_map_spec (S : Sampler G) (hr : Ready S)
    (houts : ∀ iw ∈ S.info, iw.2.targets.length = S.m_n_outputs) (model : Model)
    (srange : Nat × Nat) (samples : List Nat) (types : List Nat) (data : DataSet)
    (hlt : srange.1 < srange.2) (hb : srange.2 ≤ samples.length)
    (hsorted : samples.Sorted (fun a b => a < b))
    (hids : ∀ id ∈ samples, id < S.m_n_samples)
    (htypes : types.length = samples.length)
    (htargets : shape data.m_targets = List.replicate samples.length S.m_n_outputs)
    (hvalues : shape data.m_values = List.replicate model.n_features samples.length) :
    ∃ types1 data1, S.th_map srange samples model types data = some (types1, data1) ∧
      ∀ j, srange.1 ≤ j → j < srange.2 → FilledAt S model samples j types1 data1 := by
  unfold Sampler.th_map
  rw [if_neg (by omega)]
  have ha : srange.1 < samples.length := by omega
  rw [List.getElem?_eq_getElem ha]
  simp only
  have hid0 : samples[srange.1] < S.m_n_samples := hids _ (List.getElem_mem _)
  have hfacts := table_from_facts _ _ _ _ _ _ hr.table
  obtain ⟨hi0, hb0, _⟩ := (sample2image_facts S hfacts samples[srange.1]).1 hid0
  unfold Sampler.n_images at hi0
  have hbl : S.sample2image samples[srange.1] < S.m_ipsbegins.length := by
    rw [hfacts.begins_length]
    exact hi0
  have hbget : S.m_ipsbegins[S.sample2image samples[srange.1]]? =
      some (S.m_ipsbegins.getD (S.sample2image samples[srange.1]) 0) := by
    simp [List.getD_eq_getElem?_getD, List.getElem?_eq_getElem hbl]
  obtain ⟨hdrop, hs0⟩ := table_from_drop _ _ _ _ _ _ _ hr.table hi0
  simp only [zero_add] at hs0
  have hsplit : S.info =
      (S.m_ipscales.take (S.sample2image samples[srange.1])).flatMap (scale_info S.m_tagger) ++
      (S.m_ipscales.drop (S.sample2image samples[srange.1])).flatMap (scale_info S.m_tagger) := by
    unfold Sampler.info
    rw [← List.flatMap_append, List.take_append_drop]
  have hlen : S.info.length = S.m_n_samples := by
    rw [info_length]
    exact ready_windows_length hr
  have hlen2 := congrArg List.length hsplit
  rw [List.length_append, scale_info_length, scale_info_length] at hlen2
  have hinv0 : MapInv S model srange samples
      { s := S.m_ipsbegins.getD (S.sample2image samples[srange.1]) 0, ss := srange.1,
        types := types, data := data } := by
    refine ⟨le_rfl, by simp only; omega, fun id _ hid => ?_, htypes, htargets, hvalues⟩
    simp only at hid ⊢
    rw [List.getElem?_eq_getElem ha, Option.some.injEq] at hid
    omega
  obtain ⟨st1, e1, e2, e3, e4⟩ := th_map_walk_spec S model srange samples hb hsorted houts _ _ _ _
    _ hdrop hinv0 (fun k iw hk => by
      simp only
      rw [hsplit, List.getElem?_append_right (by rw [scale_info_length]; omega)]
      rw [show S.m_ipsbegins.getD (S.sample2image samples[srange.1]) 0 + k -
        ((S.m_ipscales.take (S.sample2image samples[srange.1])).flatMap
          (scale_info S.m_tagger)).length = k by rw [scale_info_length]; omega]
      exact hk)
  simp only [hbget, e1]
  refine ⟨st1.types, st1.data, rfl, fun j hj1 hj2 => ?_⟩
  have hss : st1.ss = srange.2 := by
    rcases e4 with h | h
    · exact h
    · by_contra hne
      have hlt2 : st1.ss < srange.2 := lt_of_le_of_ne e2.ss_le hne
      have hin : st1.ss < samples.length := by omega
      have h1 := e2.ahead samples[st1.ss] hlt2 (List.getElem?_eq_getElem hin)
      have h2 : samples[st1.ss] < S.m_n_samples := hids _ (List.getElem_mem _)
      simp only at h
      rw [scale_info_length] at h
      omega
  exact e3 j hj1 (by rw [hss]; exact hj2)

theorem tagged_outputs (tg : Tagger) (h : tagger_outputs tg) (ip : ipscale_t)
    (ps : List (Int × Int)) : ∀ w ∈ tagged tg ip ps, w.targets.length = tg.n_outputs := by
  intro w hw
  simp only [tagged, List.mem_filterMap, Option.map_eq_some'] at hw
  obtain ⟨p, _, r, hr, rfl⟩ := hw
  exact h ip p.1 p.2 r hr

theorem loaded_outputs (E : Ext G) (param : param_t) (ifiles gfiles : List String)
    (S : Sampler G) (h : Sampler.load E (Sampler.init E param) ifiles gfiles = some S)
    (houts : tagger_outputs (E.make_tagger param)) :
    ∀ iw ∈ S.info, iw.2.targets.length = S.m_n_outputs := by
  have hg := load_grows E ifiles gfiles _ S h
  intro iw hiw
  unfold Sampler.info at hiw
  obtain ⟨ip, _, hip⟩ := List.mem_flatMap.mp hiw
  unfold scale_info at hip
  obtain ⟨w, hw, rfl⟩ := List.mem_map.mp hip
  rw [hg.n_outputs, hg.tagger] at *
  exact tagged_outputs _ houts ip _ w hw

theorem ex_tagger_outputs : tagger_outputs ex_tagger := by
  intro ip x y r h
  simp only [ex_tagger] at h ⊢
  split_ifs at h <;> simp_all
  all_goals (subst h; simp)

/-- C14: mapping fills every example with its own sample. On a loaded sampler whose
tagger fills `n_outputs()` targets, for every strictly ascending id list `samples` with
all ids below `n_samples()`, every slice `[a, b)` of its positions and arrays of the
sizes set by `Sampler::map`, `Sampler::th_map` returns, and for every position `ss` of
the slice, with `(ip, w)` the accepted scan position number `samples[ss]` in load
order and its scaled image: `types[ss]` is the tagger type of `w`, the target row `ss`
is the tagger target vector of `w`, and the feature column `ss` holds, for every
feature `f`, the value `get(f, x, y)` of the model preprocessed for `ip` at the
position of `w`. -/
theorem th_map_fills (E : Ext G) (param : param_t) (ifiles gfiles : List String)
    (S : Sampler G) (hS : Sampler.load E (Sampler.init E param) ifiles gfiles = some S)
    (houts : tagger_outputs (E.make_tagger param)) (model : Model) (samples : List Nat)
    (hsorted : samples.Sorted (fun a b => a < b)) (hids : ∀ id ∈ samples, id < S.m_n_samples)
    (a b : Nat) (hb : b ≤ samples.length) (types : List Nat) (data : DataSet)
    (htypes : types.length = samples.length)
    (htargets : shape data.m_targets = List.replicate samples.length S.m_n_outputs)
    (hvalues : shape data.m_values = List.replicate model.n_features samples.length) :
    ∃ types1 data1, S.th_map (a, b) samples model types data = some (types1, data1) ∧
      ∀ ss, a ≤ ss → ss < b →
        ∃ id iw, samples[ss]? = some id ∧ S.info[id]? = some iw ∧
          types1[ss]? = some iw.2.type ∧ data1.m_targets[ss]? = some iw.2.targets ∧
          ∀ f, f < model.n_features →
            entry data1.m_values f ss = some (model.get iw.1 f iw.2.x iw.2.y) := by
  obtain ⟨_, h2, _⟩ := loaded_type_vectors E param ifiles gfiles S hS
  have hr : Ready S := loaded_ready E param ifiles gfiles S hS S.m_sprobs S.m_rgens h2
  by_cases hab : a < b
  · exact th_map_spec S hr (loaded_outputs E param ifiles gfiles S hS houts) model (a, b)
      samples types data hab hb hsorted hids htypes htargets hvalues
  · refine ⟨types, data, ?_, fun ss h1 h2 => by omega⟩
    unfold Sampler.th_map
    rw [if_pos (by simp only; omega)]

theorem th_map_fills_witness :
    Sampler.load ex_ext (Sampler.init ex_ext ex_param) ["a", "b", "c"] ["ga", "gb", "gc"] =
      some ex_sampler ∧
    tagger_outputs (ex_ext.make_tagger ex_param) ∧
    [3, 7, 10].Sorted (fun a b => a < b) ∧ (∀ id ∈ [3, 7, 10], id < ex_sampler.m_n_samples) ∧
    3 ≤ [3, 7, 10].length ∧ [0, 0, 0].length = [3, 7, 10].length ∧
    shape ex_data.m_targets = List.replicate [3, 7, 10].length ex_sampler.m_n_outputs ∧
    shape ex_data.m_values = List.replicate ex_model.n_features [3, 7, 10].length ∧
    ∃ types1 data1, ex_sampler.th_map (1, 3) [3, 7, 10] ex_model [0, 0, 0] ex_data =
        some (types1, data1) ∧
      ∀ ss, 1 ≤ ss → ss < 3 →
        ∃ id iw, [3, 7, 10][ss]? = some id ∧ ex_sampler.info[id]? = some iw ∧
          types1[ss]? = some iw.2.type ∧ data1.m_targets[ss]? = some iw.2.targets ∧
          ∀ f, f < ex_model.n_features →
            entry data1.m_values f ss = some (ex_model.get iw.1 f iw.2.x iw.2.y) :=
  ⟨ex_load, ex_tagger_outputs, by decide, by decide, by decide, rfl, by decide, by decide,
    th_map_fills ex_ext ex_param _ _ ex_sampler ex_load ex_tagger_outputs ex_model [3, 7, 10]
      (by decide) (by decide) 1 3 (by decide) [0, 0, 0] ex_data rfl (by decide) (by decide)⟩

theorem ex_th_map :
    ∃ types1 data1, ex_sampler.th_map (1, 3) [3, 7, 10] ex_model [0, 0, 0] ex_data =
      some (types1, data1) := by
  have hr : Ready ex_sampler :=
    loaded_ready ex_ext ex_param _ _ ex_sampler ex_load ex_sampler.m_sprobs ex_sampler.m_rgens rfl
  obtain ⟨t1, d1, h, _⟩ := th_map_spec ex_sampler hr
    (loaded_outputs ex_ext ex_param _ _ ex_sampler ex_load ex_tagger_outputs) ex_model (1, 3)
    [3, 7, 10] [0, 0, 0] ex_data (by decide) (by decide) (by decide) (by decide) rfl
    (by decide) (by decide)
  exact ⟨t1, d1, h⟩

theorem th_map_frame_witness :
    ∃ types1 data1, ex_sampler.th_map (1, 3) [3, 7, 10] ex_model [0, 0, 0] ex_data =
        some (types1, data1) ∧
      ((∀ ss, (ss < 1 ∨ 3 ≤ ss) →
        types1[ss]? = [0, 0, 0][ss]? ∧ data1.m_targets[ss]? = ex_data.m_targets[ss]? ∧
        ∀ f, entry data1.m_values f ss = entry ex_data.m_values f ss) ∧
      data1.m_costs = ex_data.m_costs ∧ types1.length = [0, 0, 0].length ∧
      shape data1.m_targets = shape ex_data.m_targets ∧
      shape data1.m_values = shape ex_data.m_values) := by
  obtain ⟨t1, d1, h⟩ := ex_th_map
  exact ⟨t1, d1, h, th_map_frame ex_sampler (1, 3) [3, 7, 10] ex_model [0, 0, 0] ex_data t1 d1 h⟩

/-! ## The whole mapping -/

theorem map_threads_spec (S : Sampler G) (hr : Ready S)
    (houts : ∀ iw ∈ S.info, iw.2.targets.length = S.m_n_outputs) (model : Model)
    (samples : List Nat) (hsorted : samples.Sorted (fun a b => a < b))
    (hids : ∀ id ∈ samples, id < S.m_n_samples) :
    ∀ (ranges : List (Nat × Nat)) (a : Nat) (types : List Nat) (data : DataSet),
      contiguous_from a ranges samples.length →
      types.length = samples.length →
      shape data.m_targets = List.replicate samples.length S.m_n_outputs →
      shape data.m_values = List.replicate model.n_features samples.length →
      (∀ j, j < a → FilledAt S model samples j types data) →
      ∃ types1 data1,
        thread_loop_shared (fun srange st => S.th_map srange samples model st.1 st.2) ranges
          (types, data) = some (types1, data1) ∧
        Mapped S model samples types1 data1 ∧ data1.m_costs = data.m_costs
  | [], a, types, data, hc, h1, h2, h3, h4 => by
    simp only [contiguous_from] at hc
    subst hc
    exact ⟨types, data, rfl, ⟨h1, h2, h3, h4⟩, rfl⟩
  | r :: ranges, a, types, data, hc, h1, h2, h3, h4 => by
    simp only [contiguous_from] at hc
    obtain ⟨c1, c2, c3⟩ := hc
    have hle := contiguous_from_le ranges r.2 _ c3
    have hstep : ∃ t0 d0, S.th_map r samples model types data = some (t0, d0) ∧
        ∀ j, r.1 ≤ j → j < r.2 → FilledAt S model samples j t0 d0 := by
      by_cases hlt : r.1 < r.2
      · exact th_map_spec S hr houts model r samples types data hlt hle hsorted hids h1 h2 h3
      · refine ⟨types, data, ?_, fun j hj1 hj2 => by omega⟩
        unfold Sampler.th_map
        rw [if_pos (by omega)]
    obtain ⟨t0, d0, e1, e2⟩ := hstep
    obtain ⟨f1, f2, f3, f4, f5⟩ := th_map_same S r samples model types data t0 d0 e1
    obtain ⟨t1, d1, g1, g2, g3⟩ := map_threads_spec S hr houts model samples hsorted hids ranges
      r.2 t0 d0 c3 (by rw [f3, h1]) (by rw [f4, h2]) (by rw [f5, h3]) (fun j hj => by
        by_cases hja : j < r.1
        · have hs := f1 j (Or.inl hja)
          exact filled_persists S model samples j types t0 data d0 (h4 j (by omega))
            ⟨hs.1, hs.2.1, hs.2.2⟩
        · exact e2 j (by omega) hj)
    refine ⟨t1, d1, ?_, g2, by rw [g3, f2]⟩
    simp only [thread_loop_shared, e1]
    exact g1

theorem array_ext (m m1 : List (List ℚ)) (hs : shape m = shape m1)
    (he : ∀ i j n, (shape m)[i]? = some n → j < n → entry m i j = entry m1 i j) : m = m1 := by
  apply List.ext_getElem?
  intro i
  have hsi : (shape m)[i]? = (shape m1)[i]? := by rw [hs]
  unfold shape at hsi
  rw [List.getElem?_map, List.getElem?_map] at hsi
  cases hr : m[i]? with
  | none =>
    cases hr1 : m1[i]? with
    | none => rfl
    | some r1 => simp [hr, hr1] at hsi
  | some r =>
    cases hr1 : m1[i]? with
    | none => simp [hr, hr1] at hsi
    | some r1 =>
      simp only [hr, hr1, Option.map_some', Option.some.injEq] at hsi
      congr 1
      apply List.ext_getElem?
      intro j
      by_cases hj : j < r.length
      · have := he i j r.length (by unfold shape; rw [List.getElem?_map, hr]; rfl) hj
        unfold entry at this
        simpa [hr, hr1] using this
      · rw [List.getElem?_eq_none (by omega), List.getElem?_eq_none (by omega)]

theorem mapped_unique (S : Sampler G) (model : Model) (samples : List Nat)
    (types types1 : List Nat) (data data1 : DataSet)
    (h : Mapped S model samples types data) (h1 : Mapped S model samples types1 data1) :
    types = types1 ∧ data.m_targets = data1.m_targets ∧ data.m_values = data1.m_values := by
  have hfill : ∀ j, j < samples.length → ∃ iw : ipscale_t × Window,
      types[j]? = some iw.2.type ∧ types1[j]? = some iw.2.type ∧
      data.m_targets[j]? = some iw.2.targets ∧ data1.m_targets[j]? = some iw.2.targets ∧
      ∀ f, f < model.n_features → entry data.m_values f j = entry data1.m_values f j := by
    intro j hj
    obtain ⟨id, iw, a1, a2, a3, a4, a5⟩ := h.filled j hj
    obtain ⟨id1, iw1, b1, b2, b3, b4, b5⟩ := h1.filled j hj
    rw [a1, Option.some.injEq] at b1
    subst b1
    rw [a2, Option.some.injEq] at b2
    subst b2
    exact ⟨iw, a3, b3, a4, b4, fun f hf => by rw [a5 f hf, b5 f hf]⟩
  refine ⟨?_, ?_, ?_⟩
  · apply List.ext_getElem?
    intro j
    by_cases hj : j < samples.length
    · obtain ⟨iw, a, b, _⟩ := hfill j hj
      rw [a, b]
    · rw [List.getElem?_eq_none (by rw [h.types_length]; omega),
        List.getElem?_eq_none (by rw [h1.types_length]; omega)]
  · apply List.ext_getElem?
    intro j
    by_cases hj : j < samples.length
    · obtain ⟨iw, _, _, a, b, _⟩ := hfill j hj
      rw [a, b]
    · have l1 := congrArg List.length h.targets_shape
      have l2 := congrArg List.length h1.targets_shape
      simp only [shape, List.length_map, List.length_replicate] at l1 l2
      rw [List.getElem?_eq_none (by omega), List.getElem?_eq_none (by omega)]
  · apply array_ext
    · rw [h.values_shape, h1.values_shape]
    · intro f j n hn hjn
      rw [h.values_shape, List.getElem?_replicate] at hn
      by_cases hf : f < model.n_features
      · rw [if_pos hf, Option.some.injEq] at hn
        obtain ⟨iw, _, _, _, _, a⟩ := hfill j (by omega)
        exact a f hf
      · rw [if_neg hf] at hn
        cases hn

theorem unique_sorted (ids : List Nat) : (unique ids).Sorted (fun a b => a < b) :=
  Finset.sort_sorted_lt _

theorem unique_mem (ids : List Nat) (id : Nat) : id ∈ unique ids ↔ id ∈ ids := by
  unfold unique
  rw [Finset.mem_sort, List.mem_toFinset]

theorem unique_congr (ids1 ids2 : List Nat) (h : ∀ id, id ∈ ids1 ↔ id ∈ ids2) :
    unique ids1 = unique ids2 := by
  unfold unique
  congr 1
  ext id
  rw [List.mem_toFinset, List.mem_toFinset]
  exact h id

theorem unique_of_sorted (ids : List Nat) (h : ids.Sorted (fun a b => a < b)) :
    unique ids = ids := by
  unfold unique
  exact (List.toFinset_sort (fun a b => a ≤ b) h.nodup).mpr (h.imp (fun hab => Nat.le_of_lt hab))

theorem unique_length (ids : List Nat) : (unique ids).length = ids.toFinset.card :=
  Finset.length_sort _

theorem info_windows (S : Sampler G) : S.info.map Prod.snd = S.windows :=
  scale_info_snd S.m_tagger S.m_ipscales

theorem mapped_types (S : Sampler G) (model : Model) (samples : List Nat) (types : List Nat)
    (data : DataSet) (h : Mapped S model samples types data) (n : Nat)
    (hn : ∀ w ∈ S.windows, w.type < n) : ∀ ty ∈ types, ty < n := by
  intro ty hty
  obtain ⟨j, hj, rfl⟩ := List.getElem_of_mem hty
  obtain ⟨id, iw, _, a2, a3, _⟩ := h.filled j (by rw [← h.types_length]; exact hj)
  rw [List.getElem?_eq_getElem hj, Option.some.injEq] at a3
  rw [a3]
  apply hn
  rw [← info_windows]
  exact List.mem_map.mpr ⟨iw, List.getElem?_mem a2, rfl⟩

theorem shape_length (m : List (List ℚ)) (n k : Nat) (h : shape m = List.replicate n k) :
    m.length = n ∧ ∀ row ∈ m, row.length = k := by
  have hl := congrArg List.length h
  simp only [shape, List.length_map, List.length_replicate] at hl
  refine ⟨hl, fun row hrow => ?_⟩
  have : row.length ∈ shape m := List.mem_map.mpr ⟨row, hrow, rfl⟩
  rw [h] at this
  exact (List.mem_replicate.mp this).2

theorem map_spec (E : Ext G) (param : param_t) (ifiles gfiles : List String)
    (S : Sampler G) (hS : Sampler.load E (Sampler.init E param) ifiles gfiles = some S)
    (houts : tagger_outputs (E.make_tagger param)) (hres : resize_ok E)
    (model : Model) (ids : List Nat) (data : DataSet)
    (hsplit : contiguous_from 0 (E.thread_ranges (unique ids).length) (unique ids).length)
    (hids : ∀ id ∈ ids, id < S.m_n_samples) :
    ∃ types out, S.map E ids model data = some out ∧
      Mapped S model (unique ids) types out ∧ S.map_costs types = some out.m_costs ∧
      out.m_costs.length = (unique ids).length := by
  have hv := loaded_type_vectors E param ifiles gfiles S hS
  have hr : Ready S :=
    loaded_ready E param ifiles gfiles S hS S.m_sprobs S.m_rgens hv.2.1
  obtain ⟨r1, r2, r3⟩ := hres data S.m_n_outputs (unique ids).length model.n_features
    model.n_fvalues
  obtain ⟨t1, d1, e1, e2, e3⟩ := map_threads_spec S hr
    (loaded_outputs E param ifiles gfiles S hS houts) model (unique ids) (unique_sorted ids)
    (fun id hid => hids id ((unique_mem ids id).mp hid))
    (E.thread_ranges (unique ids).length) 0 (List.replicate (unique ids).length 0) _ hsplit
    (by simp) r1 r2 (fun j hj => by omega)
  have hty := mapped_types S model _ t1 d1 e2 S.m_n_types
    (loaded_windows E param ifiles gfiles S hS).2
  obtain ⟨costs, c1, c2, _⟩ := map_costs_spec S t1 hty
  have hlen : costs.length = d1.m_costs.length := by
    rw [c2, e2.types_length, e3, r3]
  refine ⟨t1, { d1 with m_costs := costs }, ?_, ⟨e2.types_length, e2.targets_shape,
    e2.values_shape, e2.filled⟩, c1, by rw [c2, e2.types_length]⟩
  unfold Sampler.map
  simp only [e1, c1, set_costs]
  rw [if_pos (by omega), List.drop_of_length_le (by omega), List.append_nil]

/-! ## Mapping depends on the set of ids -/

theorem ex_resize_ok : resize_ok ex_ext := by
  intro data n_outputs n_examples n_features n_fvalues
  simp [ex_ext, shape]

theorem ex_same_ids : ∀ id, id ∈ [7, 3, 3, 10] ↔ id ∈ [10, 7, 3] := by
  intro id
  simp only [List.mem_cons, List.mem_singleton, List.not_mem_nil, or_false]
  omega

/-- C13: `Sampler::map` depends only on the set of ids. On a loaded sampler whose tagger
fills `n_outputs()` targets, with a `resize` that sets the array sizes and thread
ranges that split the positions of the distinct ids, for all id lists `ids1` and
`ids2` below `n_samples()` with the same elements (in any order, with any
multiplicities) and all data sets `data1` and `data2`: `unique` returns the same list
for both, and returns `ids1` itself when `ids1` is strictly ascending; both calls of
`map` return; their target, value and cost arrays are identical; and the arrays have
exactly as many examples as there are distinct ids. Taking `ids2 = ids1` gives the
same arrays for two mappings of one list. -/
theorem map_depends_on_id_set (E : Ext G) (param : param_t) (ifiles gfiles : List String)
    (S : Sampler G) (hS : Sampler.load E (Sampler.init E param) ifiles gfiles = some S)
    (houts : tagger_outputs (E.make_tagger param)) (hres : resize_ok E)
    (model : Model) (ids1 ids2 : List Nat) (data1 data2 : DataSet)
    (hsplit : contiguous_from 0 (E.thread_ranges ids1.toFinset.card) ids1.toFinset.card)
    (hids : ∀ id ∈ ids1, id < S.m_n_samples)
    (hset : ∀ id, id ∈ ids1 ↔ id ∈ ids2) :
    unique ids1 = unique ids2 ∧
    (ids1.Sorted (fun a b => a < b) → unique ids1 = ids1) ∧
    ∃ out1 out2, S.map E ids1 model data1 = some out1 ∧ S.map E ids2 model data2 = some out2 ∧
      out1.m_targets = out2.m_targets ∧ out1.m_values = out2.m_values ∧
      out1.m_costs = out2.m_costs ∧
      out1.m_targets.length = ids1.toFinset.card ∧
      (∀ row ∈ out1.m_values, row.length = ids1.toFinset.card) ∧
      out1.m_costs.length = ids1.toFinset.card := by
  have hu := unique_congr ids1 ids2 hset
  have hsplit1 : contiguous_from 0 (E.thread_ranges (unique ids1).length)
      (unique ids1).length := by
    rw [unique_length]
    exact hsplit
  obtain ⟨t1, o1, a1, a2, a3, a4⟩ := map_spec E param ifiles gfiles S hS houts hres model ids1
    data1 hsplit1 hids
  obtain ⟨t2, o2, b1, b2, b3, _⟩ := map_spec E param ifiles gfiles S hS houts hres model ids2
    data2 (by rw [← hu]; exact hsplit1) (fun id hid => hids id ((hset id).mpr hid))
  rw [← hu] at b2
  obtain ⟨e1, e2, e3⟩ := mapped_unique S model (unique ids1) t1 t2 o1 o2 a2 b2
  refine ⟨hu, unique_of_sorted ids1, o1, o2, a1, b1, e2, e3, ?_, ?_, ?_, ?_⟩
  · rw [e1, b3, Option.some.injEq] at a3
    exact a3.symm
  · rw [← unique_length]
    exact (shape_length _ _ _ a2.targets_shape).1
  · rw [← unique_length]
    exact (shape_length _ _ _ a2.values_shape).2
  · rw [a4, unique_length]

theorem map_depends_on_id_set_witness :
    Sampler.load ex_ext (Sampler.init ex_ext ex_param) ["a", "b", "c"] ["ga", "gb", "gc"] =
      some ex_sampler ∧
    tagger_outputs (ex_ext.make_tagger ex_param) ∧ resize_ok ex_ext ∧
    contiguous_from 0 (ex_ext.thread_ranges [7, 3, 3, 10].toFinset.card)
      [7, 3, 3, 10].toFinset.card ∧
    (∀ id ∈ [7, 3, 3, 10], id < ex_sampler.m_n_samples) ∧
    (∀ id, id ∈ [7, 3, 3, 10] ↔ id ∈ [10, 7, 3]) ∧
    unique [7, 3, 3, 10] = unique [10, 7, 3] ∧
    ([7, 3, 3, 10].Sorted (fun a b => a < b) → unique [7, 3, 3, 10] = [7, 3, 3, 10]) ∧
    ∃ out1 out2, ex_sampler.map ex_ext [7, 3, 3, 10] ex_model ex_data = some out1 ∧
      ex_sampler.map ex_ext [10, 7, 3] ex_model (DataSet.mk [] [] []) = some out2 ∧
      out1.m_targets = out2.m_targets ∧ out1.m_values = out2.m_values ∧
      out1.m_costs = out2.m_costs ∧
      out1.m_targets.length = [7, 3, 3, 10].toFinset.card ∧
      (∀ row ∈ out1.m_values, row.length = [7, 3, 3, 10].toFinset.card) ∧
      out1.m_costs.length = [7, 3, 3, 10].toFinset.card :=
  ⟨ex_load, ex_tagger_outputs, ex_resize_ok, ⟨rfl, by decide, rfl, by decide, rfl⟩, by decide,
    ex_same_ids,
    map_depends_on_id_set ex_ext ex_param _ _ ex_sampler ex_load ex_tagger_outputs ex_resize_ok
      ex_model [7, 3, 3, 10] [10, 7, 3] ex_data (DataSet.mk [] [] [])
      ⟨rfl, by decide, rfl, by decide, rfl⟩ (by decide) ex_same_ids⟩

/-! ## The sentinel of sample2image -/

theorem th_map_sentinel (S : Sampler G)
    (hf : RangeFacts S.m_tagger 0 S.m_ipscales S.m_ipsbegins S.m_ipsends S.m_n_samples)
    (srange : Nat × Nat) (samples : List Nat) (model : Model) (types : List Nat)
    (data : DataSet) (id : Nat) (hr : srange.1 < srange.2)
    (hid : samples[srange.1]? = some id) (hbig : S.m_n_samples ≤ id) :
    S.m_ipsbegins[S.sample2image id]? = none ∧
    S.th_map srange samples model types data = none := by
  have h2 := (sample2image_facts S hf id).2 hbig
  have h3 : S.m_ipsbegins[S.sample2image id]? = none := by
    rw [h2, List.getElem?_eq_none]
    rw [hf.begins_length]
    exact le_refl _
  refine ⟨h3, ?_⟩
  unfold Sampler.th_map
  rw [if_neg (by omega)]
  simp only [hid, h3]

theorem map_threads_fault (S : Sampler G)
    (hf : RangeFacts S.m_tagger 0 S.m_ipscales S.m_ipsbegins S.m_ipsends S.m_n_samples)
    (model : Model) (samples : List Nat) (hbig : ∀ id ∈ samples, S.m_n_samples ≤ id) :
    ∀ (ranges : List (Nat × Nat)) (a : Nat) (st : List Nat × DataSet),
      contiguous_from a ranges samples.length → a < samples.length →
      thread_loop_shared (fun srange st => S.th_map srange samples model st.1 st.2) ranges st =
        none
  | [], a, st, hc, ha => by
    simp only [contiguous_from] at hc
    omega
  | r :: ranges, a, st, hc, ha => by
    simp only [contiguous_from] at hc
    obtain ⟨c1, c2, c3⟩ := hc
    by_cases hlt : r.1 < r.2
    · obtain ⟨id, hid⟩ : ∃ id, samples[r.1]? = some id :=
        ⟨_, List.getElem?_eq_getElem (by omega)⟩
      have := (th_map_sentinel S hf r samples model st.1 st.2 id hlt hid
        (hbig id (List.getElem?_mem hid))).2
      simp only [thread_loop_shared, this]
    · have he : S.th_map r samples model st.1 st.2 = some (st.1, st.2) := by
        unfold Sampler.th_map
        rw [if_pos (by omega)]
      simp only [thread_loop_shared, he]
      exact map_threads_fault S hf model samples hbig ranges r.2 _ c3 (by omega)

/-- C17 (code bug): `Sampler::th_map` uses the "no image" result of `sample2image` as
an index. On a loaded sampler, for every non-empty slice of an id list whose first id
is `>= n_samples()`, the loop header computes `i = sample2image(samples[ss])`, which is
`n_images()`, and then reads `s = m_ipsbegins[i]` before the test `i < n_images()`:
the index equals the size of `m_ipsbegins`, the read is outside the partition table,
and the embedding of `th_map` faults (`none`). So `Sampler::map` faults on every
non-empty id list whose ids are all `>= n_samples()`, whatever contiguous split of the
positions the threads get. -/
theorem th_map_indexes_sentinel (E : Ext G) (param : param_t) (ifiles gfiles : List String)
    (S : Sampler G) (hS : Sampler.load E (Sampler.init E param) ifiles gfiles = some S)
    (model : Model) :
    (∀ (srange : Nat × Nat) (samples types : List Nat) (data : DataSet) (id : Nat),
      srange.1 < srange.2 → samples[srange.1]? = some id → S.m_n_samples ≤ id →
      S.sample2image id = S.n_images ∧ S.m_ipsbegins.length = S.n_images ∧
      S.m_ipsbegins[S.sample2image id]? = none ∧
      S.th_map srange samples model types data = none) ∧
    (∀ (ids : List Nat) (data : DataSet), ids ≠ [] → (∀ id ∈ ids, S.m_n_samples ≤ id) →
      contiguous_from 0 (E.thread_ranges (unique ids).length) (unique ids).length →
      S.map E ids model data = none) := by
  have hf := loaded_table E param ifiles gfiles S hS
  refine ⟨fun srange samples types data id hr hid hbig => ?_, fun ids data hne hbig hsplit => ?_⟩
  · obtain ⟨h1, h2⟩ := th_map_sentinel S hf srange samples model types data id hr hid hbig
    exact ⟨(sample2image_facts S hf id).2 hbig, hf.begins_length, h1, h2⟩
  · have hpos : 0 < (unique ids).length := by
      obtain ⟨id, hid⟩ := List.exists_mem_of_ne_nil ids hne
      exact List.length_pos_of_mem ((unique_mem ids id).mpr hid)
    have := map_threads_fault S hf model (unique ids)
      (fun id hid => hbig id ((unique_mem ids id).mp hid)) _ 0
      (List.replicate (unique ids).length 0,
        E.dataset_resize data S.m_n_outputs (unique ids).length model.n_features model.n_fvalues)
      hsplit hpos
    unfold Sampler.map
    simp only [this]

theorem th_map_indexes_sentinel_witness :
    Sampler.load ex_ext (Sampler.init ex_ext ex_param) ["a", "b", "c"] ["ga", "gb", "gc"] =
      some ex_sampler ∧
    ex_sampler.m_n_samples = 12 ∧ ex_sampler.n_images = 3 ∧
    ex_sampler.sample2image 12 = 3 ∧ ex_sampler.m_ipsbegins[3]? = none ∧
    ex_sampler.th_map (0, 1) [12] ex_model [0] ex_data = none ∧
    ex_sampler.map ex_ext [12] ex_model ex_data = none :=
  ⟨ex_load, rfl, rfl, by decide, rfl,
    ((th_map_indexes_sentinel ex_ext ex_param _ _ ex_sampler ex_load ex_model).1 (0, 1) [12] [0]
      ex_data 12 (by decide) rfl (by decide)).2.2.2,
    (th_map_indexes_sentinel ex_ext ex_param _ _ ex_sampler ex_load ex_model).2 [12] ex_data
      (by decide) (by decide) ⟨rfl, Nat.zero_le _, rfl, Nat.div_le_self _ _, rfl⟩⟩

/-! ## Determinism of uniform sampling -/

theorem load_scale_with_loss (S : Sampler G) (l : Loss) (o : Nat) (ip : ipscale_t) :
    load_scale (S.with_loss l o) ip = (load_scale S ip).map (fun T => T.with_loss l o) := by
  unfold load_scale
  cases scan_positions ip with
  | none => rfl
  | some ps =>
    simp only
    have ht : (S.with_loss l o).m_tagger = S.m_tagger := rfl
    have hc : (S.with_loss l o).m_tcounts = S.m_tcounts := rfl
    rw [ht, hc]
    cases ps.foldlM (load_position S.m_tagger ip) (S.m_tcounts, 0) with
    | none => rfl
    | some r =>
      obtain ⟨tcounts, k⟩ := r
      simp only
      split_ifs <;> rfl

theorem load_scales_with_loss (l : Loss) (o : Nat) : ∀ (scales : List ipscale_t)
    (S : Sampler G), scales.foldlM load_scale (S.with_loss l o) =
      (scales.foldlM load_scale S).map (fun T => T.with_loss l o)
  | [], S => rfl
  | ip :: scales, S => by
    rw [List.foldlM_cons, List.foldlM_cons, load_scale_with_loss]
    cases load_scale S ip with
    | none => rfl
    | some T => exact load_scales_with_loss l o scales T

theorem load_with_loss (E1 E2 : Ext G) (hp : E2.ipyramid_load = E1.ipyramid_load) (l : Loss)
    (o : Nat) : ∀ (ifiles gfiles : List String) (S : Sampler G),
      Sampler.load E2 (S.with_loss l o) ifiles gfiles =
        (Sampler.load E1 S ifiles gfiles).map (fun T => T.with_loss l o)
  | [], _, S => by simp [Sampler.load]
  | _ :: _, [], S => by simp [Sampler.load]
  | i :: ifiles, g :: gfiles, S => by
    have hi : load_image E2 (S.with_loss l o) i g =
        (load_image E1 S i g).map (fun T => T.with_loss l o) := by
      unfold load_image
      rw [hp]
      cases E1.ipyramid_load i g with
      | none => rfl
      | some scales => exact load_scales_with_loss l o scales S
    simp only [Sampler.load, hi]
    cases load_image E1 S i g with
    | none => rfl
    | some T => exact load_with_loss E1 E2 hp l o ifiles gfiles T

theorem new_with_loss (E1 E2 : Ext G) (param : param_t) (type : SamplerType)
    (h : SameRun E1 E2 param) :
    Sampler.new E2 param type = (Sampler.new E1 param type).map
      (fun T => T.with_loss (E2.make_loss param) T.m_n_outputs) := by
  have hinit : Sampler.init E2 param =
      (Sampler.init E1 param).with_loss (E2.make_loss param) (E1.make_tagger param).n_outputs := by
    simp only [Sampler.init, Sampler.with_loss, h.tagger, h.n_threads, h.seed]
  have hfiles : Sampler.listfiles E2 param type = Sampler.listfiles E1 param type := by
    simp only [Sampler.listfiles, h.listfiles]
  unfold Sampler.new
  rw [hinit, hfiles, load_with_loss E1 E2 h.pyramids]
  cases hl : Sampler.load E1 (Sampler.init E1 param) (Sampler.listfiles E1 param type).1
      (Sampler.listfiles E1 param type).2 with
  | none => rfl
  | some T =>
    have hg := load_grows E1 _ _ _ T hl
    simp only [Option.map_some', Option.some.injEq]
    rw [hg.n_outputs]
    rfl

theorem th_usample_position_with_loss (E1 E2 : Ext G) (hd : E2.die = E1.die) (S : Sampler G)
    (l : Loss) (o : Nat) (srange : Nat × Nat) (ip : ipscale_t) :
    th_usample_position E2 (S.with_loss l o) srange ip = th_usample_position E1 S srange ip := by
  funext st p
  simp only [th_usample_position, sample_cost, Sampler.with_loss, hd]

theorem th_usample_walk_with_loss (E1 E2 : Ext G) (hd : E2.die = E1.die) (S : Sampler G)
    (l : Loss) (o : Nat) (srange : Nat × Nat) : ∀ (ips : List ipscale_t) (st : Walk G),
      th_usample_walk E2 (S.with_loss l o) srange ips st = th_usample_walk E1 S srange ips st
  | [], st => rfl
  | ip :: ips, st => by
    have hs : ∀ st1, th_usample_scale E2 (S.with_loss l o) srange st1 ip =
        th_usample_scale E1 S srange st1 ip := by
      intro st1
      unfold th_usample_scale
      rw [th_usample_position_with_loss E1 E2 hd]
    simp only [th_usample_walk, hs]
    split_ifs
    · cases th_usample_scale E1 S srange st ip with
      | none => rfl
      | some st1 => exact th_usample_walk_with_loss E1 E2 hd S l o srange ips st1
    · rfl

theorem th_usample_with_loss (E1 E2 : Ext G) (hd : E2.die = E1.die) (S : Sampler G)
    (l : Loss) (o : Nat) (ith : Nat) (srange : Nat × Nat) (samples : List Nat) :
    Sampler.th_usample E2 (S.with_loss l o) ith srange samples =
      (Sampler.th_usample E1 S ith srange samples).map (fun x => (x.1, x.2.with_loss l o)) := by
  unfold Sampler.th_usample
  split_ifs
  · rfl
  · have h1 : (S.with_loss l o).m_rgens = S.m_rgens := rfl
    have h2 : (S.with_loss l o).sample2image srange.1 = S.sample2image srange.1 := rfl
    have h3 : (S.with_loss l o).m_ipsbegins = S.m_ipsbegins := rfl
    have h4 : (S.with_loss l o).m_ipscales = S.m_ipscales := rfl
    rw [h1]
    cases S.m_rgens[ith]? with
    | none => rfl
    | some gen =>
      simp only [h2, h3, h4]
      cases S.m_ipsbegins[S.sample2image srange.1]? with
      | none => rfl
      | some s =>
        simp only [th_usample_walk_with_loss E1 E2 hd]
        cases th_usample_walk E1 S srange (List.drop (S.sample2image srange.1) S.m_ipscales)
            { s := s, samples := samples, gen := gen } with
        | none => rfl
        | some st => rfl

theorem thread_iloop_with_loss (E1 E2 : Ext G) (hd : E2.die = E1.die) (l : Loss) (o : Nat) :
    ∀ (ranges : List (Nat × Nat)) (ith : Nat) (S : Sampler G),
      thread_iloop (Sampler.th_usample E2) ranges ith (S.with_loss l o) =
        (thread_iloop (Sampler.th_usample E1) ranges ith S).map
          (fun x => (x.1, x.2.with_loss l o))
  | [], ith, S => rfl
  | r :: ranges, ith, S => by
    simp only [thread_iloop, th_usample_with_loss E1 E2 hd]
    cases Sampler.th_usample E1 S ith r [] with
    | none => rfl
    | some x =>
      obtain ⟨out, T⟩ := x
      simp only [Option.map_some', thread_iloop_with_loss E1 E2 hd l o ranges (ith + 1) T]
      cases thread_iloop (Sampler.th_usample E1) ranges (ith + 1) T with
      | none => rfl
      | some y => rfl

theorem uniform_sprobs_fresh (S : Sampler G) (n : Nat) (p : List ℚ)
    (h1 : S.m_tcounts.length = S.m_n_types) (h2 : S.m_sprobs.length = S.m_n_types)
    (hp : p.length = S.m_n_types) :
    Sampler.uniform_sprobs { S with m_sprobs := p } n = S.uniform_sprobs n := by
  obtain ⟨sp1, a1, a2, a3⟩ := uniform_sprobs_spec S n h1 h2
  obtain ⟨sp2, b1, b2, b3⟩ := uniform_sprobs_spec { S with m_sprobs := p } n h1 hp
  rw [a1, b1]
  congr 1
  apply List.ext_getElem?
  intro t
  by_cases ht : t < S.m_n_types
  · rw [a3 t ht, b3 t ht]
  · rw [List.getElem?_eq_none (by simp only at b2; omega), List.getElem?_eq_none (by omega)]

theorem sample_with_loss (E1 E2 : Ext G) (hd : E2.die = E1.die)
    (hn : E2.n_threads = E1.n_threads) (hr : E2.thread_ranges = E1.thread_ranges)
    (S : Sampler G) (l : Loss) (o : Nat) (p : List ℚ) (n : Nat)
    (h1 : S.m_tcounts.length = S.m_n_types) (h2 : S.m_sprobs.length = S.m_n_types)
    (hp : p.length = S.m_n_types) :
    Sampler.sample E2 { S with m_loss := l, m_n_outputs := o, m_sprobs := p } n =
      (Sampler.sample E1 S n).map (fun x => (x.1, x.2.with_loss l o)) := by
  have hu : Sampler.uniform_sprobs { S with m_loss := l, m_n_outputs := o, m_sprobs := p } n =
      S.uniform_sprobs n := by
    rw [← uniform_sprobs_fresh S n p h1 h2 hp]
    rfl
  unfold Sampler.sample
  rw [hu, hr, hn]
  cases S.uniform_sprobs n with
  | none => rfl
  | some sprobs =>
    simp only
    have hw : ({ S with m_loss := l, m_n_outputs := o, m_sprobs := sprobs } : Sampler G) =
        Sampler.with_loss { S with m_sprobs := sprobs } l o := rfl
    rw [hw, thread_iloop_with_loss E1 E2 hd]
    cases thread_iloop (Sampler.th_usample E1) (E1.thread_ranges S.m_n_samples) 0
        { S with m_sprobs := sprobs } with
    | none => rfl
    | some x =>
      obtain ⟨outs, T⟩ := x
      simp only [Option.map_some']
      cases merge_samples E1.n_threads outs with
      | none => rfl
      | some samples => rfl

theorem loaded_sample (E : Ext G) (param : param_t) (ifiles gfiles : List String)
    (S : Sampler G) (hS : Sampler.load E (Sampler.init E param) ifiles gfiles = some S)
    (n_target : Nat)
    (hsplit : split_ok (E.thread_ranges S.m_n_samples) E.n_threads S.m_n_samples) :
    ∃ samples T, Sampler.sample E S n_target = some (samples, T) ∧
      samples.Sorted (fun a b => a ≤ b) := by
  obtain ⟨h1, h2, h3⟩ := loaded_type_vectors E param ifiles gfiles S hS
  obtain ⟨sprobs, hsp, hspl, _⟩ := uniform_sprobs_spec S n_target h1 h2
  have hready := loaded_ready E param ifiles gfiles S hS sprobs S.m_rgens hspl
  obtain ⟨outs, T, e1, e2, _, _⟩ := thread_iloop_spec E (E.thread_ranges S.m_n_samples) 0
    { S with m_sprobs := sprobs, m_rgens := S.m_rgens } 0 hready hsplit.2
    (by simp only [zero_add]; rw [hsplit.1, h3])
  have hmerge : merge_samples E.n_threads outs = some outs.flatten := by
    rw [← hsplit.1, ← e2]
    exact merge_samples_eq outs
  refine ⟨outs.flatten.insertionSort (fun a b => a ≤ b), T, ?_, List.sorted_insertionSort _ _⟩
  unfold Sampler.sample
  have e1b : thread_iloop (Sampler.th_usample E) (E.thread_ranges S.m_n_samples) 0
      { S with m_sprobs := sprobs } = some (outs, T) := e1
  simp only [hsp, e1b, hmerge]

/-- C18: determinism of uniform sampling. Take two runs `E1` and `E2` that agree on
the tagger, the list files, the pyramids, the number of threads and their ranges, the
seeded generator and the die (their loss and `resize` may differ), and let the
constructor of the first run return `S1` with its thread ranges a contiguous split of
`[0, n_samples())`. Then the constructor of the second run returns too, uniform
`Sampler::sample` with the same `n_target` returns in both runs, the two returned
lists are the same sorted list, and the generators are left in the same states.
Moreover the list does not depend on the members that sampling does not read:
replacing the loss, the number of outputs and the stale weights `m_sprobs` (by any
vector of `n_types()` entries) leaves the returned list the same. -/
theorem uniform_sample_deterministic (E1 E2 : Ext G) (param : param_t) (type : SamplerType)
    (h : SameRun E1 E2 param) (S1 : Sampler G) (hS1 : Sampler.new E1 param type = some S1)
    (hsplit : split_ok (E1.thread_ranges S1.m_n_samples) E1.n_threads S1.m_n_samples)
    (n_target : Nat) :
    ∃ S2 samples T1 T2, Sampler.new E2 param type = some S2 ∧
      S1.sample E1 n_target = some (samples, T1) ∧
      S2.sample E2 n_target = some (samples, T2) ∧
      samples.Sorted (fun a b => a ≤ b) ∧ T2.m_rgens = T1.m_rgens ∧
      ∀ (l : Loss) (o : Nat) (p : List ℚ), p.length = S1.m_n_types →
        (Sampler.sample E2 { S1 with m_loss := l, m_n_outputs := o, m_sprobs := p }
          n_target).map Prod.fst = some samples := by
  have hload : Sampler.load E1 (Sampler.init E1 param) (Sampler.listfiles E1 param type).1
      (Sampler.listfiles E1 param type).2 = some S1 := hS1
  obtain ⟨h1, h2, _⟩ := loaded_type_vectors E1 param _ _ S1 hload
  obtain ⟨samples, T1, e1, e2⟩ := loaded_sample E1 param _ _ S1 hload n_target hsplit
  have hnew := new_with_loss E1 E2 param type h
  rw [hS1] at hnew
  have hs := sample_with_loss E1 E2 h.die h.n_threads h.ranges S1
  refine ⟨_, samples, T1, T1.with_loss (E2.make_loss param) S1.m_n_outputs, hnew, e1, ?_, e2,
    rfl, fun l o p hp => ?_⟩
  · have := hs (E2.make_loss param) S1.m_n_outputs S1.m_sprobs n_target h1 h2 h2
    rw [e1] at this
    exact this
  · rw [hs l o p n_target h1 h2 hp, e1]
    rfl

theorem ex_same_run : SameRun ex_ext ex_ext2 ex_param := by
  constructor <;> rfl

theorem uniform_sample_deterministic_witness :
    SameRun ex_ext ex_ext2 ex_param ∧
    Sampler.new ex_ext ex_param SamplerType.TrainSampler = some ex_sampler ∧
    split_ok (ex_ext.thread_ranges ex_sampler.m_n_samples) ex_ext.n_threads
      ex_sampler.m_n_samples ∧
    ∃ S2 samples T1 T2, Sampler.new ex_ext2 ex_param SamplerType.TrainSampler = some S2 ∧
      ex_sampler.sample ex_ext 20 = some (samples, T1) ∧
      S2.sample ex_ext2 20 = some (samples, T2) ∧
      samples.Sorted (fun a b => a ≤ b) ∧ T2.m_rgens = T1.m_rgens ∧
      ∀ (l : Loss) (o : Nat) (p : List ℚ), p.length = ex_sampler.m_n_types →
        (Sampler.sample ex_ext2 { ex_sampler with m_loss := l, m_n_outputs := o, m_sprobs := p }
          20).map Prod.fst = some samples :=
  ⟨ex_same_run, ex_new, ex_split,
    uniform_sample_deterministic ex_ext ex_ext2 ex_param SamplerType.TrainSampler ex_same_run
      ex_sampler ex_new ex_split 20⟩

/-! ## The generators of the constructor -/

/-- C22: all per-thread generators start in the same state. The member initialiser
fills `m_rgens` with `n_threads()` copies of `mt19937(param.m_seed)` and loading does
not touch them: in every constructed sampler `m_rgens` is that vector, every thread
below `n_threads()` has the seeded generator, and any two threads have equal
generator states and would draw the same first `k` uniform values, for every `k`. -/
theorem constructor_generators (E : Ext G) (param : param_t) (type : SamplerType)
    (S : Sampler G) (hS : Sampler.new E param type = some S) :
    (Sampler.init E param).m_rgens = List.replicate E.n_threads (E.mt19937 param.m_seed) ∧
    S.m_rgens = List.replicate E.n_threads (E.mt19937 param.m_seed) ∧
    (∀ i, i < E.n_threads → S.m_rgens[i]? = some (E.mt19937 param.m_seed)) ∧
    ∀ (i j : Nat) (gi gj : G), S.m_rgens[i]? = some gi → S.m_rgens[j]? = some gj →
      gi = gj ∧ ∀ k, draws E k gi = draws E k gj := by
  have hload : Sampler.load E (Sampler.init E param) (Sampler.listfiles E param type).1
      (Sampler.listfiles E param type).2 = some S := hS
  have hg := load_grows E _ _ _ S hload
  have hr : S.m_rgens = List.replicate E.n_threads (E.mt19937 param.m_seed) := by
    rw [hg.rgens]
    rfl
  refine ⟨rfl, hr, fun i hi => ?_, fun i j gi gj hi hj => ?_⟩
  · rw [hr, List.getElem?_replicate, if_pos hi]
  · rw [hr] at hi hj
    have e1 := List.eq_of_mem_replicate (List.getElem?_mem hi)
    have e2 := List.eq_of_mem_replicate (List.getElem?_mem hj)
    rw [e1, e2]
    exact ⟨rfl, fun k => rfl⟩

theorem constructor_generators_witness :
    Sampler.new ex_ext ex_param SamplerType.TrainSampler = some ex_sampler ∧
    (Sampler.init ex_ext ex_param).m_rgens =
      List.replicate ex_ext.n_threads (ex_ext.mt19937 ex_param.m_seed) ∧
    ex_sampler.m_rgens = List.replicate ex_ext.n_threads (ex_ext.mt19937 ex_param.m_seed) ∧
    (∀ i, i < ex_ext.n_threads → ex_sampler.m_rgens[i]? = some (ex_ext.mt19937 ex_param.m_seed)) ∧
    ∀ (i j : Nat) (gi gj : Nat), ex_sampler.m_rgens[i]? = some gi →
      ex_sampler.m_rgens[j]? = some gj → gi = gj ∧ ∀ k, draws ex_ext k gi = draws ex_ext k gj :=
  ⟨ex_new, constructor_generators ex_ext ex_param SamplerType.TrainSampler ex_sampler ex_new⟩

/-! ## Replaying a range in two parts -/

theorem replay_append (E : Ext G) (sprobs : List ℚ) (srange : Nat × Nat) :
    ∀ (ws1 ws2 : List Window) (s : Nat) (r : List Nat × G),
      replay E sprobs srange s (ws1 ++ ws2) r =
        replay E sprobs srange (s + ws1.length) ws2 (replay E sprobs srange s ws1 r)
  | [], ws2, s, r => rfl
  | w :: ws1, ws2, s, r => by
    simp only [List.cons_append, replay, List.length_cons]
    have hs : s + (ws1.length + 1) = s + 1 + ws1.length := by omega
    rw [hs]
    split_ifs
    · exact replay_append E sprobs srange ws1 ws2 (s + 1) _
    · exact replay_append E sprobs srange ws1 ws2 (s + 1) r

theorem replay_outside (E : Ext G) (sprobs : List ℚ) (srange : Nat × Nat) :
    ∀ (ws : List Window) (s : Nat) (r : List Nat × G),
      (srange.2 ≤ s ∨ s + ws.length ≤ srange.1) → replay E sprobs srange s ws r = r
  | [], _, _, _ => rfl
  | w :: ws, s, r, h => by
    simp only [List.length_cons] at h
    simp only [replay]
    rw [if_neg (by omega)]
    exact replay_outside E sprobs srange ws (s + 1) r (by omega)

theorem usample_windows_replay (E : Ext G) (S : Sampler G) (srange : Nat × Nat) :
    ∀ (ws : List Window) (st : Walk G), (∀ w ∈ ws, w.type < S.m_sprobs.length) →
      ws.foldlM (usample_window E S srange) st =
        some { s := st.s + ws.length
               samples := (replay E S.m_sprobs srange st.s ws (st.samples, st.gen)).1
               gen := (replay E S.m_sprobs srange st.s ws (st.samples, st.gen)).2 }
  | [], st, _ => rfl
  | w :: ws, st, h => by
    have hw := h w (List.mem_cons_self _ _)
    have ih := usample_windows_replay E S srange ws
    have hrest : ∀ x ∈ ws, x.type < S.m_sprobs.length :=
      fun x hx => h x (List.mem_cons_of_mem _ hx)
    rw [List.foldlM_cons]
    by_cases hr : st.s ≥ srange.1 ∧ st.s < srange.2
    · have hstep : usample_window E S srange st w = some
          { s := st.s + 1
            samples := (sample_cost E st.s (S.m_sprobs.getD w.type 0) st.gen st.samples).1
            gen := (sample_cost E st.s (S.m_sprobs.getD w.type 0) st.gen st.samples).2 } := by
        unfold usample_window
        simp only [hr, and_self, if_true, List.getElem?_eq_getElem hw,
          List.getD_eq_getElem?_getD, Option.getD_some]
      simp only [hstep, Option.bind_eq_bind, Option.some_bind]
      rw [ih _ hrest]
      simp only [replay, if_pos hr, List.length_cons, Option.some.injEq, Walk.mk.injEq, and_true]
      omega
    · have hstep : usample_window E S srange st w = some { st with s := st.s + 1 } := by
        unfold usample_window
        rw [if_neg hr]
      simp only [hstep, Option.bind_eq_bind, Option.some_bind]
      rw [ih _ hrest]
      simp only [replay, if_neg hr, List.length_cons, Option.some.injEq, Walk.mk.injEq, and_true]
      omega

theorem replay_empty_range (E : Ext G) (sprobs : List ℚ) (srange : Nat × Nat)
    (h : srange.2 ≤ srange.1) : ∀ (ws : List Window) (s : Nat) (r : List Nat × G),
      replay E sprobs srange s ws r = r
  | [], _, _ => rfl
  | w :: ws, s, r => by
    simp only [replay]
    rw [if_neg (by omega)]
    exact replay_empty_range E sprobs srange h ws (s + 1) r

theorem th_usample_scale_replay (E : Ext G) (S : Sampler G) (srange : Nat × Nat) (st : Walk G)
    (ip : ipscale_t) (hs : (scan_positions ip).isSome)
    (ht : ∀ w ∈ scale_windows S.m_tagger ip, w.type < S.m_sprobs.length) :
    th_usample_scale E S srange st ip =
      some { s := st.s + (scale_windows S.m_tagger ip).length
             samples := (replay E S.m_sprobs srange st.s (scale_windows S.m_tagger ip)
               (st.samples, st.gen)).1
             gen := (replay E S.m_sprobs srange st.s (scale_windows S.m_tagger ip)
               (st.samples, st.gen)).2 } := by
  obtain ⟨ps, hps⟩ := Option.isSome_iff_exists.mp hs
  have hw : scale_windows S.m_tagger ip = tagged S.m_tagger ip ps := by
    simp [scale_windows, hps]
  unfold th_usample_scale
  simp only [hps]
  rw [th_usample_fold_eq, ← hw]
  exact usample_windows_replay E S srange _ st ht

theorem th_usample_walk_replay (E : Ext G) (S : Sampler G) (srange : Nat × Nat) :
    ∀ (ips : List ipscale_t) (bs es : List Nat) (n : Nat) (st : Walk G),
      table_from S.m_tagger st.s ips bs es n →
      (∀ ip ∈ ips, ∀ w ∈ scale_windows S.m_tagger ip, w.type < S.m_sprobs.length) →
      ∃ st1, th_usample_walk E S srange ips st = some st1 ∧
        (st1.samples, st1.gen) = replay E S.m_sprobs srange st.s
          (ips.flatMap (scale_windows S.m_tagger)) (st.samples, st.gen)
  | [], _, _, _, st, _, _ => ⟨st, rfl, rfl⟩
  | ip :: ips, [], _, _, _, h, _ => by simp [table_from] at h
  | ip :: ips, _ :: _, [], _, _, h, _ => by simp [table_from] at h
  | ip :: ips, b :: bs, e :: es, n, st, h, ht => by
    simp only [table_from] at h
    obtain ⟨_, hs, _, he, htab⟩ := h
    unfold th_usample_walk
    by_cases hlt : st.s < srange.2
    · have e1 := th_usample_scale_replay E S srange st ip hs (ht ip (List.mem_cons_self _ _))
      have htab0 : table_from S.m_tagger (st.s + (scale_windows S.m_tagger ip).length) ips bs es
          n := by
        rw [← he]
        exact htab
      obtain ⟨st1, f1, f2⟩ := th_usample_walk_replay E S srange ips bs es n
        { s := st.s + (scale_windows S.m_tagger ip).length
          samples := (replay E S.m_sprobs srange st.s (scale_windows S.m_tagger ip)
            (st.samples, st.gen)).1
          gen := (replay E S.m_sprobs srange st.s (scale_windows S.m_tagger ip)
            (st.samples, st.gen)).2 } htab0
        (fun i hi => ht i (List.mem_cons_of_mem _ hi))
      refine ⟨st1, ?_, ?_⟩
      · simp only [hlt, if_true, e1]
        exact f1
      · rw [f2, List.flatMap_cons, replay_append]
    · refine ⟨st, by simp [hlt], ?_⟩
      rw [replay_outside E S.m_sprobs srange _ st.s _ (Or.inl (by omega))]

theorem set_same {α : Type} (l : List α) (i : Nat) (x : α) (h : l[i]? = some x) :
    l.set i x = l := by
  apply List.ext_getElem?
  intro j
  rw [List.getElem?_set]
  split_ifs with h1 h2
  · subst h1
    exact h.symm
  · subst h1
    rw [List.getElem?_eq_none (by omega)]
  · rfl

theorem th_usample_exact (E : Ext G) (S : Sampler G) (hr : Ready S) (ith : Nat) (gen : G)
    (srange : Nat × Nat) (samples : List Nat) (hgen : S.m_rgens[ith]? = some gen)
    (hrange : srange.2 ≤ S.m_n_samples) :
    S.th_usample E ith srange samples =
      some ((replay E S.m_sprobs srange 0 S.windows (samples, gen)).1,
        { S with m_rgens := (S.m_rgens.set ith
            (replay E S.m_sprobs srange 0 S.windows (samples, gen)).2) }) := by
  unfold Sampler.th_usample
  by_cases hge : srange.1 ≥ srange.2
  · rw [if_pos hge, replay_empty_range E S.m_sprobs srange hge, set_same _ _ _ hgen]
  · rw [if_neg hge]
    have hfacts := table_from_facts _ _ _ _ _ _ hr.table
    have hfirst : srange.1 < S.m_n_samples := by omega
    obtain ⟨hi0, hb0, _⟩ := (sample2image_facts S hfacts srange.1).1 hfirst
    unfold Sampler.n_images at hi0
    have hbl : S.sample2image srange.1 < S.m_ipsbegins.length := by
      rw [hfacts.begins_length]
      exact hi0
    have hbget : S.m_ipsbegins[S.sample2image srange.1]? =
        some (S.m_ipsbegins.getD (S.sample2image srange.1) 0) := by
      simp [List.getD_eq_getElem?_getD, List.getElem?_eq_getElem hbl]
    obtain ⟨hdrop, hs0⟩ := table_from_drop _ _ _ _ _ _ _ hr.table hi0
    have htypes : ∀ ip ∈ S.m_ipscales.drop (S.sample2image srange.1),
        ∀ w ∈ scale_windows S.m_tagger ip, w.type < S.m_sprobs.length := by
      intro ip hip w hw
      apply hr.types
      unfold Sampler.windows
      exact List.mem_flatMap.mpr ⟨ip, List.mem_of_mem_drop hip, hw⟩
    obtain ⟨st1, e1, e2⟩ := th_usample_walk_replay E S srange _ _ _ _
      { s := S.m_ipsbegins.getD (S.sample2image srange.1) 0, samples := samples, gen := gen }
      hdrop htypes
    simp only [hgen, hbget, e1]
    have hsplit : S.windows =
        (S.m_ipscales.take (S.sample2image srange.1)).flatMap (scale_windows S.m_tagger) ++
        (S.m_ipscales.drop (S.sample2image srange.1)).flatMap (scale_windows S.m_tagger) := by
      unfold Sampler.windows
      rw [← List.flatMap_append, List.take_append_drop]
    simp only [zero_add] at hs0
    have hall : replay E S.m_sprobs srange 0 S.windows (samples, gen) = (st1.samples, st1.gen) := by
      rw [e2, hsplit, replay_append, replay_outside E S.m_sprobs srange _ 0 _
        (Or.inr (by omega)), zero_add, ← hs0]
    rw [hall]

theorem replay_cons_in (E : Ext G) (sprobs : List ℚ) (srange : Nat × Nat) (s : Nat)
    (w : Window) (ws : List Window) (r : List Nat × G) (h : s ≥ srange.1 ∧ s < srange.2) :
    replay E sprobs srange s (w :: ws) r =
      replay E sprobs srange (s + 1) ws (sample_cost E s (sprobs.getD w.type 0) r.2 r.1) := by
  simp only [replay]
  rw [if_pos h]

theorem replay_cons_out (E : Ext G) (sprobs : List ℚ) (srange : Nat × Nat) (s : Nat)
    (w : Window) (ws : List Window) (r : List Nat × G) (h : ¬(s ≥ srange.1 ∧ s < srange.2)) :
    replay E sprobs srange s (w :: ws) r = replay E sprobs srange (s + 1) ws r := by
  simp only [replay]
  rw [if_neg h]

theorem replay_split (E : Ext G) (sprobs : List ℚ) (a b c : Nat) (hab : a ≤ b) (hbc : b ≤ c) :
    ∀ (ws : List Window) (s : Nat) (r : List Nat × G),
      replay E sprobs (a, c) s ws r =
        replay E sprobs (b, c) s ws (replay E sprobs (a, b) s ws r)
  | [], _, _ => rfl
  | w :: ws, s, r => by
    have ih := replay_split E sprobs a b c hab hbc ws (s + 1)
    by_cases h1 : s < b
    · by_cases h2 : a ≤ s
      · rw [replay_cons_in E sprobs (a, c) s w ws r (by simp only; omega),
          replay_cons_in E sprobs (a, b) s w ws r (by simp only; omega),
          replay_cons_out E sprobs (b, c) s w ws _ (by simp only; omega)]
        exact ih _
      · rw [replay_cons_out E sprobs (a, c) s w ws r (by simp only; omega),
          replay_cons_out E sprobs (a, b) s w ws r (by simp only; omega),
          replay_cons_out E sprobs (b, c) s w ws _ (by simp only; omega)]
        exact ih _
    · rw [replay_outside E sprobs (a, b) (w :: ws) s r (Or.inl (by simp only; omega))]
      by_cases h3 : s < c
      · rw [replay_cons_in E sprobs (a, c) s w ws r (by simp only; omega),
          replay_cons_in E sprobs (b, c) s w ws r (by simp only; omega), ih,
          replay_outside E sprobs (a, b) ws (s + 1) _ (Or.inl (by simp only; omega))]
      · rw [replay_outside E sprobs (a, c) (w :: ws) s r (Or.inl (by simp only; omega)),
          replay_outside E sprobs (b, c) (w :: ws) s r (Or.inl (by simp only; omega))]

theorem sample_cost_onto (E : Ext G) (s : Nat) (c : ℚ) (gen : G) (pre x : List Nat) :
    sample_cost E s c gen (pre ++ x) =
      (pre ++ (sample_cost E s c gen x).1, (sample_cost E s c gen x).2) := by
  rw [sample_cost_eq, sample_cost_eq, List.append_assoc]

theorem replay_out (E : Ext G) (sprobs : List ℚ) (srange : Nat × Nat) :
    ∀ (ws : List Window) (s : Nat) (pre x : List Nat) (g : G),
      replay E sprobs srange s ws (pre ++ x, g) =
        (pre ++ (replay E sprobs srange s ws (x, g)).1, (replay E sprobs srange s ws (x, g)).2)
  | [], _, _, _, _ => rfl
  | w :: ws, s, pre, x, g => by
    simp only [replay]
    split_ifs
    · rw [sample_cost_onto, replay_out E sprobs srange ws (s + 1) pre]
    · exact replay_out E sprobs srange ws (s + 1) pre x g

theorem replay_onto (E : Ext G) (sprobs : List ℚ) (srange : Nat × Nat) (ws : List Window)
    (s : Nat) (v : List Nat) (g : G) :
    replay E sprobs srange s ws (v, g) =
      (v ++ (replay E sprobs srange s ws ([], g)).1, (replay E sprobs srange s ws ([], g)).2) := by
  have := replay_out E sprobs srange ws s v [] g
  rw [List.append_nil] at this
  exact this

theorem replay_gen (E : Ext G) (sprobs : List ℚ) (a b : Nat) :
    ∀ (ws : List Window) (s : Nat) (r : List Nat × G), b ≤ s + ws.length →
      (replay E sprobs (a, b) s ws r).2 = advance E (b - a - (s - a)) r.2
  | [], s, r, h => by
    simp only [List.length_nil, add_zero] at h
    have hz : b - a - (s - a) = 0 := by omega
    rw [hz]
    rfl
  | w :: ws, s, r, h => by
    simp only [List.length_cons] at h
    have ih := replay_gen E sprobs a b ws (s + 1)
    by_cases hr : s ≥ a ∧ s < b
    · rw [replay_cons_in E sprobs (a, b) s w ws r hr, ih _ (by omega), sample_cost_eq]
      have hk : b - a - (s - a) = (b - a - (s + 1 - a)) + 1 := by omega
      rw [hk]
      rfl
    · rw [replay_cons_out E sprobs (a, b) s w ws r hr, ih _ (by omega)]
      have hk : b - a - (s - a) = b - a - (s + 1 - a) := by omega
      rw [hk]

theorem advance_add (E : Ext G) : ∀ (m n : Nat) (g : G),
    advance E (m + n) g = advance E n (advance E m g)
  | 0, n, g => by rw [Nat.zero_add]; rfl
  | m + 1, n, g => by
    have h : m + 1 + n = (m + n) + 1 := by omega
    rw [h]
    exact advance_add E m n (E.die g).2

/-- C21: replaying a range in two parts. On a loaded sampler with any weights (one per
type) and any generator states, for thread `ith` with generator state `gen` and all
`a <= b <= c <= n_samples()`: `th_usample` on `[a, b)` returns with some list `o1`
appended to its output vector, then `th_usample` on `[b, c)`, run on the sampler the
first call leaves, returns with some `o2` appended (the same `o2` whatever vector it
appends to), and one call on `[a, c)` from the first state appends `o1 ++ o2` and
leaves the same sampler as the two calls. The first call leaves the generator of the
thread `b - a` draws after `gen`, the two calls together and the single call leave it
`c - a` draws after `gen`, and no other generator is touched. -/
theorem th_usample_replay (E : Ext G) (param : param_t) (ifiles gfiles : List String)
    (S : Sampler G) (hS : Sampler.load E (Sampler.init E param) ifiles gfiles = some S)
    (sprobs : List ℚ) (hsp : sprobs.length = S.m_n_types) (gens : List G) (ith : Nat) (gen : G)
    (hgen : gens[ith]? = some gen) (a b c : Nat) (hab : a ≤ b) (hbc : b ≤ c)
    (hc : c ≤ S.m_n_samples) (samples other : List Nat) :
    ∃ o1 o2 S1 S2,
      Sampler.th_usample E { S with m_sprobs := sprobs, m_rgens := gens } ith (a, b) samples =
        some (samples ++ o1, S1) ∧
      Sampler.th_usample E S1 ith (b, c) (samples ++ o1) = some (samples ++ o1 ++ o2, S2) ∧
      Sampler.th_usample E { S with m_sprobs := sprobs, m_rgens := gens } ith (a, c) samples =
        some (samples ++ o1 ++ o2, S2) ∧
      Sampler.th_usample E S1 ith (b, c) other = some (other ++ o2, S2) ∧
      S1.m_rgens = gens.set ith (advance E (b - a) gen) ∧
      S2.m_rgens = gens.set ith (advance E (c - a) gen) ∧
      advance E (c - a) gen = advance E (c - b) (advance E (b - a) gen) := by
  have hready := loaded_ready E param ifiles gfiles S hS sprobs gens hsp
  have hlen : S.windows.length = S.m_n_samples := by
    have x := ready_windows_length hready
    exact x
  have hith : ith < gens.length := by
    by_contra hcon
    rw [List.getElem?_eq_none (by omega)] at hgen
    cases hgen
  have hg1 := replay_gen E sprobs a b S.windows 0 (([] : List Nat), gen) (by omega)
  have hg2 := replay_gen E sprobs b c S.windows 0
    (([] : List Nat), (replay E sprobs (a, b) 0 S.windows ([], gen)).2) (by omega)
  simp only [Nat.zero_sub, Nat.sub_zero] at hg1 hg2
  have hadd : advance E (c - a) gen = advance E (c - b) (advance E (b - a) gen) := by
    rw [← advance_add]
    congr 1
    omega
  obtain ⟨o1, ho1⟩ : ∃ o1, o1 = (replay E sprobs (a, b) 0 S.windows ([], gen)).1 := ⟨_, rfl⟩
  obtain ⟨o2, ho2⟩ : ∃ o2,
      o2 = (replay E sprobs (b, c) 0 S.windows ([], advance E (b - a) gen)).1 := ⟨_, rfl⟩
  have f1 : ∀ v, replay E sprobs (a, b) 0 S.windows (v, gen) =
      (v ++ o1, advance E (b - a) gen) := by
    intro v
    rw [replay_onto, hg1, ho1]
  have f2 : ∀ v, replay E sprobs (b, c) 0 S.windows (v, advance E (b - a) gen) =
      (v ++ o2, advance E (c - a) gen) := by
    intro v
    rw [hg1] at hg2
    rw [replay_onto, hg2, hadd, ho2]
  have f3 : ∀ v, replay E sprobs (a, c) 0 S.windows (v, gen) =
      (v ++ o1 ++ o2, advance E (c - a) gen) := by
    intro v
    rw [replay_split E sprobs a b c hab hbc, f1, f2]
  have hready1 := loaded_ready E param ifiles gfiles S hS sprobs
    (gens.set ith (advance E (b - a) gen)) hsp
  have hgen1 : (gens.set ith (advance E (b - a) gen))[ith]? = some (advance E (b - a) gen) := by
    rw [List.getElem?_set]
    simp [hith]
  have e1 := th_usample_exact E { S with m_sprobs := sprobs, m_rgens := gens } hready ith gen
    (a, b) samples hgen (by simp only; omega)
  have e3 := th_usample_exact E { S with m_sprobs := sprobs, m_rgens := gens } hready ith gen
    (a, c) samples hgen (by simp only; omega)
  have e2 := fun v => th_usample_exact E _ hready1 ith
    (advance E (b - a) gen) (b, c) v hgen1 (by simp only; omega)
  have hw : ∀ gs, Sampler.windows ({ S with m_sprobs := sprobs, m_rgens := gs } : Sampler G) =
      S.windows := fun _ => rfl
  simp only [hw, f1, f3] at e1 e3
  simp only [hw, f2, List.set_set] at e2
  exact ⟨o1, o2, _, _, e1, e2 _, e3, e2 other, rfl, rfl, hadd⟩

theorem th_usample_replay_witness :
    Sampler.load ex_ext (Sampler.init ex_ext ex_param) ["a", "b", "c"] ["ga", "gb", "gc"] =
      some ex_sampler ∧
    [(3 / 2 : ℚ), 1 / 2].length = ex_sampler.m_n_types ∧ [5, 9][0]? = some 5 ∧
    2 ≤ 7 ∧ 7 ≤ 11 ∧ 11 ≤ ex_sampler.m_n_samples ∧
    ∃ o1 o2 S1 S2,
      Sampler.th_usample ex_ext { ex_sampler with m_sprobs := [3 / 2, 1 / 2], m_rgens := [5, 9] }
        0 (2, 7) [] = some ([] ++ o1, S1) ∧
      Sampler.th_usample ex_ext S1 0 (7, 11) ([] ++ o1) = some ([] ++ o1 ++ o2, S2) ∧
      Sampler.th_usample ex_ext { ex_sampler with m_sprobs := [3 / 2, 1 / 2], m_rgens := [5, 9] }
        0 (2, 11) [] = some ([] ++ o1 ++ o2, S2) ∧
      Sampler.th_usample ex_ext S1 0 (7, 11) [1] = some ([1] ++ o2, S2) ∧
      S1.m_rgens = [5, 9].set 0 (advance ex_ext (7 - 2) 5) ∧
      S2.m_rgens = [5, 9].set 0 (advance ex_ext (11 - 2) 5) ∧
      advance ex_ext (11 - 2) 5 = advance ex_ext (11 - 7) (advance ex_ext (7 - 2) 5) :=
  ⟨ex_load, rfl, rfl, by decide, by decide, by decide,
    th_usample_replay ex_ext ex_param _ _ ex_sampler ex_load [3 / 2, 1 / 2] rfl [5, 9] 0 5 rfl
      2 7 11 (by decide) (by decide) (by decide) [] [1]⟩

end Visioner
